import Mathlib

/-!
# A shallow embedding of the software rasteriser

The C++ sources under `3D Renderer/` are transcribed function by function.

Numeric conventions of the embedding:

* a C++ `float` is an element of an arbitrary linearly ordered field `F` that has a
  floor function; arithmetic is exact (no rounding, no NaN, no infinities), and a
  division by zero follows the field convention `a / 0 = 0`, so statements about a
  division are only meaningful where the divisor is non-zero;
* a C++ `int` is an integer (`Int`). In `draw_line`, whose end points are not clipped,
  every `int` result is reduced to 32 bits (`wrapInt`): signed overflow, undefined in
  C++, is modelled as the two's-complement wrap. Elsewhere overflow is not modelled;
* an `unsigned char` is a natural number, reduced modulo `256` at the conversion;
* the functions of `<cmath>` that the code calls are passed in as a record `Libm F`.
-/

namespace Renderer3D

/-! ## math/Vec3 -/

/-- The `Vec3` struct: three `float` components. -/
structure Vec3 (F : Type) where
  x : F
  y : F
  z : F
deriving DecidableEq, Repr

/-- The functions of `<cmath>` used by the renderer (`std::sqrt`, `std::sin`, `std::cos`,
`std::tan`, `std::pow`); they are not part of the repository and enter as parameters. -/
structure Libm (F : Type) where
  sqrt : F → F
  sin : F → F
  cos : F → F
  tan : F → F
  pow : F → F → F

section Defs

variable {F : Type} [LinearOrderedField F] [FloorRing F]

/-- The conversion `(int)f` of a `float`: truncation toward zero. -/
def truncInt (f : F) : Int := if 0 ≤ f then ⌊f⌋ else ⌈f⌉

/-- The conversion `(unsigned char)f` of a `float`: truncation, then reduction mod 256. -/
def toUChar (f : F) : Nat := (truncInt f % 256).toNat

/-- `std::clamp(v, lo, hi)`. -/
def stdClamp (v lo hi : F) : F := if v < lo then lo else if hi < v then hi else v

namespace Vec3

/-- `Vec3::operator+`. -/
def add (a b : Vec3 F) : Vec3 F := ⟨a.x + b.x, a.y + b.y, a.z + b.z⟩

/-- `Vec3::operator-`. -/
def sub (a b : Vec3 F) : Vec3 F := ⟨a.x - b.x, a.y - b.y, a.z - b.z⟩

/-- `Vec3::operator*(float)`. -/
def smul (a : Vec3 F) (scalar : F) : Vec3 F := ⟨a.x * scalar, a.y * scalar, a.z * scalar⟩

/-- `Vec3::operator*(const Vec3&)`: element-wise product. -/
def mul (a b : Vec3 F) : Vec3 F := ⟨a.x * b.x, a.y * b.y, a.z * b.z⟩

/-- `Vec3::operator/(float)`. -/
def sdiv (a : Vec3 F) (scalar : F) : Vec3 F := ⟨a.x / scalar, a.y / scalar, a.z / scalar⟩

/-- `Vec3::dot`. -/
def dot (a b : Vec3 F) : F := a.x * b.x + a.y * b.y + a.z * b.z

/-- `Vec3::cross`. -/
def cross (a b : Vec3 F) : Vec3 F :=
  ⟨a.y * b.z - a.z * b.y, a.z * b.x - a.x * b.z, a.x * b.y - a.y * b.x⟩

/-- `Vec3::length`. -/
def length (M : Libm F) (a : Vec3 F) : F := M.sqrt (a.x * a.x + a.y * a.y + a.z * a.z)

/-- `Vec3::normalize`. -/
def normalize (M : Libm F) (a : Vec3 F) : Vec3 F :=
  let len := a.length M
  if len > 0 then a.sdiv len else ⟨0, 0, 0⟩

/-- `Vec3::reflect`. -/
def reflect (a normal : Vec3 F) : Vec3 F := a.sub ((normal.smul 2).smul (a.dot normal))

end Vec3

/-! ## math/color.h -/

namespace Color

/-- `Color::clamp`. -/
def clamp (color : Vec3 F) : Vec3 F :=
  ⟨stdClamp color.x 0 1, stdClamp color.y 0 1, stdClamp color.z 0 1⟩

/-- `Color::to_bytes`: the three bytes written through the reference parameters. -/
def to_bytes (color : Vec3 F) : Nat × Nat × Nat :=
  let clamped := clamp color
  (toUChar (clamped.x * 255), toUChar (clamped.y * 255), toUChar (clamped.z * 255))

end Color

/-! ## rendering/framebuffer -/

/-- The `Pixel` struct. -/
structure Pixel (F : Type) where
  r : Nat
  g : Nat
  b : Nat
  depth : F
deriving DecidableEq, Repr

/-- `Pixel::Pixel()`. -/
def Pixel.init : Pixel F := ⟨0, 0, 0, 1⟩

/-- `Pixel::set_color`. -/
def Pixel.set_color (p : Pixel F) (color : Vec3 F) : Pixel F :=
  let bytes := Color.to_bytes color
  { p with r := bytes.1, g := bytes.2.1, b := bytes.2.2 }

/-- The `Framebuffer` class: `pixels` is the row-major `std::vector<Pixel>`. -/
structure Framebuffer (F : Type) where
  width : Int
  height : Int
  pixels : List (Pixel F)
deriving DecidableEq, Repr

namespace Framebuffer

/-- `Framebuffer::Framebuffer(w, h)`: `pixels.resize(width * height)`. -/
def init (w h : Int) : Framebuffer F :=
  ⟨w, h, List.replicate (w * h).toNat Pixel.init⟩

/-- The representation invariant of the class: the vector holds `width * height` pixels
(as sized by the constructor) and every colour field is an `unsigned char`. -/
def WF (fb : Framebuffer F) : Prop :=
  0 ≤ fb.width * fb.height ∧ fb.pixels.length = (fb.width * fb.height).toNat ∧
    ∀ p ∈ fb.pixels, p.r < 256 ∧ p.g < 256 ∧ p.b < 256

/-- `Framebuffer::clear`. -/
def clear (fb : Framebuffer F) (color : Vec3 F) : Framebuffer F :=
  { fb with pixels := fb.pixels.map (fun pixel => { pixel.set_color color with depth := 1 }) }

/-- The element `pixels[index]`; a read outside the vector (undefined in C++) yields a
default pixel. -/
def pixelAt (fb : Framebuffer F) (index : Int) : Pixel F :=
  fb.pixels.getD index.toNat Pixel.init

/-- `Framebuffer::set_pixel`. -/
def set_pixel (fb : Framebuffer F) (x y : Int) (color : Vec3 F) (depth : F) : Framebuffer F :=
  if x ≥ 0 ∧ x < fb.width ∧ y ≥ 0 ∧ y < fb.height then
    let index := y * fb.width + x
    if depth < (fb.pixelAt index).depth then
      { fb with pixels :=
          fb.pixels.set index.toNat { (fb.pixelAt index).set_color color with depth := depth } }
    else fb
  else fb

/-- `Framebuffer::get_pixel_color`. -/
def get_pixel_color (fb : Framebuffer F) (x y : Int) : Vec3 F :=
  if x ≥ 0 ∧ x < fb.width ∧ y ≥ 0 ∧ y < fb.height then
    let index := y * fb.width + x
    let p := fb.pixelAt index
    ⟨(p.r : F) / 255, (p.g : F) / 255, (p.b : F) / 255⟩
  else ⟨0, 0, 0⟩

/-- `Framebuffer::save_ppm`: the characters streamed into the file, or `none` when the
file could not be opened (nothing is written then). -/
def save_ppm (fb : Framebuffer F) (file_is_open : Bool) : Option String :=
  if !file_is_open then none
  else
    let file := "P3\n" ++ toString fb.width ++ " " ++ toString fb.height ++ "\n255\n"
    some (fb.pixels.foldl
      (fun file pixel =>
        file ++ toString pixel.r ++ " " ++ toString pixel.g ++ " " ++ toString pixel.b ++ "\n")
      file)

end Framebuffer

/-! ## math/mat4 -/

/-- The `Mat4` struct: the array `float m[16]`, read row by row by the code. -/
structure Mat4 (F : Type) where
  m : Fin 16 → F

namespace Mat4

/-- The array element `m[n]` for a computed index `n` (every index the code computes is
below 16). -/
def elem (A : Mat4 F) (n : Nat) : F := if h : n < 16 then A.m ⟨n, h⟩ else 0

/-- The assignment `result.m[i] = v`. -/
def set (A : Mat4 F) (i : Fin 16) (v : F) : Mat4 F := ⟨Function.update A.m i v⟩

/-- `Mat4::Mat4()`: the identity matrix. -/
def identity : Mat4 F :=
  ((((⟨fun _ => 0⟩ : Mat4 F).set 0 1).set 5 1).set 10 1).set 15 1

/-- `Mat4::operator*`. -/
def mul (A other : Mat4 F) : Mat4 F :=
  ⟨fun idx =>
    let i := idx.val / 4
    let j := idx.val % 4
    (List.range 4).foldl (fun acc k => acc + A.elem (i * 4 + k) * other.elem (k * 4 + j)) 0⟩

/-- `Mat4::transform_point`. -/
def transform_point (A : Mat4 F) (point : Vec3 F) : Vec3 F :=
  let x := A.m 0 * point.x + A.m 1 * point.y + A.m 2 * point.z + A.m 3
  let y := A.m 4 * point.x + A.m 5 * point.y + A.m 6 * point.z + A.m 7
  let z := A.m 8 * point.x + A.m 9 * point.y + A.m 10 * point.z + A.m 11
  let w := A.m 12 * point.x + A.m 13 * point.y + A.m 14 * point.z + A.m 15
  if w ≠ 0 then ⟨x / w, y / w, z / w⟩ else ⟨x, y, z⟩

/-- `Mat4::transform_direction`. -/
def transform_direction (A : Mat4 F) (dir : Vec3 F) : Vec3 F :=
  ⟨A.m 0 * dir.x + A.m 1 * dir.y + A.m 2 * dir.z,
   A.m 4 * dir.x + A.m 5 * dir.y + A.m 6 * dir.z,
   A.m 8 * dir.x + A.m 9 * dir.y + A.m 10 * dir.z⟩

/-- `Mat4::translation`. -/
def translation (t : Vec3 F) : Mat4 F :=
  (((identity : Mat4 F).set 3 t.x).set 7 t.y).set 11 t.z

/-- `Mat4::scale`. -/
def scale (s : Vec3 F) : Mat4 F :=
  (((identity : Mat4 F).set 0 s.x).set 5 s.y).set 10 s.z

/-- `Mat4::perspective`. -/
def perspective (M : Libm F) (fov aspect near far : F) : Mat4 F :=
  let tan_half_fov := M.tan (fov / 2)
  let result : Mat4 F := identity
  let result := result.set 0 (1 / (aspect * tan_half_fov))
  let result := result.set 5 (1 / tan_half_fov)
  let result := result.set 10 (-(far + near) / (far - near))
  let result := result.set 11 (-(2 * far * near) / (far - near))
  let result := result.set 14 (-1)
  result.set 15 0

/-- `Mat4::look_at`. -/
def look_at (M : Libm F) (eye target up : Vec3 F) : Mat4 F :=
  let forward := (target.sub eye).normalize M
  let right := (forward.cross up).normalize M
  let camera_up := right.cross forward
  let result : Mat4 F := identity
  let result := ((result.set 0 right.x).set 1 right.y).set 2 right.z
  let result := ((result.set 4 camera_up.x).set 5 camera_up.y).set 6 camera_up.z
  let result := ((result.set 8 (-forward.x)).set 9 (-forward.y)).set 10 (-forward.z)
  let result := result.set 3 (-(right.dot eye))
  let result := result.set 7 (-(camera_up.dot eye))
  result.set 11 (forward.dot eye)

end Mat4

/-! ## geometry -/

/-- The `Vertex` struct. -/
structure Vertex (F : Type) where
  position : Vec3 F
  normal : Vec3 F
  color : Vec3 F
deriving DecidableEq, Repr

/-- `Vertex::Vertex(pos)` with the default normal `Vec3()` and colour `Vec3(1, 1, 1)`. -/
def Vertex.ofPosition (pos : Vec3 F) : Vertex F := ⟨pos, ⟨0, 0, 0⟩, ⟨1, 1, 1⟩⟩

/-- The `Triangle` struct. -/
structure Triangle (F : Type) where
  v0 : Int
  v1 : Int
  v2 : Int
  normal : Vec3 F
deriving DecidableEq, Repr

/-- The `Material` struct. -/
structure Material (F : Type) where
  diffuse_color : Vec3 F
  specular_color : Vec3 F
  shininess : F
  ambient_strength : F
deriving DecidableEq, Repr

/-- `Material::Material()` with all default arguments. -/
def Material.init : Material F := ⟨⟨0.7, 0.7, 0.7⟩, ⟨1, 1, 1⟩, 32, 0.1⟩

/-- The element `v[i]` of a `std::vector` at an `int` index; `none` stands for the
undefined out-of-range access. -/
def vectorAt {α : Type} (v : List α) (i : Int) : Option α :=
  if 0 ≤ i then v[i.toNat]? else none

/-- `Triangle::Triangle(a, b, c)` followed by `Triangle::calculate_normal(vertices)`. -/
def Triangle.calculate_normal (M : Libm F) (a b c : Int) (vertices : List (Vertex F)) :
    Option (Triangle F) := do
  let p0 ← vectorAt vertices a
  let p1 ← vectorAt vertices b
  let p2 ← vectorAt vertices c
  let edge1 := p1.position.sub p0.position
  let edge2 := p2.position.sub p0.position
  pure ⟨a, b, c, (edge1.cross edge2).normalize M⟩

/-- The `Mesh` class. -/
structure Mesh (F : Type) where
  vertices : List (Vertex F)
  triangles : List (Triangle F)
  material : Material F
  transform : Mat4 F

namespace Mesh

/-- `Mesh::Mesh(mat)`. -/
def init (mat : Material F) : Mesh F := ⟨[], [], mat, Mat4.identity⟩

/-- `Mesh::add_vertex`. -/
def add_vertex (mesh : Mesh F) (vertex : Vertex F) : Mesh F :=
  { mesh with vertices := mesh.vertices ++ [vertex] }

/-- `Mesh::add_triangle`. -/
def add_triangle (M : Libm F) (mesh : Mesh F) (v0 v1 v2 : Int) : Option (Mesh F) := do
  let tri ← Triangle.calculate_normal M v0 v1 v2 mesh.vertices
  pure { mesh with triangles := mesh.triangles ++ [tri] }

/-- The statement `vertices[i].normal = vertices[i].normal + n`. -/
def accumulate (vertices : List (Vertex F)) (i : Int) (n : Vec3 F) : Option (List (Vertex F)) := do
  let v ← vectorAt vertices i
  pure (vertices.set i.toNat { v with normal := v.normal.add n })

/-- `Mesh::calculate_vertex_normals`. -/
def calculate_vertex_normals (M : Libm F) (mesh : Mesh F) : Option (Mesh F) := do
  let reset := mesh.vertices.map (fun vertex => { vertex with normal := ⟨0, 0, 0⟩ })
  let summed ← mesh.triangles.foldlM
    (fun vertices tri => do
      let vertices ← accumulate vertices tri.v0 tri.normal
      let vertices ← accumulate vertices tri.v1 tri.normal
      accumulate vertices tri.v2 tri.normal)
    reset
  pure { mesh with
    vertices := summed.map (fun vertex => { vertex with normal := vertex.normal.normalize M }) }

/-- The table `positions[8]` of `Mesh::create_cube`. -/
def cube_positions (half : F) : List (Vec3 F) :=
  [⟨-half, -half, -half⟩, ⟨half, -half, -half⟩,
   ⟨half, half, -half⟩, ⟨-half, half, -half⟩,
   ⟨-half, -half, half⟩, ⟨half, -half, half⟩,
   ⟨half, half, half⟩, ⟨-half, half, half⟩]

/-- The table `faces[12][3]` of `Mesh::create_cube`. -/
def cube_faces : List (Int × Int × Int) :=
  [(0, 1, 2), (0, 2, 3),
   (5, 4, 7), (5, 7, 6),
   (4, 0, 3), (4, 3, 7),
   (1, 5, 6), (1, 6, 2),
   (3, 2, 6), (3, 6, 7),
   (4, 5, 1), (4, 1, 0)]

/-- `Mesh::create_cube`. -/
def create_cube (M : Libm F) (size : F) (mat : Material F) : Option (Mesh F) := do
  let half := size * 0.5
  let cube := (cube_positions half).foldl (fun cube p => cube.add_vertex (Vertex.ofPosition p))
    (Mesh.init mat)
  let cube ← cube_faces.foldlM (fun cube f => cube.add_triangle M f.1 f.2.1 f.2.2) cube
  cube.calculate_vertex_normals M

end Mesh

/-! ## lighting/light -/

/-- The `LightType` enumeration. -/
inductive LightType where
  | POINT
  | DIRECTIONAL
deriving DecidableEq, Repr

/-- The `Light` struct. -/
structure Light (F : Type) where
  type : LightType
  position : Vec3 F
  direction : Vec3 F
  color : Vec3 F
  intensity : F
deriving DecidableEq, Repr

/-- `Light::Light`: the member not selected by the type keeps its default `Vec3()`. -/
def Light.init (M : Libm F) (t : LightType) (pos_or_dir col : Vec3 F) (intens : F) : Light F :=
  if t = LightType.POINT then ⟨t, pos_or_dir, ⟨0, 0, 0⟩, col, intens⟩
  else ⟨t, ⟨0, 0, 0⟩, pos_or_dir.normalize M, col, intens⟩

/-! ## rendering/camera -/

/-- The `Camera` class. -/
structure Camera (F : Type) where
  position : Vec3 F
  target : Vec3 F
  up : Vec3 F
  fov : F
  aspect_ratio : F
  near_plane : F
  far_plane : F
deriving DecidableEq, Repr

namespace Camera

/-- The macro `M_PI`. -/
def M_PI : F := 3.14159265358979323846

/-- `Camera::Camera`: the field of view arrives in degrees. -/
def init (pos tgt up_vec : Vec3 F) (field_of_view aspect : F) : Camera F :=
  ⟨pos, tgt, up_vec, field_of_view * M_PI / 180, aspect, 0.1, 100⟩

/-- `Camera::get_view_matrix`. -/
def get_view_matrix (M : Libm F) (camera : Camera F) : Mat4 F :=
  Mat4.look_at M camera.position camera.target camera.up

/-- `Camera::get_projection_matrix`. -/
def get_projection_matrix (M : Libm F) (camera : Camera F) : Mat4 F :=
  Mat4.perspective M camera.fov camera.aspect_ratio camera.near_plane camera.far_plane

/-- `Camera::move_forward`. -/
def move_forward (M : Libm F) (camera : Camera F) (distance : F) : Camera F :=
  let forward := (camera.target.sub camera.position).normalize M
  { camera with
    position := camera.position.add (forward.smul distance)
    target := camera.target.add (forward.smul distance) }

/-- `Camera::move_right`. -/
def move_right (M : Libm F) (camera : Camera F) (distance : F) : Camera F :=
  let forward := (camera.target.sub camera.position).normalize M
  let right := (forward.cross camera.up).normalize M
  { camera with
    position := camera.position.add (right.smul distance)
    target := camera.target.add (right.smul distance) }

end Camera

/-! ## rendering/renderer -/

/-- One call `framebuffer.set_pixel(x, y, color, depth)`. -/
structure Fragment (F : Type) where
  x : Int
  y : Int
  color : Vec3 F
  depth : F
deriving DecidableEq, Repr

/-- Performs one recorded `set_pixel` call. -/
def Framebuffer.submit (fb : Framebuffer F) (fr : Fragment F) : Framebuffer F :=
  fb.set_pixel fr.x fr.y fr.color fr.depth

/-- Performs a sequence of `set_pixel` calls in order. -/
def Framebuffer.submitAll (fb : Framebuffer F) (frs : List (Fragment F)) : Framebuffer F :=
  frs.foldl Framebuffer.submit fb

/-- `std::max(a, b)`. -/
def stdMax (a b : F) : F := if a < b then b else a

/-- `std::min(a, b)`. -/
def stdMin (a b : F) : F := if b < a then b else a

/-- `std::min` of a three-element initializer list. -/
def stdMin3 (a b c : F) : F := stdMin (stdMin a b) c

/-- `std::max` of a three-element initializer list. -/
def stdMax3 (a b c : F) : F := stdMax (stdMax a b) c

/-- The integers `lo, lo + 1, ..., hi` visited by `for (int i = lo; i <= hi; i++)`. -/
def intRange (lo hi : Int) : List Int :=
  (List.range (hi + 1 - lo).toNat).map (fun (i : Nat) => lo + (i : Int))

/-- `std::sort` of the three points with the comparator `a.y < b.y`, as the insertion
sort that the library runs on short ranges: each element moves left past the elements
whose `y` is strictly larger. -/
def sortByY (a b c : Vec3 F) : Vec3 F × Vec3 F × Vec3 F :=
  let (p0, p1) := if b.y < a.y then (b, a) else (a, b)
  if c.y < p0.y then (c, p0, p1)
  else if c.y < p1.y then (p0, c, p1)
  else (p0, p1, c)

/-- The `Renderer` class. -/
structure Renderer (F : Type) where
  framebuffer : Framebuffer F
  ambient_light : Vec3 F
deriving DecidableEq, Repr

namespace Renderer

/-- `Renderer::Renderer`. -/
def init (width height : Int) : Renderer F :=
  ⟨Framebuffer.init width height, ⟨0.2, 0.2, 0.2⟩⟩

/-- `Renderer::clear`. -/
def clear (R : Renderer F) (color : Vec3 F) : Renderer F :=
  { R with framebuffer := R.framebuffer.clear color }

/-- The body of the light loop of `calculate_lighting`: the new `final_color`. -/
def add_light (M : Libm F) (position normal : Vec3 F) (material : Material F)
    (view_dir : Vec3 F) (final_color : Vec3 F) (light : Light F) : Vec3 F :=
  let (light_dir, attenuation) :=
    if light.type = LightType.POINT then
      let light_vec := light.position.sub position
      let distance := light_vec.length M
      (light_vec.sdiv distance, 1 / (1 + 0.1 * distance + 0.01 * distance * distance))
    else
      (light.direction.smul (-1), (1 : F))
  let diffuse_intensity := stdMax 0 (normal.dot light_dir)
  let diffuse := (material.diffuse_color.mul light.color).smul diffuse_intensity
  let reflect_dir := (light_dir.smul (-1)).reflect normal
  let specular_intensity := M.pow (stdMax 0 (view_dir.dot reflect_dir)) material.shininess
  let specular := (material.specular_color.mul light.color).smul specular_intensity
  final_color.add (((diffuse.add specular).smul light.intensity).smul attenuation)

/-- `Renderer::calculate_lighting`. -/
def calculate_lighting (R : Renderer F) (M : Libm F) (position normal : Vec3 F)
    (material : Material F) (lights : List (Light F)) (view_dir : Vec3 F) : Vec3 F :=
  let final_color := (R.ambient_light.mul material.diffuse_color).smul material.ambient_strength
  lights.foldl (add_light M position normal material view_dir) final_color

/-- The value that a 32-bit `int` holds for the mathematical result `n` of an operation:
`n` reduced modulo `2^32` into `[-2^31, 2^31)`. Signed overflow is undefined in C++; the
two's-complement build wraps, which is what this reduction models. -/
def wrapInt (n : Int) : Int := (n + 2147483648) % 4294967296 - 2147483648

/-- The conversion `(int)f` of `draw_line`: truncation toward zero, held in a 32-bit
`int`. -/
def castInt (f : F) : Int := wrapInt (truncInt f)

/-- The statements of the loop body of `draw_line` that follow the `break` test: the new
`x1`, `y1` and `err`. Every `int` result is held in 32 bits. -/
def draw_line_step (dx dy sx sy x1 y1 err : Int) : Int × Int × Int :=
  let e2 := wrapInt (2 * err)
  let (err, x1) :=
    if e2 > wrapInt (-dy) then (wrapInt (err - dy), wrapInt (x1 + sx)) else (err, x1)
  let (err, y1) := if e2 < dx then (wrapInt (err + dx), wrapInt (y1 + sy)) else (err, y1)
  (x1, y1, err)

/-- The `while (true)` loop of `draw_line`, run for at most `fuel` iterations: the
`set_pixel` calls it makes, or `none` when the fuel runs out before the `break`. -/
def draw_line_loop (color : Vec3 F) (depth : F) (x2 y2 dx dy sx sy : Int) :
    Nat → Int → Int → Int → Option (List (Fragment F))
  | 0, _, _, _ => none
  | fuel + 1, x1, y1, err =>
    let frag : Fragment F := ⟨x1, y1, color, depth⟩
    if x1 = x2 ∧ y1 = y2 then some [frag]
    else
      let next := draw_line_step dx dy sx sy x1 y1 err
      (draw_line_loop color depth x2 y2 dx dy sx sy fuel next.1 next.2.1 next.2.2).map
        (fun l => frag :: l)

/-- The `set_pixel` calls that the loop of `draw_line` makes in its first `n` iterations
(all its calls when it reaches the `break` within them). -/
def draw_line_calls (color : Vec3 F) (depth : F) (x2 y2 dx dy sx sy : Int) :
    Nat → Int → Int → Int → List (Fragment F)
  | 0, _, _, _ => []
  | n + 1, x1, y1, err =>
    let frag : Fragment F := ⟨x1, y1, color, depth⟩
    if x1 = x2 ∧ y1 = y2 then [frag]
    else
      let next := draw_line_step dx dy sx sy x1 y1 err
      frag :: draw_line_calls color depth x2 y2 dx dy sx sy n next.1 next.2.1 next.2.2

/-- `Renderer::draw_line`: the sequence of `set_pixel` calls. -/
def draw_line_frags (fuel : Nat) (p1 p2 color : Vec3 F) : Option (List (Fragment F)) :=
  let x1 := castInt p1.x
  let y1 := castInt p1.y
  let x2 := castInt p2.x
  let y2 := castInt p2.y
  let dx := wrapInt |wrapInt (x2 - x1)|
  let dy := wrapInt |wrapInt (y2 - y1)|
  let sx : Int := if x1 < x2 then 1 else -1
  let sy : Int := if y1 < y2 then 1 else -1
  let err := wrapInt (dx - dy)
  draw_line_loop color p1.z x2 y2 dx dy sx sy fuel x1 y1 err

/-- `Renderer::draw_line`: the `set_pixel` calls of its first `n` loop iterations. -/
def draw_line_first_calls (n : Nat) (p1 p2 color : Vec3 F) : List (Fragment F) :=
  let x1 := castInt p1.x
  let y1 := castInt p1.y
  let x2 := castInt p2.x
  let y2 := castInt p2.y
  let dx := wrapInt |wrapInt (x2 - x1)|
  let dy := wrapInt |wrapInt (y2 - y1)|
  let sx : Int := if x1 < x2 then 1 else -1
  let sy : Int := if y1 < y2 then 1 else -1
  let err := wrapInt (dx - dy)
  draw_line_calls color p1.z x2 y2 dx dy sx sy n x1 y1 err

/-- `Renderer::draw_line`: the renderer after the calls. -/
def draw_line (R : Renderer F) (fuel : Nat) (p1 p2 color : Vec3 F) : Option (Renderer F) :=
  (draw_line_frags fuel p1 p2 color).map
    (fun frs => { R with framebuffer := R.framebuffer.submitAll frs })

/-- The body of the inner loop of `draw_triangle_flat` for the sorted points
`points[0], points[1], points[2]` and the pixel `(x, y)`: the `set_pixel` call it makes,
if any. Where the denominator `dot00 * dot11 - dot01 * dot01` is zero the code divides by
zero (its `inv_denom` is infinite and the test fails); the field convention `1 / 0 = 0`
does not model that, and the statements about this function keep to a non-zero
denominator. -/
def flat_pixel (p0 p1 p2 : Vec3 F) (color : Vec3 F) (y x : Int) : Option (Fragment F) :=
  let p : Vec3 F := ⟨(x : F), (y : F), 0⟩
  let v0 := p2.sub p0
  let v1 := p1.sub p0
  let v2 := p.sub p0
  let dot00 := v0.dot v0
  let dot01 := v0.dot v1
  let dot02 := v0.dot v2
  let dot11 := v1.dot v1
  let dot12 := v1.dot v2
  let inv_denom := 1 / (dot00 * dot11 - dot01 * dot01)
  let u := (dot11 * dot02 - dot01 * dot12) * inv_denom
  let v := (dot00 * dot12 - dot01 * dot02) * inv_denom
  if u ≥ 0 ∧ v ≥ 0 ∧ u + v ≤ 1 then
    let z := p0.z + u * (p2.z - p0.z) + v * (p1.z - p0.z)
    some ⟨x, y, color, z⟩
  else none

/-- `Renderer::draw_triangle_flat`: the sequence of `set_pixel` calls. -/
def draw_triangle_flat_frags (R : Renderer F) (M : Libm F) (v1 v2 v3 : Vertex F)
    (face_normal : Vec3 F) (material : Material F) (lights : List (Light F))
    (view_dir : Vec3 F) : List (Fragment F) :=
  let center := ((v1.position.add v2.position).add v3.position).sdiv 3
  let color := R.calculate_lighting M center face_normal material lights view_dir
  let (p0, p1, p2) := sortByY v1.position v2.position v3.position
  (intRange (truncInt p0.y) (truncInt p2.y)).flatMap (fun y =>
    (intRange (truncInt (stdMin3 p0.x p1.x p2.x)) (truncInt (stdMax3 p0.x p1.x p2.x))).filterMap
      (fun x => flat_pixel p0 p1 p2 color y x))

/-- `Renderer::draw_triangle_flat`: the renderer after the calls. -/
def draw_triangle_flat (R : Renderer F) (M : Libm F) (v1 v2 v3 : Vertex F)
    (face_normal : Vec3 F) (material : Material F) (lights : List (Light F))
    (view_dir : Vec3 F) : Renderer F :=
  let frs := draw_triangle_flat_frags R M v1 v2 v3 face_normal material lights view_dir
  { R with framebuffer := R.framebuffer.submitAll frs }

/-- The body of the vertex loop of `render_mesh`: the transformed vertex. -/
def transform_vertex (R : Renderer F) (M : Libm F) (mvp transform : Mat4 F)
    (vertex : Vertex F) : Vertex F :=
  let clip_pos := mvp.transform_point vertex.position
  let position : Vec3 F :=
    if clip_pos.z ≠ 0 then
      ⟨(clip_pos.x / clip_pos.z + 1) * (R.framebuffer.width : F) * 0.5,
       (1 - clip_pos.y / clip_pos.z) * (R.framebuffer.height : F) * 0.5,
       clip_pos.z⟩
    else vertex.position
  { vertex with
    position := position
    normal := (transform.transform_direction vertex.normal).normalize M }

/-- The `screen_normal` of the culling test of `render_mesh`. -/
def screen_normal (v1 v2 v3 : Vertex F) : Vec3 F :=
  let edge1 := v2.position.sub v1.position
  let edge2 := v3.position.sub v1.position
  edge1.cross edge2

/-- The body of the triangle loop of `render_mesh`: the `set_pixel` calls made for one
triangle; `none` for an out-of-range vertex index or exhausted line fuel. -/
def render_triangle_frags (R : Renderer F) (M : Libm F) (fuel : Nat)
    (transformed_vertices : List (Vertex F)) (mesh : Mesh F) (lights : List (Light F))
    (view_dir : Vec3 F) (wireframe : Bool) (triangle : Triangle F) :
    Option (List (Fragment F)) := do
  let v1 ← vectorAt transformed_vertices triangle.v0
  let v2 ← vectorAt transformed_vertices triangle.v1
  let v3 ← vectorAt transformed_vertices triangle.v2
  if (screen_normal v1 v2 v3).z > 0 then pure []
  else if wireframe then do
    let l1 ← draw_line_frags fuel v1.position v2.position ⟨1, 1, 1⟩
    let l2 ← draw_line_frags fuel v2.position v3.position ⟨1, 1, 1⟩
    let l3 ← draw_line_frags fuel v3.position v1.position ⟨1, 1, 1⟩
    pure (l1 ++ l2 ++ l3)
  else
    let world_normal := (mesh.transform.transform_direction triangle.normal).normalize M
    pure (draw_triangle_flat_frags R M v1 v2 v3 world_normal mesh.material lights view_dir)

/-- The vector `transformed_vertices` built by the vertex loop of `render_mesh`. -/
def transformed_vertices (R : Renderer F) (M : Libm F) (mesh : Mesh F) (camera : Camera F) :
    List (Vertex F) :=
  let mvp := ((camera.get_projection_matrix M).mul (camera.get_view_matrix M)).mul mesh.transform
  mesh.vertices.map (transform_vertex R M mvp mesh.transform)

/-- `Renderer::render_mesh`: the sequence of `set_pixel` calls, triangle after triangle. -/
def render_mesh_frags (R : Renderer F) (M : Libm F) (fuel : Nat) (mesh : Mesh F)
    (camera : Camera F) (lights : List (Light F)) (wireframe : Bool) :
    Option (List (Fragment F)) :=
  let tv := transformed_vertices R M mesh camera
  let view_dir := (camera.target.sub camera.position).normalize M
  mesh.triangles.foldlM
    (fun frs triangle =>
      (render_triangle_frags R M fuel tv mesh lights view_dir wireframe triangle).map
        (fun l => frs ++ l))
    []

/-- `Renderer::render_mesh`: the renderer after the calls. The framebuffer is only
written through `set_pixel`, so the calls do not depend on its contents. -/
def render_mesh (R : Renderer F) (M : Libm F) (fuel : Nat) (mesh : Mesh F)
    (camera : Camera F) (lights : List (Light F)) (wireframe : Bool) : Option (Renderer F) :=
  (render_mesh_frags R M fuel mesh camera lights wireframe).map
    (fun frs => { R with framebuffer := R.framebuffer.submitAll frs })

end Renderer

/-- `Vec3::operator/` with the division by zero spelled out: in IEEE-754 arithmetic a
component divided by `0` is an infinity or a NaN, which is no element of the field; `none`
stands for such a result. -/
def Vec3.sdiv_checked (a : Vec3 F) (scalar : F) : Option (Vec3 F) :=
  if scalar = 0 then none else some (a.sdiv scalar)

/-- The point-light branch of the light loop of `calculate_lighting`: the `light_dir`
(with the division checked) and the `attenuation`. -/
def Renderer.point_light (M : Libm F) (position : Vec3 F) (light : Light F) :
    Option (Vec3 F) × F :=
  let light_vec := light.position.sub position
  let distance := light_vec.length M
  (light_vec.sdiv_checked distance, 1 / (1 + 0.1 * distance + 0.01 * distance * distance))

namespace Mesh

/-- The macro `M_PI` of `mesh.cpp`. -/
def M_PI : F := 3.14159265358979323846

/-- The body of the inner vertex loop of `create_sphere`: the vertex at latitude `lat` and
longitude `lon`. -/
def sphere_vertex (M : Libm F) (radius : F) (segments lat lon : Int) : Vertex F :=
  let theta := (lat : F) * M_PI / (segments : F)
  let sin_theta := M.sin theta
  let cos_theta := M.cos theta
  let phi := (lon : F) * 2 * M_PI / (segments : F)
  let sin_phi := M.sin phi
  let cos_phi := M.cos phi
  let pos : Vec3 F :=
    ⟨radius * sin_theta * cos_phi, radius * cos_theta, radius * sin_theta * sin_phi⟩
  ⟨pos, pos.normalize M, ⟨1, 1, 1⟩⟩

/-- The body of the inner triangle loop of `create_sphere`: the two triangles of the grid
square at `lat`, `lon`. -/
def sphere_square (M : Libm F) (segments lat : Int) (sphere : Mesh F) (lon : Int) :
    Option (Mesh F) := do
  let v0 := lat * (segments + 1) + lon
  let v1 := v0 + segments + 1
  let v2 := v0 + 1
  let v3 := v1 + 1
  let sphere ← sphere.add_triangle M v0 v1 v2
  sphere.add_triangle M v2 v1 v3

/-- `Mesh::create_sphere`. -/
def create_sphere (M : Libm F) (radius : F) (segments : Int) (mat : Material F) :
    Option (Mesh F) :=
  let sphere := (intRange 0 segments).foldl
    (fun sphere lat =>
      (intRange 0 segments).foldl
        (fun sphere lon => sphere.add_vertex (sphere_vertex M radius segments lat lon)) sphere)
    (Mesh.init mat)
  (intRange 0 (segments - 1)).foldlM
    (fun sphere lat => (intRange 0 (segments - 1)).foldlM (sphere_square M segments lat) sphere)
    sphere

/-- `Mesh::create_plane`. -/
def create_plane (M : Libm F) (size : F) (mat : Material F) : Option (Mesh F) := do
  let plane := Mesh.init mat
  let half := size * 0.5
  let plane := plane.add_vertex ⟨⟨-half, 0, -half⟩, ⟨0, 1, 0⟩, ⟨1, 1, 1⟩⟩
  let plane := plane.add_vertex ⟨⟨half, 0, -half⟩, ⟨0, 1, 0⟩, ⟨1, 1, 1⟩⟩
  let plane := plane.add_vertex ⟨⟨half, 0, half⟩, ⟨0, 1, 0⟩, ⟨1, 1, 1⟩⟩
  let plane := plane.add_vertex ⟨⟨-half, 0, half⟩, ⟨0, 1, 0⟩, ⟨1, 1, 1⟩⟩
  let plane ← plane.add_triangle M 0 1 2
  plane.add_triangle M 0 2 3

end Mesh

/-- `Camera::rotate_around_target`. The function-local `static float current_angle_y`,
which lives on between calls, is passed in and returned next to the camera. -/
def Camera.rotate_around_target (M : Libm F) (camera : Camera F) (current_angle_y : F)
    (angle_x angle_y : F) : Camera F × F :=
  let offset := camera.position.sub camera.target
  let radius := offset.length M
  let current_angle_y := current_angle_y + angle_y
  ({ camera with
      position := camera.target.add
        ⟨radius * M.cos current_angle_y * M.cos angle_x,
         radius * M.sin angle_x,
         radius * M.sin current_angle_y * M.cos angle_x⟩ },
    current_angle_y)

end Defs

/-! ## Notions used to state the properties -/

section SpecDefs

variable {F : Type} [LinearOrderedField F] [FloorRing F]

/-- The calls of a `set_pixel` sequence that address the pixel `(x, y)`, in order. -/
def fragmentsAt (frs : List (Fragment F)) (x y : Int) : List (Fragment F) :=
  frs.filter (fun fr => fr.x = x ∧ fr.y = y)

/-- The minimum of `start` and of the depths of the fragments. -/
def minDepth (start : F) (frs : List (Fragment F)) : F :=
  frs.foldl (fun m fr => min m fr.depth) start

/-- The effect of one fragment on the pixel it addresses. -/
def pixelStep (p : Pixel F) (fr : Fragment F) : Pixel F :=
  if fr.depth < p.depth then
    ⟨(Color.to_bytes fr.color).1, (Color.to_bytes fr.color).2.1, (Color.to_bytes fr.color).2.2,
      fr.depth⟩
  else p

/-- What the spec says of one stored channel byte. -/
def Quantised (c : F) (byte : Nat) : Prop :=
  (byte : Int) = truncInt (max 0 (min c 1) * 255) ∧ byte ≤ 255 ∧
    (c ≤ 0 → byte = 0) ∧ (1 ≤ c → byte = 255) ∧
    (byte : F) / 255 ≤ max 0 (min c 1) ∧ max 0 (min c 1) < (byte : F) / 255 + 1 / 255

/-- The text of the pixel line that `save_ppm` writes for one pixel. -/
def Framebuffer.ppmLine (pixel : Pixel F) : String :=
  toString pixel.r ++ " " ++ toString pixel.g ++ " " ++ toString pixel.b ++ "\n"

/-- The index triple of a triangle. -/
def Mesh.indices (t : Triangle F) : Int × Int × Int := (t.v0, t.v1, t.v2)

/-- All three indices of the triple address one of `n` vertices. -/
def Mesh.ValidFace (n : Nat) (f : Int × Int × Int) : Prop :=
  (0 ≤ f.1 ∧ f.1 < n) ∧ (0 ≤ f.2.1 ∧ f.2.1 < n) ∧ (0 ≤ f.2.2 ∧ f.2.2 < n)

/-- The matrix is affine: its bottom row is `0, 0, 0, 1`. -/
def Mat4.Affine (B : Mat4 F) : Prop := B.m 12 = 0 ∧ B.m 13 = 0 ∧ B.m 14 = 0 ∧ B.m 15 = 1

/-- The culling condition of a triangle: its three transformed vertices `v1, v2, v3` exist
and `((v2 - v1) × (v3 - v1)).z > 0`. -/
def Renderer.BackFacing (tv : List (Vertex F)) (triangle : Triangle F) : Prop :=
  ∃ v1 v2 v3 : Vertex F, vectorAt tv triangle.v0 = some v1 ∧ vectorAt tv triangle.v1 = some v2 ∧
    vectorAt tv triangle.v2 = some v3 ∧
    ((v2.position.sub v1.position).cross (v3.position.sub v1.position)).z > 0

/-- The integer pixel `(x, y)` lies in the closed 2D triangle spanned by the `x, y`
coordinates of `p0, p1, p2`: it is `p0 + u (p2 - p0) + v (p1 - p0)` with `u, v ≥ 0` and
`u + v ≤ 1`. -/
def InTriangle2D (p0 p1 p2 : Vec3 F) (x y : Int) : Prop :=
  ∃ u v : F, 0 ≤ u ∧ 0 ≤ v ∧ u + v ≤ 1 ∧
    (x : F) = p0.x + u * (p2.x - p0.x) + v * (p1.x - p0.x) ∧
    (y : F) = p0.y + u * (p2.y - p0.y) + v * (p1.y - p0.y)

/-- The library square root is exact at `x`: `M.sqrt x` is the non-negative number whose
square is `x`. -/
def Libm.SqrtAt (M : Libm F) (x : F) : Prop := 0 ≤ M.sqrt x ∧ M.sqrt x * M.sqrt x = x

/-- The library square root is the exact square root on all non-negative numbers. -/
def Libm.ExactSqrt (M : Libm F) : Prop := ∀ x : F, 0 ≤ x → M.SqrtAt x

/-- The sum, added onto `start`, of `tri.normal` over every occurrence of the index `i`
among the slots `v0`, `v1`, `v2` of the triangles. -/
def Mesh.slotSum (start : Vec3 F) (triangles : List (Triangle F)) (i : Int) : Vec3 F :=
  triangles.foldl
    (fun acc tri =>
      ((acc.add (if tri.v0 = i then tri.normal else ⟨0, 0, 0⟩)).add
        (if tri.v1 = i then tri.normal else ⟨0, 0, 0⟩)).add
        (if tri.v2 = i then tri.normal else ⟨0, 0, 0⟩))
    start

/-- The `light_dir` of the light loop of `calculate_lighting`: for a point light the
vector to the light divided by its length, for a directional light the negated stored
direction. -/
def Renderer.light_dir (M : Libm F) (position : Vec3 F) (light : Light F) : Vec3 F :=
  if light.type = LightType.POINT then
    (light.position.sub position).sdiv ((light.position.sub position).length M)
  else light.direction.smul (-1)

/-- The `attenuation` of the light loop of `calculate_lighting`. -/
def Renderer.attenuation (M : Libm F) (position : Vec3 F) (light : Light F) : F :=
  if light.type = LightType.POINT then
    1 / (1 + 0.1 * (light.position.sub position).length M +
      0.01 * (light.position.sub position).length M * (light.position.sub position).length M)
  else 1

/-- The contribution of one light in the Phong reference formula:
`(diffuse + specular) * intensity * attenuation`. -/
def Renderer.phong_term (M : Libm F) (position normal : Vec3 F) (material : Material F)
    (view_dir : Vec3 F) (light : Light F) : Vec3 F :=
  let diffuse := (material.diffuse_color.mul light.color).smul
    (max 0 (normal.dot (Renderer.light_dir M position light)))
  let specular := (material.specular_color.mul light.color).smul
    (M.pow (max 0 (view_dir.dot (((Renderer.light_dir M position light).smul (-1)).reflect
      normal))) material.shininess)
  ((diffuse.add specular).smul light.intensity).smul (Renderer.attenuation M position light)

/-- The sum of a list of vectors. -/
def Vec3.sum (l : List (Vec3 F)) : Vec3 F := l.foldr Vec3.add ⟨0, 0, 0⟩

/-- The Phong reference formula: the ambient term plus the sum of the contributions of the
lights. -/
def Renderer.phong_reference (ambient_light : Vec3 F) (M : Libm F) (position normal : Vec3 F)
    (material : Material F) (lights : List (Light F)) (view_dir : Vec3 F) : Vec3 F :=
  ((ambient_light.mul material.diffuse_color).smul material.ambient_strength).add
    (Vec3.sum (lights.map (Renderer.phong_term M position normal material view_dir)))

/-- The position of the vertex at index `i`, the zero vector for an index out of range. -/
def Mesh.positionAt (vertices : List (Vertex F)) (i : Int) : Vec3 F :=
  ((vectorAt vertices i).map (fun v => v.position)).getD ⟨0, 0, 0⟩

/-- The triangle that `add_triangle` stores for an index triple: its normal is
`normalize((p1 - p0) × (p2 - p0))`. -/
def Mesh.faceTriangle (M : Libm F) (vertices : List (Vertex F)) (f : Int × Int × Int) :
    Triangle F :=
  ⟨f.1, f.2.1, f.2.2,
    (((Mesh.positionAt vertices f.2.1).sub (Mesh.positionAt vertices f.1)).cross
      ((Mesh.positionAt vertices f.2.2).sub (Mesh.positionAt vertices f.1))).normalize M⟩

/-- The centroid of a triangle of the mesh. -/
def Mesh.centroid (vertices : List (Vertex F)) (t : Triangle F) : Vec3 F :=
  (((Mesh.positionAt vertices t.v0).add (Mesh.positionAt vertices t.v1)).add
    (Mesh.positionAt vertices t.v2)).sdiv 3

/-- The cube of `create_cube` before `calculate_vertex_normals` runs: the eight corner
vertices and the twelve triangles with their face normals. -/
def Mesh.cube_raw (M : Libm F) (size : F) (mat : Material F) : Mesh F :=
  ⟨(Mesh.cube_positions (size * 0.5)).map Vertex.ofPosition,
    Mesh.cube_faces.map
      (Mesh.faceTriangle M ((Mesh.cube_positions (size * 0.5)).map Vertex.ofPosition)),
    mat, Mat4.identity⟩

/-- The meshes obtained from an empty mesh by a sequence of `add_vertex`, `add_triangle`
(with the three indices in range when it is called) and `calculate_vertex_normals`. -/
inductive Mesh.Built (M : Libm F) : Mesh F → Prop
  | empty (mat : Material F) : Mesh.Built M (Mesh.init mat)
  | vertex (mesh : Mesh F) (v : Vertex F) : Mesh.Built M mesh → Mesh.Built M (mesh.add_vertex v)
  | triangle (mesh mesh' : Mesh F) (v0 v1 v2 : Int) : Mesh.Built M mesh →
      Mesh.ValidFace mesh.vertices.length (v0, v1, v2) →
      mesh.add_triangle M v0 v1 v2 = some mesh' → Mesh.Built M mesh'
  | normals (mesh mesh' : Mesh F) : Mesh.Built M mesh →
      mesh.calculate_vertex_normals M = some mesh' → Mesh.Built M mesh'

/-- The six orders in which three items can be passed. -/
def Renderer.orders {α : Type} (a b c : α) : List (α × α × α) :=
  [(a, b, c), (a, c, b), (b, a, c), (b, c, a), (c, a, b), (c, b, a)]

/-- The denominator `dot00 * dot11 - dot01 * dot01` of the barycentric solve of
`draw_triangle_flat` for the array `points = {p0, p1, p2}`. -/
def Renderer.flat_denom (p0 p1 p2 : Vec3 F) : F :=
  (p2.sub p0).dot (p2.sub p0) * (p1.sub p0).dot (p1.sub p0) -
    (p2.sub p0).dot (p1.sub p0) * (p2.sub p0).dot (p1.sub p0)

/-- The two loops of `draw_triangle_flat` run on the array `points = {p0, p1, p2}` as the
sort left it. -/
def Renderer.flat_scan (color p0 p1 p2 : Vec3 F) : List (Fragment F) :=
  (intRange (truncInt p0.y) (truncInt p2.y)).flatMap (fun y =>
    (intRange (truncInt (stdMin3 p0.x p1.x p2.x)) (truncInt (stdMax3 p0.x p1.x p2.x))).filterMap
      (fun x => Renderer.flat_pixel p0 p1 p2 color y x))

/-- The same loops with the row range taken from the least and the greatest `y` of the
three points, whatever their order. -/
def Renderer.flat_box (color a b c : Vec3 F) : List (Fragment F) :=
  (intRange (truncInt (min (min a.y b.y) c.y)) (truncInt (max (max a.y b.y) c.y))).flatMap
    (fun y =>
      (intRange (truncInt (min (min a.x b.x) c.x)) (truncInt (max (max a.x b.x) c.x))).filterMap
        (fun x => Renderer.flat_pixel a b c color y x))

/-- The coordinate `u` that the loop body of `draw_triangle_flat` solves for at the pixel
`(x, y)`: the weight of `points[2]`. -/
def Renderer.flat_u (p0 p1 p2 : Vec3 F) (y x : Int) : F :=
  ((p1.sub p0).dot (p1.sub p0) * (p2.sub p0).dot ((⟨(x : F), (y : F), 0⟩ : Vec3 F).sub p0) -
    (p2.sub p0).dot (p1.sub p0) * (p1.sub p0).dot ((⟨(x : F), (y : F), 0⟩ : Vec3 F).sub p0)) *
    (1 / Renderer.flat_denom p0 p1 p2)

/-- The coordinate `v` that the loop body of `draw_triangle_flat` solves for at the pixel
`(x, y)`: the weight of `points[1]`. -/
def Renderer.flat_v (p0 p1 p2 : Vec3 F) (y x : Int) : F :=
  ((p2.sub p0).dot (p2.sub p0) * (p1.sub p0).dot ((⟨(x : F), (y : F), 0⟩ : Vec3 F).sub p0) -
    (p2.sub p0).dot (p1.sub p0) * (p2.sub p0).dot ((⟨(x : F), (y : F), 0⟩ : Vec3 F).sub p0)) *
    (1 / Renderer.flat_denom p0 p1 p2)

/-- Two consecutive pixels of a path differ by at most one in `x` and in `y`. -/
def Renderer.Adjacent (p q : Fragment F) : Prop := |q.x - p.x| ≤ 1 ∧ |q.y - p.y| ≤ 1

/-- Two calls address the same pixel. -/
def Renderer.SamePixel (p q : Fragment F) : Prop := p.x = q.x ∧ p.y = q.y

/-- A description of the calls that the loop of `draw_line` makes from a state that is
`rx` steps in `x` and `ry` steps in `y` away from the end point `(x2, y2)`: `steps + 1`
calls, the first at the current pixel, the last at `(x2, y2)`, all with the given colour
and depth, none further from the end point than the current pixel, consecutive calls
adjacent, no pixel addressed twice. -/
def Renderer.LineRun (color : Vec3 F) (depth : F) (x2 y2 sx sy rx ry : Int) (steps : Nat)
    (l : List (Fragment F)) : Prop :=
  l.length = steps + 1 ∧
  l.head? = some ⟨x2 - sx * rx, y2 - sy * ry, color, depth⟩ ∧
  l.getLast? = some ⟨x2, y2, color, depth⟩ ∧
  (∀ fr ∈ l, fr.color = color ∧ fr.depth = depth ∧
    ∃ a b : Int, 0 ≤ a ∧ a ≤ rx ∧ 0 ≤ b ∧ b ≤ ry ∧ fr.x = x2 - sx * a ∧ fr.y = y2 - sy * b) ∧
  l.Chain' Renderer.Adjacent ∧
  l.Pairwise (fun p q => ¬ Renderer.SamePixel p q)

/-- The screen position that the vertex loop of `render_mesh` computes from a vertex
position. -/
def Renderer.screen_position (R : Renderer F) (mvp : Mat4 F) (p : Vec3 F) : Vec3 F :=
  if (mvp.transform_point p).z ≠ 0 then
    ⟨((mvp.transform_point p).x / (mvp.transform_point p).z + 1) *
        (R.framebuffer.width : F) * 0.5,
     (1 - (mvp.transform_point p).y / (mvp.transform_point p).z) *
        (R.framebuffer.height : F) * 0.5,
     (mvp.transform_point p).z⟩
  else p

/-- The calls of the triangle loop of `render_mesh` in wireframe mode, written in terms of
the screen positions and the index triple alone. -/
def Renderer.wire_triangle_frags (fuel : Nat) (positions : List (Vec3 F))
    (f : Int × Int × Int) : Option (List (Fragment F)) := do
  let p1 ← vectorAt positions f.1
  let p2 ← vectorAt positions f.2.1
  let p3 ← vectorAt positions f.2.2
  if ((p2.sub p1).cross (p3.sub p1)).z > 0 then pure []
  else do
    let l1 ← Renderer.draw_line_frags fuel p1 p2 ⟨1, 1, 1⟩
    let l2 ← Renderer.draw_line_frags fuel p2 p3 ⟨1, 1, 1⟩
    let l3 ← Renderer.draw_line_frags fuel p3 p1 ⟨1, 1, 1⟩
    pure (l1 ++ l2 ++ l3)

/-- The library sine and cosine satisfy `sin² + cos² = 1` at the angle `t`. -/
def Libm.TrigAt (M : Libm F) (t : F) : Prop := M.sin t * M.sin t + M.cos t * M.cos t = 1

/-- The truncated screen coordinates of the point are at most `2^28` in absolute value.
Between two such points no `int` operation of `draw_line` leaves the 32-bit range. -/
def Renderer.PixelBound (p : Vec3 F) : Prop :=
  |truncInt p.x| ≤ 268435456 ∧ |truncInt p.y| ≤ 268435456

end SpecDefs

/-! ## Concrete instances over the rationals -/

/-- A 2×2 framebuffer holding one near fragment at `(1, 1)`. -/
def Framebuffer.sample : Framebuffer ℚ :=
  (Framebuffer.init 2 2).set_pixel 1 1 ⟨1, 1 / 2, 0⟩ (1 / 4)

/-- A call sequence with three fragments at `(1, 1)`, two of them at the least depth. -/
def Framebuffer.sampleCalls : List (Fragment ℚ) :=
  [⟨1, 1, ⟨1, 0, 0⟩, 1 / 2⟩, ⟨0, 0, ⟨1, 1, 1⟩, 2⟩, ⟨1, 1, ⟨0, 1, 0⟩, 1 / 4⟩,
   ⟨1, 1, ⟨0, 0, 1⟩, 1 / 4⟩, ⟨5, 1, ⟨1, 1, 1⟩, 0⟩]

/-- Rational stand-ins for the `<cmath>` functions: the square root is exact on squares of
rationals, the other functions are low-order Taylor polynomials. -/
def ratLibm : Libm ℚ :=
  ⟨Rat.sqrt, fun x => x - x ^ 3 / 6, fun x => 1 - x ^ 2 / 2, fun x => x + x ^ 3 / 3,
    fun x _ => x⟩

/-- The default camera of the repository with a 4:3 aspect ratio. -/
def frontCamera : Camera ℚ := Camera.init ⟨0, 0, 5⟩ ⟨0, 0, 0⟩ ⟨0, 1, 0⟩ 60 (4 / 3)

/-- A mesh holding one of the two cube triangles of the `z = +1/2` face. -/
def nearFaceMesh : Mesh ℚ :=
  ⟨[Vertex.ofPosition ⟨1 / 2, -1 / 2, 1 / 2⟩, Vertex.ofPosition ⟨-1 / 2, -1 / 2, 1 / 2⟩,
     Vertex.ofPosition ⟨-1 / 2, 1 / 2, 1 / 2⟩],
   [⟨0, 1, 2, ⟨0, 0, -1⟩⟩], Material.init, Mat4.identity⟩

/-- A point light on the `z` axis and a directional light shining down the `z` axis. -/
def sampleLights : List (Light ℚ) :=
  [Light.init ratLibm LightType.POINT ⟨0, 0, 3⟩ ⟨1, 1, 1⟩ 1,
   Light.init ratLibm LightType.DIRECTIONAL ⟨0, 0, -2⟩ ⟨1, 0, 0⟩ (1 / 2)]

/-! # Verification -/

set_option linter.unusedSectionVars false

section Proofs

variable {F : Type} [LinearOrderedField F] [FloorRing F]

/-! ## Row-major indexing -/

theorem index_bounds {w h x y : Int} (hx0 : 0 ≤ x) (hxw : x < w) (hy0 : 0 ≤ y) (hyh : y < h) :
    0 ≤ y * w + x ∧ y * w + x < w * h := by
  constructor
  · nlinarith
  · nlinarith

theorem index_inj {w x y x' y' : Int} (hx0 : 0 ≤ x) (hxw : x < w) (hx0' : 0 ≤ x') (hxw' : x' < w)
    (h : y * w + x = y' * w + x') : x = x' ∧ y = y' := by
  have hw : 0 < w := by omega
  have e1 : (y * w + x) % w = x := by
    rw [add_comm, Int.add_mul_emod_self, Int.emod_eq_of_lt hx0 hxw]
  have e2 : (y' * w + x') % w = x' := by
    rw [add_comm, Int.add_mul_emod_self, Int.emod_eq_of_lt hx0' hxw']
  have hx : x = x' := by rw [← e1, ← e2, h]
  subst hx
  refine ⟨rfl, ?_⟩
  have : y * w = y' * w := by omega
  exact Int.eq_of_mul_eq_mul_right (by omega) this

namespace Framebuffer

/-- The pixel that an accepted `set_pixel` stores. -/
theorem set_pixel_eq (fb : Framebuffer F) (x y : Int) (color : Vec3 F) (depth : F) :
    fb.set_pixel x y color depth =
      if x ≥ 0 ∧ x < fb.width ∧ y ≥ 0 ∧ y < fb.height then
        if depth < (fb.pixelAt (y * fb.width + x)).depth then
          ⟨fb.width, fb.height, fb.pixels.set (y * fb.width + x).toNat
            ⟨(Color.to_bytes color).1, (Color.to_bytes color).2.1, (Color.to_bytes color).2.2,
              depth⟩⟩
        else fb
      else fb := rfl

theorem set_pixel_width (fb : Framebuffer F) (x y : Int) (color : Vec3 F) (depth : F) :
    (fb.set_pixel x y color depth).width = fb.width := by
  rw [set_pixel_eq]; split_ifs <;> rfl

theorem set_pixel_height (fb : Framebuffer F) (x y : Int) (color : Vec3 F) (depth : F) :
    (fb.set_pixel x y color depth).height = fb.height := by
  rw [set_pixel_eq]; split_ifs <;> rfl

theorem set_pixel_length (fb : Framebuffer F) (x y : Int) (color : Vec3 F) (depth : F) :
    (fb.set_pixel x y color depth).pixels.length = fb.pixels.length := by
  rw [set_pixel_eq]; split_ifs <;> simp

theorem set_pixel_outside (fb : Framebuffer F) (x y : Int) (color : Vec3 F) (depth : F)
    (h : ¬(x ≥ 0 ∧ x < fb.width ∧ y ≥ 0 ∧ y < fb.height)) :
    fb.set_pixel x y color depth = fb := by
  rw [set_pixel_eq, if_neg h]

theorem set_pixel_reject (fb : Framebuffer F) (x y : Int) (color : Vec3 F) (depth : F)
    (h : ¬ depth < (fb.pixelAt (y * fb.width + x)).depth) :
    fb.set_pixel x y color depth = fb := by
  rw [set_pixel_eq, if_neg h]; simp

theorem set_pixel_accept (fb : Framebuffer F) (x y : Int) (color : Vec3 F) (depth : F)
    (hr : x ≥ 0 ∧ x < fb.width ∧ y ≥ 0 ∧ y < fb.height)
    (h : depth < (fb.pixelAt (y * fb.width + x)).depth) :
    fb.set_pixel x y color depth =
      ⟨fb.width, fb.height, fb.pixels.set (y * fb.width + x).toNat
        ⟨(Color.to_bytes color).1, (Color.to_bytes color).2.1, (Color.to_bytes color).2.2,
          depth⟩⟩ := by
  rw [set_pixel_eq, if_pos hr, if_pos h]

theorem toNat_index_lt (fb : Framebuffer F) (hwf : fb.WF) {x y : Int}
    (hr : x ≥ 0 ∧ x < fb.width ∧ y ≥ 0 ∧ y < fb.height) :
    (y * fb.width + x).toNat < fb.pixels.length := by
  obtain ⟨hx0, hxw, hy0, hyh⟩ := hr
  have hb := index_bounds hx0 hxw hy0 hyh
  rw [hwf.2.1]
  omega

theorem pixelAt_set_pixel_self (fb : Framebuffer F) (hwf : fb.WF) (x y : Int) (color : Vec3 F)
    (depth : F) (hr : x ≥ 0 ∧ x < fb.width ∧ y ≥ 0 ∧ y < fb.height)
    (h : depth < (fb.pixelAt (y * fb.width + x)).depth) :
    (fb.set_pixel x y color depth).pixelAt (y * fb.width + x) =
      ⟨(Color.to_bytes color).1, (Color.to_bytes color).2.1, (Color.to_bytes color).2.2,
        depth⟩ := by
  rw [set_pixel_accept fb x y color depth hr h]
  have hlt := toNat_index_lt fb hwf hr
  simp [pixelAt, List.getD_eq_getElem?_getD, List.getElem?_set, hlt]

theorem pixelAt_set_pixel_other (fb : Framebuffer F) (x y : Int) (color : Vec3 F)
    (depth : F) (j : Int) (hj : j.toNat ≠ (y * fb.width + x).toNat) :
    (fb.set_pixel x y color depth).pixelAt j = fb.pixelAt j := by
  rw [set_pixel_eq]
  split_ifs
  · simp [pixelAt, List.getD_eq_getElem?_getD, List.getElem?_set, Ne.symm hj]
  · rfl
  · rfl

theorem set_color_bytes (p : Pixel F) (color : Vec3 F) :
    (p.set_color color).r < 256 ∧ (p.set_color color).g < 256 ∧ (p.set_color color).b < 256 := by
  simp only [Pixel.set_color, Color.to_bytes, toUChar]
  refine ⟨?_, ?_, ?_⟩ <;> omega

theorem init_WF (w h : Int) (hwh : 0 ≤ w * h) : (init w h : Framebuffer F).WF := by
  refine ⟨hwh, by simp [init], ?_⟩
  intro p hp
  simp only [init] at hp
  rw [List.eq_of_mem_replicate hp]
  simp [Pixel.init]

theorem clear_WF (fb : Framebuffer F) (hwf : fb.WF) (color : Vec3 F) : (fb.clear color).WF := by
  refine ⟨hwf.1, by simpa [clear] using hwf.2.1, ?_⟩
  intro p hp
  simp only [clear, List.mem_map] at hp
  obtain ⟨q, _, rfl⟩ := hp
  exact set_color_bytes q color

theorem set_pixel_WF (fb : Framebuffer F) (hwf : fb.WF) (x y : Int) (color : Vec3 F)
    (depth : F) : (fb.set_pixel x y color depth).WF := by
  refine ⟨?_, ?_, ?_⟩
  · rw [set_pixel_width, set_pixel_height]; exact hwf.1
  · rw [set_pixel_width, set_pixel_height, set_pixel_length]; exact hwf.2.1
  · intro p hp
    rw [set_pixel_eq] at hp
    split_ifs at hp
    · rcases List.mem_or_eq_of_mem_set hp with h | h
      · exact hwf.2.2 p h
      · rw [h]; exact set_color_bytes (fb.pixelAt (y * fb.width + x)) color
    · exact hwf.2.2 p hp
    · exact hwf.2.2 p hp


theorem sample_WF : sample.WF := set_pixel_WF _ (init_WF 2 2 (by decide)) _ _ _ _

/-! ## The depth test -/

/-- C1: for a well-formed framebuffer and an in-range `(x, y)`, `set_pixel` stores the
quantised colour and the depth when `depth` is strictly below the stored depth, leaves
the whole framebuffer unchanged when `depth` is at least the stored depth, and in both
cases keeps the dimensions and every other pixel. -/
theorem set_pixel_depth_test (fb : Framebuffer F) (hwf : fb.WF) (x y : Int) (color : Vec3 F)
    (depth : F) (hx : 0 ≤ x ∧ x < fb.width) (hy : 0 ≤ y ∧ y < fb.height) :
    (depth < (fb.pixelAt (y * fb.width + x)).depth →
      (fb.set_pixel x y color depth).pixelAt (y * fb.width + x) =
        ⟨(Color.to_bytes color).1, (Color.to_bytes color).2.1, (Color.to_bytes color).2.2,
          depth⟩) ∧
    ((fb.pixelAt (y * fb.width + x)).depth ≤ depth → fb.set_pixel x y color depth = fb) ∧
    (fb.set_pixel x y color depth).width = fb.width ∧
    (fb.set_pixel x y color depth).height = fb.height ∧
    (fb.set_pixel x y color depth).pixels.length = fb.pixels.length ∧
    (∀ x' y' : Int, 0 ≤ x' → x' < fb.width → 0 ≤ y' → y' < fb.height → (x', y') ≠ (x, y) →
      (fb.set_pixel x y color depth).pixelAt (y' * fb.width + x') =
        fb.pixelAt (y' * fb.width + x')) ∧
    (∀ j : Nat, j ≠ (y * fb.width + x).toNat →
      (fb.set_pixel x y color depth).pixels[j]? = fb.pixels[j]?) := by
  have hr : x ≥ 0 ∧ x < fb.width ∧ y ≥ 0 ∧ y < fb.height := ⟨hx.1, hx.2, hy.1, hy.2⟩
  refine ⟨fun h => pixelAt_set_pixel_self fb hwf x y color depth hr h,
    fun h => set_pixel_reject fb x y color depth (not_lt.mpr h),
    set_pixel_width fb x y color depth, set_pixel_height fb x y color depth,
    set_pixel_length fb x y color depth, ?_, ?_⟩
  · intro x' y' hx0 hxw hy0 hyh hne
    apply pixelAt_set_pixel_other
    intro heq
    have b1 := index_bounds hx.1 hx.2 hy.1 hy.2
    have b2 := index_bounds hx0 hxw hy0 hyh
    have hidx : y' * fb.width + x' = y * fb.width + x := by omega
    obtain ⟨e1, e2⟩ := index_inj hx0 hxw hx.1 hx.2 hidx
    exact hne (by rw [e1, e2])
  · intro j hj
    rw [set_pixel_eq]
    split_ifs <;> simp [List.getElem?_set, Ne.symm hj]

theorem set_pixel_depth_test_witness :
    (sample.set_pixel 0 1 ⟨1 / 3, 2, -1⟩ (1 / 2)).pixelAt (1 * sample.width + 0) =
        ⟨85, 255, 0, 1 / 2⟩ ∧
      sample.set_pixel 1 1 ⟨1 / 3, 2, -1⟩ (1 / 2) = sample :=
  ⟨((set_pixel_depth_test sample sample_WF 0 1 ⟨1 / 3, 2, -1⟩ (1 / 2) (by decide!) (by decide!)).1
      (by decide!)).trans (by decide!),
    (set_pixel_depth_test sample sample_WF 1 1 ⟨1 / 3, 2, -1⟩ (1 / 2) (by decide!)
      (by decide!)).2.1 (by decide!)⟩

/-- C3: a `set_pixel` at a coordinate outside the framebuffer returns the framebuffer
unchanged (the function is total, it has no error result), and `get_pixel_color` at such
a coordinate is `(0, 0, 0)`. -/
theorem set_pixel_out_of_range (fb : Framebuffer F) (x y : Int) (color : Vec3 F) (depth : F)
    (h : x < 0 ∨ x ≥ fb.width ∨ y < 0 ∨ y ≥ fb.height) :
    fb.set_pixel x y color depth = fb ∧ fb.get_pixel_color x y = ⟨0, 0, 0⟩ := by
  have hr : ¬(x ≥ 0 ∧ x < fb.width ∧ y ≥ 0 ∧ y < fb.height) := by omega
  refine ⟨set_pixel_outside fb x y color depth hr, ?_⟩
  unfold get_pixel_color
  rw [if_neg hr]

theorem set_pixel_out_of_range_witness :
    sample.set_pixel 2 0 ⟨1, 1, 1⟩ 0 = sample ∧ sample.get_pixel_color 2 0 = ⟨0, 0, 0⟩ :=
  set_pixel_out_of_range sample 2 0 ⟨1, 1, 1⟩ 0 (by decide!)

/-- C4: on a well-formed framebuffer, repeating a `set_pixel` call changes nothing more
than the first call did; and once a write at depth `d1` has been stored at an in-range
`(x, y)`, a later `set_pixel` there with a strictly larger depth `d2` leaves the
framebuffer, and so the stored colour of the first write, as it is. -/
theorem set_pixel_idempotent (fb : Framebuffer F) (hwf : fb.WF) (x y : Int) :
    (∀ (color : Vec3 F) (depth : F),
      (fb.set_pixel x y color depth).set_pixel x y color depth = fb.set_pixel x y color depth) ∧
    (∀ (c1 c2 : Vec3 F) (d1 d2 : F), 0 ≤ x ∧ x < fb.width → 0 ≤ y ∧ y < fb.height →
      d1 < (fb.pixelAt (y * fb.width + x)).depth → d1 < d2 →
      (fb.set_pixel x y c1 d1).set_pixel x y c2 d2 = fb.set_pixel x y c1 d1 ∧
      ((fb.set_pixel x y c1 d1).set_pixel x y c2 d2).pixelAt (y * fb.width + x) =
        ⟨(Color.to_bytes c1).1, (Color.to_bytes c1).2.1, (Color.to_bytes c1).2.2, d1⟩) := by
  have key : ∀ (c1 c2 : Vec3 F) (d1 d2 : F), d1 ≤ d2 →
      (fb.set_pixel x y c1 d1).set_pixel x y c2 d2 = fb.set_pixel x y c1 d1 := by
    intro c1 c2 d1 d2 hd
    by_cases hr : x ≥ 0 ∧ x < fb.width ∧ y ≥ 0 ∧ y < fb.height
    · apply set_pixel_reject
      rw [set_pixel_width]
      by_cases h1 : d1 < (fb.pixelAt (y * fb.width + x)).depth
      · rw [pixelAt_set_pixel_self fb hwf x y c1 d1 hr h1]
        exact not_lt.mpr hd
      · rw [set_pixel_reject fb x y c1 d1 h1]
        exact not_lt.mpr (le_trans (not_lt.mp h1) hd)
    · apply set_pixel_outside
      rw [set_pixel_width, set_pixel_height]
      exact hr
  refine ⟨fun color depth => key color color depth depth le_rfl, ?_⟩
  intro c1 c2 d1 d2 hx hy h1 h12
  rw [key c1 c2 d1 d2 h12.le]
  exact ⟨rfl, pixelAt_set_pixel_self fb hwf x y c1 d1 ⟨hx.1, hx.2, hy.1, hy.2⟩ h1⟩

theorem set_pixel_idempotent_witness :
    (sample.set_pixel 0 0 ⟨1, 0, 0⟩ (1 / 2)).set_pixel 0 0 ⟨0, 1, 0⟩ (3 / 4) =
        sample.set_pixel 0 0 ⟨1, 0, 0⟩ (1 / 2) ∧
      ((sample.set_pixel 0 0 ⟨1, 0, 0⟩ (1 / 2)).set_pixel 0 0 ⟨0, 1, 0⟩ (3 / 4)).pixelAt
          (0 * sample.width + 0) = ⟨255, 0, 0, 1 / 2⟩ :=
  have h := (set_pixel_idempotent sample sample_WF 0 0).2 ⟨1, 0, 0⟩ ⟨0, 1, 0⟩ (1 / 2) (3 / 4)
    (by decide!) (by decide!) (by decide!) (by decide!)
  ⟨h.1, h.2.trans (by decide!)⟩

theorem submitAll_WF (fb : Framebuffer F) (hwf : fb.WF) (frs : List (Fragment F)) :
    (fb.submitAll frs).WF ∧ (fb.submitAll frs).width = fb.width ∧
      (fb.submitAll frs).height = fb.height := by
  induction frs generalizing fb with
  | nil => exact ⟨hwf, rfl, rfl⟩
  | cons fr frs ih =>
    have h := ih (fb.submit fr) (set_pixel_WF fb hwf _ _ _ _)
    refine ⟨h.1, ?_, ?_⟩
    · exact h.2.1.trans (set_pixel_width fb _ _ _ _)
    · exact h.2.2.trans (set_pixel_height fb _ _ _ _)

/-- One `set_pixel` call acts on the pixel `(x, y)` as `pixelStep` when it addresses that
pixel and not at all otherwise. -/
theorem pixelAt_submit (fb : Framebuffer F) (hwf : fb.WF) (fr : Fragment F) (x y : Int)
    (hx : 0 ≤ x ∧ x < fb.width) (hy : 0 ≤ y ∧ y < fb.height) :
    (fb.submit fr).pixelAt (y * fb.width + x) =
      if fr.x = x ∧ fr.y = y then pixelStep (fb.pixelAt (y * fb.width + x)) fr
      else fb.pixelAt (y * fb.width + x) := by
  have hr : x ≥ 0 ∧ x < fb.width ∧ y ≥ 0 ∧ y < fb.height := ⟨hx.1, hx.2, hy.1, hy.2⟩
  unfold submit
  split_ifs with hxy
  · obtain ⟨rfl, rfl⟩ := hxy
    unfold pixelStep
    split_ifs with hd
    · exact pixelAt_set_pixel_self fb hwf _ _ _ _ hr hd
    · rw [set_pixel_reject fb _ _ _ _ hd]
  · by_cases hin : fr.x ≥ 0 ∧ fr.x < fb.width ∧ fr.y ≥ 0 ∧ fr.y < fb.height
    · apply pixelAt_set_pixel_other
      intro heq
      have b1 := index_bounds hx.1 hx.2 hy.1 hy.2
      have b2 := index_bounds hin.1 hin.2.1 hin.2.2.1 hin.2.2.2
      have hidx : fr.y * fb.width + fr.x = y * fb.width + x := by omega
      obtain ⟨e1, e2⟩ := index_inj hin.1 hin.2.1 hx.1 hx.2 hidx
      exact hxy ⟨e1, e2⟩
    · rw [set_pixel_outside fb _ _ _ _ hin]

/-- A pixel evolves under a call sequence by folding `pixelStep` over the calls that
address it. -/
theorem pixelAt_submitAll (fb : Framebuffer F) (hwf : fb.WF) (frs : List (Fragment F))
    (x y : Int) (hx : 0 ≤ x ∧ x < fb.width) (hy : 0 ≤ y ∧ y < fb.height) :
    (fb.submitAll frs).pixelAt (y * fb.width + x) =
      (fragmentsAt frs x y).foldl pixelStep (fb.pixelAt (y * fb.width + x)) := by
  induction frs generalizing fb with
  | nil => rfl
  | cons fr frs ih =>
    have hw : (fb.submit fr).width = fb.width := set_pixel_width fb _ _ _ _
    have hh : (fb.submit fr).height = fb.height := set_pixel_height fb _ _ _ _
    have h := ih (fb.submit fr) (set_pixel_WF fb hwf _ _ _ _) (by rw [hw]; exact hx)
      (by rw [hh]; exact hy)
    rw [hw] at h
    show ((fb.submit fr).submitAll frs).pixelAt (y * fb.width + x) = _
    rw [h, pixelAt_submit fb hwf fr x y hx hy]
    unfold fragmentsAt
    by_cases hxy : fr.x = x ∧ fr.y = y
    · rw [if_pos hxy, List.filter_cons_of_pos (by simpa using hxy)]
      rfl
    · rw [if_neg hxy, List.filter_cons_of_neg (by simpa using hxy)]

end Framebuffer

theorem minDepth_le_start (l : List (Fragment F)) (s : F) : minDepth s l ≤ s := by
  induction l generalizing s with
  | nil => exact le_rfl
  | cons f l ih => exact (ih (min s f.depth)).trans (min_le_left _ _)

theorem minDepth_le_mem (l : List (Fragment F)) (s : F) (f : Fragment F) (hf : f ∈ l) :
    minDepth s l ≤ f.depth := by
  induction l generalizing s with
  | nil => cases hf
  | cons g l ih =>
    rcases List.mem_cons.mp hf with h | h
    · subst h
      exact (minDepth_le_start l (min s f.depth)).trans (min_le_right _ _)
    · exact ih (min s g.depth) h

theorem minDepth_attained (l : List (Fragment F)) (s : F) :
    minDepth s l = s ∨ ∃ f ∈ l, f.depth = minDepth s l := by
  induction l generalizing s with
  | nil => exact Or.inl rfl
  | cons g l ih =>
    rcases ih (min s g.depth) with h | ⟨f, hf, hfd⟩
    · rcases min_choice s g.depth with hm | hm
      · exact Or.inl (h.trans hm)
      · exact Or.inr ⟨g, List.mem_cons_self _ _, (h.trans hm).symm⟩
    · exact Or.inr ⟨f, List.mem_cons_of_mem _ hf, hfd⟩

theorem foldl_pixelStep_spec (l : List (Fragment F)) (p : Pixel F) :
    (l.foldl pixelStep p).depth = minDepth p.depth l ∧
    (minDepth p.depth l < p.depth → ∃ fr,
      l.find? (fun fr => decide (fr.depth = minDepth p.depth l)) = some fr ∧
      l.foldl pixelStep p =
        ⟨(Color.to_bytes fr.color).1, (Color.to_bytes fr.color).2.1,
          (Color.to_bytes fr.color).2.2, minDepth p.depth l⟩) ∧
    (¬ minDepth p.depth l < p.depth → l.foldl pixelStep p = p) := by
  induction l generalizing p with
  | nil => exact ⟨rfl, fun h => absurd h (lt_irrefl _), fun _ => rfl⟩
  | cons f l ih =>
    by_cases hf : f.depth < p.depth
    · have hstep : pixelStep p f = ⟨(Color.to_bytes f.color).1, (Color.to_bytes f.color).2.1,
          (Color.to_bytes f.color).2.2, f.depth⟩ := by unfold pixelStep; rw [if_pos hf]
      have hmin : minDepth p.depth (f :: l) = minDepth f.depth l := by
        show minDepth (min p.depth f.depth) l = _
        rw [min_eq_right hf.le]
      obtain ⟨h1, h2, h3⟩ := ih (pixelStep p f)
      rw [hstep] at h1 h2 h3
      simp only [List.foldl_cons, hmin, hstep]
      have hle : minDepth f.depth l ≤ f.depth := minDepth_le_start l f.depth
      refine ⟨h1, ?_, ?_⟩
      · intro _
        by_cases hm : f.depth = minDepth f.depth l
        · refine ⟨f, by simp [List.find?_cons, hm.symm], ?_⟩
          have := h3 (by rw [← hm]; exact lt_irrefl _)
          rw [this, ← hm]
        · obtain ⟨g, hg1, hg2⟩ := h2 (lt_of_le_of_ne hle (Ne.symm hm))
          exact ⟨g, by simp [List.find?_cons, hm, hg1], hg2⟩
      · intro hn
        exact absurd (lt_of_le_of_lt hle hf) hn
    · have hstep : pixelStep p f = p := by unfold pixelStep; rw [if_neg hf]
      have hmin : minDepth p.depth (f :: l) = minDepth p.depth l := by
        show minDepth (min p.depth f.depth) l = _
        rw [min_eq_left (not_lt.mp hf)]
      obtain ⟨h1, h2, h3⟩ := ih p
      simp only [List.foldl_cons, hmin, hstep]
      refine ⟨h1, ?_, h3⟩
      intro hlt
      obtain ⟨g, hg1, hg2⟩ := h2 hlt
      have hne : ¬ f.depth = minDepth p.depth l := by
        intro he
        rw [← he] at hlt
        exact hf hlt
      exact ⟨g, by simp [List.find?_cons, hne, hg1], hg2⟩

namespace Framebuffer

/-- C2: starting from a well-formed framebuffer just cleared with colour `c`, after any
finite sequence of `set_pixel` calls an in-range pixel `(x, y)` stores the minimum of `1`
and of the depths submitted at `(x, y)`; when that minimum is below `1` its colour is the
quantised colour of the first fragment submitted at `(x, y)` whose depth is that minimum,
and otherwise it is the quantised clear colour. -/
theorem zbuffer_nearest_wins (fb : Framebuffer F) (hwf : fb.WF) (c : Vec3 F)
    (frs : List (Fragment F)) (x y : Int) (hx : 0 ≤ x ∧ x < fb.width)
    (hy : 0 ≤ y ∧ y < fb.height) :
    (((fb.clear c).submitAll frs).pixelAt (y * fb.width + x)).depth =
        minDepth 1 (fragmentsAt frs x y) ∧
    minDepth 1 (fragmentsAt frs x y) ≤ 1 ∧
    (∀ fr ∈ frs, fr.x = x → fr.y = y → minDepth 1 (fragmentsAt frs x y) ≤ fr.depth) ∧
    (minDepth 1 (fragmentsAt frs x y) = 1 ∨
      ∃ fr ∈ frs, fr.x = x ∧ fr.y = y ∧ fr.depth = minDepth 1 (fragmentsAt frs x y)) ∧
    (minDepth 1 (fragmentsAt frs x y) < 1 → ∃ fr,
      (fragmentsAt frs x y).find?
        (fun fr => decide (fr.depth = minDepth 1 (fragmentsAt frs x y))) = some fr ∧
      ((fb.clear c).submitAll frs).pixelAt (y * fb.width + x) =
        ⟨(Color.to_bytes fr.color).1, (Color.to_bytes fr.color).2.1,
          (Color.to_bytes fr.color).2.2, minDepth 1 (fragmentsAt frs x y)⟩) ∧
    (¬ minDepth 1 (fragmentsAt frs x y) < 1 →
      ((fb.clear c).submitAll frs).pixelAt (y * fb.width + x) =
        ⟨(Color.to_bytes c).1, (Color.to_bytes c).2.1, (Color.to_bytes c).2.2, 1⟩) := by
  have hcw : (fb.clear c).WF := clear_WF fb hwf c
  have hpix : (fb.clear c).pixelAt (y * fb.width + x) =
      ⟨(Color.to_bytes c).1, (Color.to_bytes c).2.1, (Color.to_bytes c).2.2, 1⟩ := by
    have hlt := toNat_index_lt fb hwf (x := x) (y := y) ⟨hx.1, hx.2, hy.1, hy.2⟩
    simp [pixelAt, clear, List.getD_eq_getElem?_getD, hlt, Pixel.set_color]
  have hev := pixelAt_submitAll (fb.clear c) hcw frs x y hx hy
  have hwc : (fb.clear c).width = fb.width := rfl
  rw [hwc, hpix] at hev
  obtain ⟨h1, h2, h3⟩ := foldl_pixelStep_spec (fragmentsAt frs x y)
    (⟨(Color.to_bytes c).1, (Color.to_bytes c).2.1, (Color.to_bytes c).2.2, 1⟩ : Pixel F)
  rw [← hev] at h1 h2 h3
  refine ⟨h1, minDepth_le_start _ _, ?_, ?_, h2, h3⟩
  · intro fr hfr hfx hfy
    apply minDepth_le_mem
    unfold fragmentsAt
    rw [List.mem_filter]
    exact ⟨hfr, by simp [hfx, hfy]⟩
  · rcases minDepth_attained (fragmentsAt frs x y) (1 : F) with h | ⟨f, hf, hfd⟩
    · exact Or.inl h
    · unfold fragmentsAt at hf
      rw [List.mem_filter] at hf
      have hxy : f.x = x ∧ f.y = y := by simpa using hf.2
      exact Or.inr ⟨f, hf.1, hxy.1, hxy.2, hfd⟩

theorem zbuffer_nearest_wins_witness :
    (((Framebuffer.init 2 2 : Framebuffer ℚ).clear ⟨0, 0, 1 / 2⟩).submitAll sampleCalls).pixelAt
        (1 * (Framebuffer.init 2 2 : Framebuffer ℚ).width + 1) = ⟨0, 255, 0, 1 / 4⟩ :=
  have h := zbuffer_nearest_wins (Framebuffer.init 2 2 : Framebuffer ℚ) (init_WF 2 2 (by decide))
    ⟨0, 0, 1 / 2⟩ sampleCalls 1 1 (by decide!) (by decide!)
  by
    obtain ⟨fr, hfr, hpix⟩ := h.2.2.2.2.1 (by decide!)
    have hfr2 : fr = ⟨1, 1, ⟨0, 1, 0⟩, 1 / 4⟩ := by
      have : (fragmentsAt sampleCalls 1 1).find?
          (fun fr => decide (fr.depth = minDepth 1 (fragmentsAt sampleCalls 1 1))) =
          some ⟨1, 1, ⟨0, 1, 0⟩, 1 / 4⟩ := by decide!
      rw [this] at hfr
      exact (Option.some.inj hfr).symm
    rw [hpix, hfr2]
    decide!

end Framebuffer

/-! ## Colour quantisation -/

theorem stdClamp_unit (c : F) : stdClamp c 0 1 = max 0 (min c 1) := by
  unfold stdClamp
  split_ifs with h1 h2
  · rw [max_eq_left]; exact (min_le_left _ _).trans h1.le
  · rw [min_eq_right h2.le, max_eq_right zero_le_one]
  · rw [min_eq_left (not_lt.mp h2), max_eq_right (not_lt.mp h1)]

theorem toUChar_clamp (c : F) : Quantised c (toUChar (stdClamp c 0 1 * 255)) := by
  rw [stdClamp_unit]
  set v : F := max 0 (min c 1) with hv
  have hv0 : 0 ≤ v := le_max_left _ _
  have hv1 : v ≤ 1 := max_le zero_le_one (min_le_right _ _)
  have ht0 : (0 : F) ≤ v * 255 := by positivity
  have hfl0 : 0 ≤ ⌊v * 255⌋ := Int.floor_nonneg.mpr ht0
  have h255 : ⌊(255 : F)⌋ = 255 := by simp
  have hfl1 : ⌊v * 255⌋ ≤ 255 := by
    have : ⌊v * 255⌋ ≤ ⌊(255 : F)⌋ := Int.floor_le_floor (by linarith)
    omega
  have htr : truncInt (v * 255) = ⌊v * 255⌋ := by unfold truncInt; rw [if_pos ht0]
  have hk : ((toUChar (v * 255) : Nat) : Int) = ⌊v * 255⌋ := by
    unfold toUChar
    rw [htr, Int.emod_eq_of_lt hfl0 (by omega), Int.toNat_of_nonneg hfl0]
  have hkF : ((toUChar (v * 255) : Nat) : F) = ((⌊v * 255⌋ : Int) : F) := by
    rw [← hk]; simp
  refine ⟨by rw [hk, htr], by omega, ?_, ?_, ?_, ?_⟩
  · intro hc
    have : v = 0 := by
      rw [hv, max_eq_left]; exact (min_le_left _ _).trans hc
    have h0 : ⌊v * 255⌋ = 0 := by rw [this, zero_mul, Int.floor_zero]
    rw [h0] at hk
    exact_mod_cast hk
  · intro hc
    have : v = 1 := by
      rw [hv, min_eq_right hc, max_eq_right zero_le_one]
    have h1 : ⌊v * 255⌋ = 255 := by rw [this, one_mul, h255]
    rw [h1] at hk
    exact_mod_cast hk
  · rw [hkF, div_le_iff₀ (by norm_num)]
    exact Int.floor_le _
  · rw [hkF, ← add_div, lt_div_iff₀ (by norm_num)]
    exact Int.lt_floor_add_one _

namespace Framebuffer

/-- C6: every byte stored by `Color::to_bytes` / `Pixel::set_color` is
`trunc(clamp(c, 0, 1) * 255)`, lies in `0..255`, is `0` for `c ≤ 0` and `255` for
`c ≥ 1`; and `get_pixel_color` after a successful write returns per channel
`q = byte / 255` with `q ≤ clamp(c, 0, 1) < q + 1/255`. -/
theorem quantisation_round_trip (color : Vec3 F) :
    Quantised color.x (Color.to_bytes color).1 ∧
    Quantised color.y (Color.to_bytes color).2.1 ∧
    Quantised color.z (Color.to_bytes color).2.2 ∧
    (∀ p : Pixel F, (p.set_color color).r = (Color.to_bytes color).1 ∧
      (p.set_color color).g = (Color.to_bytes color).2.1 ∧
      (p.set_color color).b = (Color.to_bytes color).2.2) ∧
    (∀ (fb : Framebuffer F) (x y : Int) (depth : F), fb.WF →
      0 ≤ x ∧ x < fb.width → 0 ≤ y ∧ y < fb.height →
      depth < (fb.pixelAt (y * fb.width + x)).depth →
      (fb.set_pixel x y color depth).get_pixel_color x y =
        ⟨((Color.to_bytes color).1 : F) / 255, ((Color.to_bytes color).2.1 : F) / 255,
          ((Color.to_bytes color).2.2 : F) / 255⟩) := by
  refine ⟨toUChar_clamp color.x, toUChar_clamp color.y, toUChar_clamp color.z,
    fun p => ⟨rfl, rfl, rfl⟩, ?_⟩
  intro fb x y depth hwf hx hy hd
  have hr : x ≥ 0 ∧ x < fb.width ∧ y ≥ 0 ∧ y < fb.height := ⟨hx.1, hx.2, hy.1, hy.2⟩
  have hself := pixelAt_set_pixel_self fb hwf x y color depth hr hd
  unfold get_pixel_color
  rw [set_pixel_width, set_pixel_height, if_pos hr]
  simp only [hself]

theorem quantisation_round_trip_witness :
    (sample.set_pixel 0 1 ⟨1 / 3, 2, -1⟩ (1 / 2)).get_pixel_color 0 1 = ⟨1 / 3, 1, 0⟩ :=
  ((quantisation_round_trip (⟨1 / 3, 2, -1⟩ : Vec3 ℚ)).2.2.2.2 sample 0 1 (1 / 2) sample_WF
    (by decide!) (by decide!) (by decide!)).trans (by decide!)

end Framebuffer

/-! ## Image output -/

namespace Framebuffer

theorem foldl_ppm (l : List (Pixel F)) (file : String) :
    l.foldl (fun file pixel =>
        file ++ toString pixel.r ++ " " ++ toString pixel.g ++ " " ++ toString pixel.b ++ "\n")
      file = (l.map ppmLine).foldl (fun file line => file ++ line) file := by
  induction l generalizing file with
  | nil => rfl
  | cons p l ih =>
    rw [List.foldl_cons, ih, List.map_cons, List.foldl_cons]
    congr 1
    simp only [ppmLine, String.append_assoc]

/-- C7: when the file opens, the text written by `save_ppm` is the header `P3`, newline,
width, a space, height, newline, `255`, newline, followed by exactly `width * height`
lines; the line number `y * width + x` (row-major) holds the decimal values `r g b` of the
pixel `(x, y)`, separated by single spaces and ended by a newline, each at most `255`. -/
theorem save_ppm_format (fb : Framebuffer F) (hwf : fb.WF) :
    ∃ lines : List String,
      fb.save_ppm true = some (lines.foldl (fun file line => file ++ line)
        ("P3\n" ++ toString fb.width ++ " " ++ toString fb.height ++ "\n255\n")) ∧
      (lines.length : Int) = fb.width * fb.height ∧
      ∀ x y : Int, 0 ≤ x → x < fb.width → 0 ≤ y → y < fb.height →
        lines[(y * fb.width + x).toNat]? = some
          (toString (fb.pixelAt (y * fb.width + x)).r ++ " " ++
            toString (fb.pixelAt (y * fb.width + x)).g ++ " " ++
            toString (fb.pixelAt (y * fb.width + x)).b ++ "\n") ∧
        (fb.pixelAt (y * fb.width + x)).r ≤ 255 ∧ (fb.pixelAt (y * fb.width + x)).g ≤ 255 ∧
        (fb.pixelAt (y * fb.width + x)).b ≤ 255 := by
  refine ⟨fb.pixels.map ppmLine, ?_, ?_, ?_⟩
  · simp only [save_ppm, Bool.not_true, Bool.false_eq_true, if_false]
    rw [foldl_ppm]
  · rw [List.length_map, hwf.2.1, Int.toNat_of_nonneg hwf.1]
  · intro x y hx0 hxw hy0 hyh
    have hlt := toNat_index_lt fb hwf (x := x) (y := y) ⟨hx0, hxw, hy0, hyh⟩
    have hp : fb.pixelAt (y * fb.width + x) = fb.pixels[(y * fb.width + x).toNat] := by
      simp [pixelAt, List.getD_eq_getElem?_getD, hlt]
    have hmem : fb.pixels[(y * fb.width + x).toNat] ∈ fb.pixels := List.getElem_mem _
    have hb := hwf.2.2 _ hmem
    rw [hp]
    refine ⟨?_, by omega, by omega, by omega⟩
    rw [List.getElem?_map, List.getElem?_eq_getElem hlt]
    rfl

theorem save_ppm_format_witness :
    sample.save_ppm true = some "P3\n2 2\n255\n0 0 0\n0 0 0\n0 0 0\n255 127 0\n" ∧
    ∃ lines : List String,
      sample.save_ppm true = some (lines.foldl (fun file line => file ++ line)
        ("P3\n" ++ toString sample.width ++ " " ++ toString sample.height ++ "\n255\n")) ∧
      (lines.length : Int) = sample.width * sample.height :=
  ⟨by decide!, (save_ppm_format sample sample_WF).imp (fun _ h => ⟨h.1, h.2.1⟩)⟩

end Framebuffer

/-! ## Back-face culling -/

namespace Renderer

theorem render_triangle_culled (R : Renderer F) (M : Libm F) (fuel : Nat)
    (tv : List (Vertex F)) (mesh : Mesh F) (lights : List (Light F)) (view_dir : Vec3 F)
    (wireframe : Bool) (triangle : Triangle F) (v1 v2 v3 : Vertex F)
    (h1 : vectorAt tv triangle.v0 = some v1) (h2 : vectorAt tv triangle.v1 = some v2)
    (h3 : vectorAt tv triangle.v2 = some v3)
    (hc : ((v2.position.sub v1.position).cross (v3.position.sub v1.position)).z > 0) :
    render_triangle_frags R M fuel tv mesh lights view_dir wireframe triangle = some [] := by
  have hc' : (screen_normal v1 v2 v3).z > 0 := hc
  simp [render_triangle_frags, h1, h2, h3, hc']

theorem render_triangle_culled_at (R : Renderer F) (M : Libm F) (fuel : Nat) (mesh : Mesh F)
    (camera : Camera F) (lights : List (Light F)) (wireframe : Bool)
    (pre post : List (Triangle F)) (t : Triangle F)
    (h : render_triangle_frags R M fuel (transformed_vertices R M mesh camera) mesh lights
      ((camera.target.sub camera.position).normalize M) wireframe t = some []) :
    render_triangle_frags R M fuel
      (transformed_vertices R M { mesh with triangles := pre ++ post } camera)
      { mesh with triangles := pre ++ post } lights
      ((camera.target.sub camera.position).normalize M) wireframe t = some [] := h

theorem foldlM_culled (f : Triangle F → Option (List (Fragment F))) (ts : List (Triangle F))
    (h : ∀ t ∈ ts, f t = some []) (acc : List (Fragment F)) :
    ts.foldlM (fun frs t => (f t).map (fun l => frs ++ l)) acc = some acc := by
  induction ts generalizing acc with
  | nil => rfl
  | cons t ts ih =>
    rw [List.foldlM_cons, h t (List.mem_cons_self _ _)]
    simp only [Option.map_some', List.append_nil]
    exact ih (fun u hu => h u (List.mem_cons_of_mem _ hu)) acc

theorem foldlM_skip (f : Triangle F → Option (List (Fragment F))) (pre post : List (Triangle F))
    (t : Triangle F) (h : f t = some []) (acc : List (Fragment F)) :
    (pre ++ t :: post).foldlM (fun frs t => (f t).map (fun l => frs ++ l)) acc =
      (pre ++ post).foldlM (fun frs t => (f t).map (fun l => frs ++ l)) acc := by
  rw [List.foldlM_append, List.foldlM_append]
  congr 1
  funext frs
  rw [List.foldlM_cons, h]
  simp

/-- C8: in `render_mesh`, a triangle whose screen-transformed vertices satisfy
`((v2 - v1) × (v3 - v1)).z > 0` makes no `set_pixel` call, in wireframe and in solid
mode: its own call list is empty, and the call sequence and the resulting renderer are
those of the mesh without that triangle; when every triangle of the mesh is such, there
is no call at all and `render_mesh` returns the renderer unchanged. -/
theorem back_face_culling (R : Renderer F) (M : Libm F) (fuel : Nat) (mesh : Mesh F)
    (camera : Camera F) (lights : List (Light F)) (wireframe : Bool) :
    (∀ triangle : Triangle F, BackFacing (transformed_vertices R M mesh camera) triangle →
      render_triangle_frags R M fuel (transformed_vertices R M mesh camera) mesh lights
        ((camera.target.sub camera.position).normalize M) wireframe triangle = some []) ∧
    (∀ (pre post : List (Triangle F)) (t : Triangle F), mesh.triangles = pre ++ t :: post →
      BackFacing (transformed_vertices R M mesh camera) t →
      render_mesh_frags R M fuel mesh camera lights wireframe =
          render_mesh_frags R M fuel { mesh with triangles := pre ++ post } camera lights
            wireframe ∧
        render_mesh R M fuel mesh camera lights wireframe =
          render_mesh R M fuel { mesh with triangles := pre ++ post } camera lights wireframe) ∧
    ((∀ t ∈ mesh.triangles, BackFacing (transformed_vertices R M mesh camera) t) →
      render_mesh_frags R M fuel mesh camera lights wireframe = some [] ∧
        render_mesh R M fuel mesh camera lights wireframe = some R) := by
  have hone : ∀ triangle : Triangle F, BackFacing (transformed_vertices R M mesh camera) triangle →
      render_triangle_frags R M fuel (transformed_vertices R M mesh camera) mesh lights
        ((camera.target.sub camera.position).normalize M) wireframe triangle = some [] := by
    rintro triangle ⟨v1, v2, v3, h1, h2, h3, hc⟩
    exact render_triangle_culled R M fuel _ mesh lights _ wireframe triangle v1 v2 v3 h1 h2 h3 hc
  refine ⟨hone, ?_, ?_⟩
  · intro pre post t hsplit hback
    have hfr : render_mesh_frags R M fuel mesh camera lights wireframe =
        render_mesh_frags R M fuel { mesh with triangles := pre ++ post } camera lights
          wireframe := by
      unfold render_mesh_frags
      simp only [hsplit]
      exact foldlM_skip _ pre post t
        (render_triangle_culled_at R M fuel mesh camera lights wireframe pre post t
          (hone t hback)) []
    exact ⟨hfr, by unfold render_mesh; rw [hfr]⟩
  · intro hall
    have hfr : render_mesh_frags R M fuel mesh camera lights wireframe = some [] := by
      unfold render_mesh_frags
      exact foldlM_culled _ mesh.triangles (fun t ht => hone t (hall t ht)) []
    refine ⟨hfr, ?_⟩
    unfold render_mesh
    rw [hfr]
    rfl

theorem back_face_culling_witness :
    render_mesh (Renderer.init 800 600) ratLibm 0 nearFaceMesh frontCamera [] true =
        some (Renderer.init 800 600) ∧
      render_mesh (Renderer.init 800 600) ratLibm 0 nearFaceMesh frontCamera [] false =
        some (Renderer.init 800 600) :=
  ⟨((back_face_culling (Renderer.init 800 600) ratLibm 0 nearFaceMesh frontCamera [] true).2.2
      (by
        intro t ht
        have ht' : t = ⟨0, 1, 2, ⟨0, 0, -1⟩⟩ := by simpa [nearFaceMesh] using ht
        subst ht'
        exact ⟨_, _, _, rfl, rfl, rfl, by decide!⟩)).2,
    ((back_face_culling (Renderer.init 800 600) ratLibm 0 nearFaceMesh frontCamera [] false).2.2
      (by
        intro t ht
        have ht' : t = ⟨0, 1, 2, ⟨0, 0, -1⟩⟩ := by simpa [nearFaceMesh] using ht
        subst ht'
        exact ⟨_, _, _, rfl, rfl, rfl, by decide!⟩)).2⟩

end Renderer

/-! ## Mesh construction -/

theorem vectorAt_valid {α : Type} (v : List α) (i : Int) (h0 : 0 ≤ i) (h1 : i < v.length) :
    ∃ a, vectorAt v i = some a := by
  have hlt : i.toNat < v.length := by omega
  exact ⟨v[i.toNat], by simp [vectorAt, h0, List.getElem?_eq_getElem hlt]⟩

namespace Mesh

theorem add_triangle_valid (M : Libm F) (mesh : Mesh F) (f : Int × Int × Int)
    (hf : ValidFace mesh.vertices.length f) :
    ∃ mesh', mesh.add_triangle M f.1 f.2.1 f.2.2 = some mesh' ∧
      mesh'.vertices = mesh.vertices ∧
      mesh'.triangles.map indices = mesh.triangles.map indices ++ [f] ∧
      mesh'.material = mesh.material ∧ mesh'.transform = mesh.transform := by
  obtain ⟨h0, h1, h2⟩ := hf
  obtain ⟨p0, e0⟩ := vectorAt_valid mesh.vertices f.1 h0.1 h0.2
  obtain ⟨p1, e1⟩ := vectorAt_valid mesh.vertices f.2.1 h1.1 h1.2
  obtain ⟨p2, e2⟩ := vectorAt_valid mesh.vertices f.2.2 h2.1 h2.2
  simp [add_triangle, Triangle.calculate_normal, e0, e1, e2, indices]

theorem foldlM_add_triangle (M : Libm F) (faces : List (Int × Int × Int)) (mesh : Mesh F)
    (hf : ∀ f ∈ faces, ValidFace mesh.vertices.length f) :
    ∃ mesh', faces.foldlM (fun cube f => cube.add_triangle M f.1 f.2.1 f.2.2) mesh = some mesh' ∧
      mesh'.vertices = mesh.vertices ∧
      mesh'.triangles.map indices = mesh.triangles.map indices ++ faces ∧
      mesh'.material = mesh.material ∧ mesh'.transform = mesh.transform := by
  induction faces generalizing mesh with
  | nil => exact ⟨mesh, rfl, rfl, by simp, rfl, rfl⟩
  | cons f faces ih =>
    obtain ⟨m1, e1, hv1, ht1, hm1, hx1⟩ :=
      add_triangle_valid M mesh f (hf f (List.mem_cons_self _ _))
    obtain ⟨m2, e2, hv2, ht2, hm2, hx2⟩ := ih m1
      (fun g hg => by rw [hv1]; exact hf g (List.mem_cons_of_mem _ hg))
    refine ⟨m2, ?_, hv2.trans hv1, ?_, hm2.trans hm1, hx2.trans hx1⟩
    · rw [List.foldlM_cons, e1]; exact e2
    · rw [ht2, ht1]; simp

theorem accumulate_valid (vertices : List (Vertex F)) (i : Int) (n : Vec3 F) (h0 : 0 ≤ i)
    (h1 : i < vertices.length) :
    ∃ vs, accumulate vertices i n = some vs ∧ vs.length = vertices.length ∧
      vs.map (fun v => v.position) = vertices.map (fun v => v.position) ∧
      vs.map (fun v => v.color) = vertices.map (fun v => v.color) := by
  obtain ⟨v, hv⟩ := vectorAt_valid vertices i h0 h1
  have hlt : i.toNat < vertices.length := by omega
  have hv' : vertices[i.toNat]? = some v := by simpa [vectorAt, h0] using hv
  have hget : vertices[i.toNat] = v := by
    rw [List.getElem?_eq_getElem hlt] at hv'
    exact Option.some.inj hv'
  refine ⟨vertices.set i.toNat { v with normal := v.normal.add n }, by simp [accumulate, hv],
    by simp, ?_, ?_⟩
  · rw [List.map_set]
    apply List.ext_getElem (by simp)
    intro k hk1 hk2
    rw [List.getElem_set]
    split_ifs with hk
    · subst hk; simp [hget]
    · rfl
  · rw [List.map_set]
    apply List.ext_getElem (by simp)
    intro k hk1 hk2
    rw [List.getElem_set]
    split_ifs with hk
    · subst hk; simp [hget]
    · rfl

theorem foldlM_accumulate (triangles : List (Triangle F)) (vertices : List (Vertex F))
    (hf : ∀ t ∈ triangles, ValidFace vertices.length (indices t)) :
    ∃ vs, triangles.foldlM
        (fun vertices tri => do
          let vertices ← accumulate vertices tri.v0 tri.normal
          let vertices ← accumulate vertices tri.v1 tri.normal
          accumulate vertices tri.v2 tri.normal)
        vertices = some vs ∧ vs.length = vertices.length ∧
      vs.map (fun v => v.position) = vertices.map (fun v => v.position) ∧
      vs.map (fun v => v.color) = vertices.map (fun v => v.color) := by
  induction triangles generalizing vertices with
  | nil => exact ⟨vertices, rfl, rfl, rfl, rfl⟩
  | cons t ts ih =>
    obtain ⟨h0, h1, h2⟩ := hf t (List.mem_cons_self _ _)
    simp only [indices] at h0 h1 h2
    obtain ⟨a, ea, la, pa, ca⟩ := accumulate_valid vertices t.v0 t.normal h0.1 h0.2
    obtain ⟨b, eb, lb, pb, cb⟩ := accumulate_valid a t.v1 t.normal h1.1 (by rw [la]; exact h1.2)
    obtain ⟨c, ec, lc, pc, cc⟩ := accumulate_valid b t.v2 t.normal h2.1
      (by rw [lb, la]; exact h2.2)
    obtain ⟨vs, evs, lvs, pvs, cvs⟩ := ih c
      (fun u hu => by rw [lc, lb, la]; exact hf u (List.mem_cons_of_mem _ hu))
    refine ⟨vs, ?_, by rw [lvs, lc, lb, la], by rw [pvs, pc, pb, pa], by rw [cvs, cc, cb, ca]⟩
    rw [List.foldlM_cons]
    simp only [ea, eb, ec, Option.bind_eq_bind, Option.some_bind]
    exact evs

theorem calculate_vertex_normals_valid (M : Libm F) (mesh : Mesh F)
    (hf : ∀ t ∈ mesh.triangles, ValidFace mesh.vertices.length (indices t)) :
    ∃ mesh', mesh.calculate_vertex_normals M = some mesh' ∧
      mesh'.vertices.map (fun v => v.position) = mesh.vertices.map (fun v => v.position) ∧
      mesh'.vertices.map (fun v => v.color) = mesh.vertices.map (fun v => v.color) ∧
      mesh'.triangles = mesh.triangles ∧ mesh'.material = mesh.material ∧
      mesh'.transform = mesh.transform := by
  obtain ⟨vs, evs, _, pvs, cvs⟩ := foldlM_accumulate mesh.triangles
    (mesh.vertices.map (fun vertex => { vertex with normal := (⟨0, 0, 0⟩ : Vec3 F) }))
    (by simpa using hf)
  refine ⟨{ mesh with
      vertices := vs.map (fun vertex => { vertex with normal := vertex.normal.normalize M }) },
    by unfold calculate_vertex_normals; dsimp only; rw [evs]; rfl, ?_, ?_, rfl, rfl, rfl⟩
  · simp only [List.map_map] at pvs ⊢
    exact pvs
  · simp only [List.map_map] at cvs ⊢
    exact cvs

theorem create_cube_shape (M : Libm F) (size : F) (mat : Material F) :
    ∃ cube, create_cube M size mat = some cube ∧
      cube.vertices.map (fun v => v.position) = cube_positions (size * 0.5) ∧
      cube.triangles.map indices = cube_faces ∧
      cube.material = mat ∧ cube.transform = Mat4.identity := by
  have hv : ((cube_positions (size * 0.5)).foldl
      (fun cube p => cube.add_vertex (Vertex.ofPosition p)) (Mesh.init mat)) =
      ⟨(cube_positions (size * 0.5)).map Vertex.ofPosition, [], mat, Mat4.identity⟩ := by
    simp [cube_positions, add_vertex, Mesh.init]
  obtain ⟨m1, e1, hv1, ht1, hm1, hx1⟩ := foldlM_add_triangle M cube_faces
    (⟨(cube_positions (size * 0.5)).map Vertex.ofPosition, [], mat, Mat4.identity⟩ : Mesh F)
    (by
      intro f hf
      simp only [cube_faces, List.mem_cons, List.mem_singleton, List.not_mem_nil, or_false] at hf
      rcases hf with h | h | h | h | h | h | h | h | h | h | h | h <;> subst h <;>
        simp [ValidFace, cube_positions])
  obtain ⟨m2, e2, hp2, _, ht2, hm2, hx2⟩ := calculate_vertex_normals_valid M m1
    (by
      intro t ht
      have hmem : indices t ∈ m1.triangles.map indices := List.mem_map_of_mem _ ht
      rw [ht1] at hmem
      simp only [List.map_nil, List.nil_append, cube_faces, List.mem_cons, List.mem_singleton,
        List.not_mem_nil, or_false] at hmem
      rw [hv1]
      rcases hmem with h | h | h | h | h | h | h | h | h | h | h | h <;> rw [h] <;>
        simp [ValidFace, cube_positions])
  refine ⟨m2, ?_, ?_, ?_, ?_, ?_⟩
  · simp only [create_cube, hv, e1, Option.bind_eq_bind, Option.some_bind]
    exact e2
  · rw [hp2, hv1]
    simp [cube_positions, Vertex.ofPosition]
  · rw [ht2, ht1]; rfl
  · rw [hm2, hm1]
  · rw [hx2, hx1]

end Mesh

/-! ## Matrices -/

namespace Mat4

theorem mul_entry (A B : Mat4 F) (r c : Fin 4) :
    (A.mul B).m ⟨r.val * 4 + c.val, by omega⟩ =
      A.m ⟨r.val * 4 + 0, by omega⟩ * B.m ⟨0 * 4 + c.val, by omega⟩ +
      A.m ⟨r.val * 4 + 1, by omega⟩ * B.m ⟨1 * 4 + c.val, by omega⟩ +
      A.m ⟨r.val * 4 + 2, by omega⟩ * B.m ⟨2 * 4 + c.val, by omega⟩ +
      A.m ⟨r.val * 4 + 3, by omega⟩ * B.m ⟨3 * 4 + c.val, by omega⟩ := by
  have h1 : (r.val * 4 + c.val) / 4 = r.val := by omega
  have h2 : (r.val * 4 + c.val) % 4 = c.val := by omega
  have e : ∀ (X : Mat4 F) (n : Nat) (h : n < 16), X.elem n = X.m ⟨n, h⟩ := by
    intro X n h; simp [Mat4.elem, h]
  simp only [Mat4.mul, h1, h2, List.range_succ, List.range_zero, List.nil_append,
    List.cons_append, List.foldl_cons, List.foldl_nil, zero_add]
  rw [e A _ (by omega), e A _ (by omega), e A _ (by omega), e A _ (by omega),
    e B _ (by omega), e B _ (by omega), e B _ (by omega), e B _ (by omega)]

theorem transform_point_affine (B : Mat4 F) (hB : B.Affine) (p : Vec3 F) :
    B.transform_point p =
      ⟨B.m 0 * p.x + B.m 1 * p.y + B.m 2 * p.z + B.m 3,
       B.m 4 * p.x + B.m 5 * p.y + B.m 6 * p.z + B.m 7,
       B.m 8 * p.x + B.m 9 * p.y + B.m 10 * p.z + B.m 11⟩ := by
  obtain ⟨h12, h13, h14, h15⟩ := hB
  simp [transform_point, h12, h13, h14, h15]

theorem transform_point_mul (A B : Mat4 F) (hB : B.Affine) (p : Vec3 F) :
    (A.mul B).transform_point p = A.transform_point (B.transform_point p) := by
  rw [transform_point_affine B hB p]
  obtain ⟨h12, h13, h14, h15⟩ := hB
  have e00 : (A.mul B).m 0 =
      A.m 0 * B.m 0 + A.m 1 * B.m 4 + A.m 2 * B.m 8 + A.m 3 * B.m 12 := mul_entry A B 0 0
  have e01 : (A.mul B).m 1 =
      A.m 0 * B.m 1 + A.m 1 * B.m 5 + A.m 2 * B.m 9 + A.m 3 * B.m 13 := mul_entry A B 0 1
  have e02 : (A.mul B).m 2 =
      A.m 0 * B.m 2 + A.m 1 * B.m 6 + A.m 2 * B.m 10 + A.m 3 * B.m 14 := mul_entry A B 0 2
  have e03 : (A.mul B).m 3 =
      A.m 0 * B.m 3 + A.m 1 * B.m 7 + A.m 2 * B.m 11 + A.m 3 * B.m 15 := mul_entry A B 0 3
  have e10 : (A.mul B).m 4 =
      A.m 4 * B.m 0 + A.m 5 * B.m 4 + A.m 6 * B.m 8 + A.m 7 * B.m 12 := mul_entry A B 1 0
  have e11 : (A.mul B).m 5 =
      A.m 4 * B.m 1 + A.m 5 * B.m 5 + A.m 6 * B.m 9 + A.m 7 * B.m 13 := mul_entry A B 1 1
  have e12 : (A.mul B).m 6 =
      A.m 4 * B.m 2 + A.m 5 * B.m 6 + A.m 6 * B.m 10 + A.m 7 * B.m 14 := mul_entry A B 1 2
  have e13 : (A.mul B).m 7 =
      A.m 4 * B.m 3 + A.m 5 * B.m 7 + A.m 6 * B.m 11 + A.m 7 * B.m 15 := mul_entry A B 1 3
  have e20 : (A.mul B).m 8 =
      A.m 8 * B.m 0 + A.m 9 * B.m 4 + A.m 10 * B.m 8 + A.m 11 * B.m 12 := mul_entry A B 2 0
  have e21 : (A.mul B).m 9 =
      A.m 8 * B.m 1 + A.m 9 * B.m 5 + A.m 10 * B.m 9 + A.m 11 * B.m 13 := mul_entry A B 2 1
  have e22 : (A.mul B).m 10 =
      A.m 8 * B.m 2 + A.m 9 * B.m 6 + A.m 10 * B.m 10 + A.m 11 * B.m 14 := mul_entry A B 2 2
  have e23 : (A.mul B).m 11 =
      A.m 8 * B.m 3 + A.m 9 * B.m 7 + A.m 10 * B.m 11 + A.m 11 * B.m 15 := mul_entry A B 2 3
  have e30 : (A.mul B).m 12 =
      A.m 12 * B.m 0 + A.m 13 * B.m 4 + A.m 14 * B.m 8 + A.m 15 * B.m 12 := mul_entry A B 3 0
  have e31 : (A.mul B).m 13 =
      A.m 12 * B.m 1 + A.m 13 * B.m 5 + A.m 14 * B.m 9 + A.m 15 * B.m 13 := mul_entry A B 3 1
  have e32 : (A.mul B).m 14 =
      A.m 12 * B.m 2 + A.m 13 * B.m 6 + A.m 14 * B.m 10 + A.m 15 * B.m 14 := mul_entry A B 3 2
  have e33 : (A.mul B).m 15 =
      A.m 12 * B.m 3 + A.m 13 * B.m 7 + A.m 14 * B.m 11 + A.m 15 * B.m 15 := mul_entry A B 3 3
  have hrow : ∀ a0 a1 a2 a3 b0 b1 b2 b3 c0 c1 c2 c3 d0 d1 d2 d3 : F,
      (a0 * b0 + a1 * c0 + a2 * d0 + a3 * 0) * p.x + (a0 * b1 + a1 * c1 + a2 * d1 + a3 * 0) * p.y +
        (a0 * b2 + a1 * c2 + a2 * d2 + a3 * 0) * p.z + (a0 * b3 + a1 * c3 + a2 * d3 + a3 * 1) =
      a0 * (b0 * p.x + b1 * p.y + b2 * p.z + b3) + a1 * (c0 * p.x + c1 * p.y + c2 * p.z + c3) +
        a2 * (d0 * p.x + d1 * p.y + d2 * p.z + d3) + a3 := by
    intros; ring
  simp only [transform_point, e00, e01, e02, e03, e10, e11, e12, e13, e20, e21, e22, e23, e30,
    e31, e32, e33, h12, h13, h14, h15, hrow]

theorem identity_affine : (identity : Mat4 F).Affine := by
  simp [Affine, identity, set, Function.update]

theorem identity_transform_point (p : Vec3 F) : (identity : Mat4 F).transform_point p = p := by
  rw [transform_point_affine _ identity_affine]
  simp [identity, set, Function.update]

theorem look_at_affine (M : Libm F) (eye target up : Vec3 F) :
    (look_at M eye target up).Affine := by
  simp [Affine, look_at, identity, set, Function.update]

theorem look_at_front (M : Libm F) (hs25 : M.sqrt 25 = 5) (hs1 : M.sqrt 1 = 1) (p : Vec3 F) :
    (look_at M ⟨0, 0, 5⟩ ⟨0, 0, 0⟩ ⟨0, 1, 0⟩).transform_point p = ⟨p.x, p.y, p.z - 5⟩ := by
  have hf : Vec3.normalize M ((⟨0, 0, 0⟩ : Vec3 F).sub ⟨0, 0, 5⟩) = ⟨0, 0, -1⟩ := by
    have hl : Vec3.length M ((⟨0, 0, 0⟩ : Vec3 F).sub ⟨0, 0, 5⟩) = 5 := by
      simp only [Vec3.length, Vec3.sub]
      norm_num
      exact hs25
    simp only [Vec3.normalize, hl]
    norm_num [Vec3.sdiv, Vec3.sub]
  have hr : Vec3.normalize M ((⟨0, 0, -1⟩ : Vec3 F).cross ⟨0, 1, 0⟩) = ⟨1, 0, 0⟩ := by
    have hl : Vec3.length M ((⟨0, 0, -1⟩ : Vec3 F).cross ⟨0, 1, 0⟩) = 1 := by
      simp only [Vec3.length, Vec3.cross]
      norm_num
      exact hs1
    simp only [Vec3.normalize, hl]
    norm_num [Vec3.sdiv, Vec3.cross]
  rw [transform_point_affine _ (look_at_affine M _ _ _)]
  simp only [look_at, hf, hr]
  simp [set, identity, Function.update, Vec3.cross, Vec3.dot]
  ring

theorem perspective_transform_point (M : Libm F) (fov aspect near far : F) (q : Vec3 F)
    (hz : q.z ≠ 0) :
    (perspective M fov aspect near far).transform_point q =
      ⟨1 / (aspect * M.tan (fov / 2)) * q.x / -q.z, 1 / M.tan (fov / 2) * q.y / -q.z,
        (-(far + near) / (far - near) * q.z + -(2 * far * near) / (far - near)) / -q.z⟩ := by
  simp [transform_point, perspective, set, identity, Function.update, hz]

end Mat4

/-! ## The cube seen from the front -/

namespace Renderer

/-- The screen position computed by the vertex loop for the camera at `(0, 0, 5)` looking
at the origin, an identity model transform and an 800×600 framebuffer. -/
theorem transform_vertex_front (M : Libm F) (hs25 : M.sqrt 25 = 5) (hs1 : M.sqrt 1 = 1)
    (aspect : F) (u : Vertex F) (c1 c5 q zq : F)
    (hc1 : c1 = 1 / (aspect * M.tan (60 * Camera.M_PI / 180 / 2)))
    (hc5 : c5 = 1 / M.tan (60 * Camera.M_PI / 180 / 2))
    (hq : q = u.position.z - 5)
    (hzq : zq = -(100 + 0.1) / (100 - 0.1) * q + -(2 * 100 * 0.1) / (100 - 0.1))
    (hq0 : q ≠ 0) (hz0 : zq ≠ 0) :
    (transform_vertex (Renderer.init 800 600) M
      ((((Camera.init ⟨0, 0, 5⟩ ⟨0, 0, 0⟩ ⟨0, 1, 0⟩ 60 aspect).get_projection_matrix M).mul
        ((Camera.init ⟨0, 0, 5⟩ ⟨0, 0, 0⟩ ⟨0, 1, 0⟩ 60 aspect).get_view_matrix M)).mul
        Mat4.identity) Mat4.identity u).position =
      ⟨(c1 * u.position.x / -q / (zq / -q) + 1) * 800 * 0.5,
        (1 - c5 * u.position.y / -q / (zq / -q)) * 600 * 0.5, zq / -q⟩ := by
  have hclip : ((((Camera.init ⟨0, 0, 5⟩ ⟨0, 0, 0⟩ ⟨0, 1, 0⟩ 60 aspect).get_projection_matrix
      M).mul ((Camera.init ⟨0, 0, 5⟩ ⟨0, 0, 0⟩ ⟨0, 1, 0⟩ 60 aspect).get_view_matrix M)).mul
      Mat4.identity).transform_point u.position =
      ⟨c1 * u.position.x / -q, c5 * u.position.y / -q, zq / -q⟩ := by
    rw [Mat4.transform_point_mul _ _ Mat4.identity_affine, Mat4.identity_transform_point]
    simp only [Camera.get_view_matrix, Camera.get_projection_matrix, Camera.init]
    rw [Mat4.transform_point_mul _ _ (Mat4.look_at_affine M _ _ _), Mat4.look_at_front M hs25 hs1,
      Mat4.perspective_transform_point M _ _ _ _ _ (by rw [← hq]; exact hq0)]
    rw [← hq, ← hc1, ← hc5, ← hzq]
  have hne : zq / -q ≠ 0 := div_ne_zero hz0 (neg_ne_zero.mpr hq0)
  simp only [transform_vertex, hclip, if_pos hne, Renderer.init, Framebuffer.init]
  simp

theorem screen_normal_z (a b c : Vertex F) :
    (screen_normal a b c).z =
      (b.position.x - a.position.x) * (c.position.y - a.position.y) -
        (b.position.y - a.position.y) * (c.position.x - a.position.x) := rfl

/-- The screen-space winding of three vertices of one plane `z = const` in front of the
camera `(0, 0, 5)` is the opposite of their winding in the world `x, y` coordinates. -/
theorem screen_normal_front (M : Libm F) (hs25 : M.sqrt 25 = 5) (hs1 : M.sqrt 1 = 1)
    (aspect : F) (ha : 0 < aspect) (ht : 0 < M.tan (60 * Camera.M_PI / 180 / 2))
    (a b c : Vertex F) (z : F) (haz : a.position.z = z) (hbz : b.position.z = z)
    (hcz : c.position.z = z) (hq0 : z - 5 ≠ 0)
    (hz0 : -(100 + 0.1) / (100 - 0.1) * (z - 5) + -(2 * 100 * 0.1) / (100 - 0.1) ≠ 0) :
    ∃ k : F, 0 < k ∧
      (screen_normal
        (transform_vertex (Renderer.init 800 600) M
          ((((Camera.init ⟨0, 0, 5⟩ ⟨0, 0, 0⟩ ⟨0, 1, 0⟩ 60 aspect).get_projection_matrix M).mul
            ((Camera.init ⟨0, 0, 5⟩ ⟨0, 0, 0⟩ ⟨0, 1, 0⟩ 60 aspect).get_view_matrix M)).mul
            Mat4.identity) Mat4.identity a)
        (transform_vertex (Renderer.init 800 600) M
          ((((Camera.init ⟨0, 0, 5⟩ ⟨0, 0, 0⟩ ⟨0, 1, 0⟩ 60 aspect).get_projection_matrix M).mul
            ((Camera.init ⟨0, 0, 5⟩ ⟨0, 0, 0⟩ ⟨0, 1, 0⟩ 60 aspect).get_view_matrix M)).mul
            Mat4.identity) Mat4.identity b)
        (transform_vertex (Renderer.init 800 600) M
          ((((Camera.init ⟨0, 0, 5⟩ ⟨0, 0, 0⟩ ⟨0, 1, 0⟩ 60 aspect).get_projection_matrix M).mul
            ((Camera.init ⟨0, 0, 5⟩ ⟨0, 0, 0⟩ ⟨0, 1, 0⟩ 60 aspect).get_view_matrix M)).mul
            Mat4.identity) Mat4.identity c)).z =
      -k * ((b.position.x - a.position.x) * (c.position.y - a.position.y) -
        (b.position.y - a.position.y) * (c.position.x - a.position.x)) := by
  set c1 : F := 1 / (aspect * M.tan (60 * Camera.M_PI / 180 / 2)) with hc1
  set c5 : F := 1 / M.tan (60 * Camera.M_PI / 180 / 2) with hc5
  set zq : F := -(100 + 0.1) / (100 - 0.1) * (z - 5) + -(2 * 100 * 0.1) / (100 - 0.1) with hzq
  have pa := transform_vertex_front M hs25 hs1 aspect a c1 c5 (z - 5) zq hc1 hc5 (by rw [haz]) hzq
    hq0 hz0
  have pb := transform_vertex_front M hs25 hs1 aspect b c1 c5 (z - 5) zq hc1 hc5 (by rw [hbz]) hzq
    hq0 hz0
  have pc := transform_vertex_front M hs25 hs1 aspect c c1 c5 (z - 5) zq hc1 hc5 (by rw [hcz]) hzq
    hq0 hz0
  have hc1p : 0 < c1 := by rw [hc1]; positivity
  have hc5p : 0 < c5 := by rw [hc5]; positivity
  have hd : (-(z - 5))⁻¹ * (zq / -(z - 5))⁻¹ ≠ 0 :=
    mul_ne_zero (inv_ne_zero (neg_ne_zero.mpr hq0))
      (inv_ne_zero (div_ne_zero hz0 (neg_ne_zero.mpr hq0)))
  refine ⟨800 * 0.5 * (600 * 0.5) * (c1 * c5 * ((-(z - 5))⁻¹ * (zq / -(z - 5))⁻¹) ^ 2), ?_, ?_⟩
  · have h2 : 0 < ((-(z - 5))⁻¹ * (zq / -(z - 5))⁻¹) ^ 2 := by positivity
    have h3 : (0 : F) < 800 * 0.5 * (600 * 0.5) := by norm_num
    positivity
  · rw [screen_normal_z, pa, pb, pc]
    simp only []
    ring

/-- C9 (the code at the claim's scenario): for `create_cube(1.0)` with identity transform,
the camera at `(0, 0, 5)` looking at the origin with up `(0, 1, 0)` and fov 60 degrees,
and an 800×600 framebuffer, the triangles `{0,1,2}`, `{0,2,3}` of the far face `z = -0.5`
have `screen_normal.z < 0`, so they pass the culling test and are rasterised, while the
triangles `{5,4,7}`, `{5,7,6}` of the near face `z = +0.5` have `screen_normal.z > 0`
and are discarded: the opposite of what the claim states. -/
theorem cube_front_camera_culling (M : Libm F) (mat : Material F) (aspect : F)
    (ha : 0 < aspect) (hs25 : M.sqrt 25 = 5) (hs1 : M.sqrt 1 = 1)
    (ht : 0 < M.tan (60 * Camera.M_PI / 180 / 2)) :
    ∃ cube : Mesh F, Mesh.create_cube M 1 mat = some cube ∧
      cube.triangles.map Mesh.indices = Mesh.cube_faces ∧
      ∃ v0 v1 v2 v3 v4 v5 v6 v7 : Vertex F,
        transformed_vertices (Renderer.init 800 600) M cube
          (Camera.init ⟨0, 0, 5⟩ ⟨0, 0, 0⟩ ⟨0, 1, 0⟩ 60 aspect) =
          [v0, v1, v2, v3, v4, v5, v6, v7] ∧
        (screen_normal v0 v1 v2).z < 0 ∧ (screen_normal v0 v2 v3).z < 0 ∧
        (screen_normal v5 v4 v7).z > 0 ∧ (screen_normal v5 v7 v6).z > 0 := by
  obtain ⟨cube, hc, hpos, hidx, _, htr⟩ := Mesh.create_cube_shape M 1 mat
  have hhalf : (1 : F) * 0.5 = 1 / 2 := by norm_num
  rw [hhalf] at hpos
  simp only [Mesh.cube_positions, List.map_eq_cons_iff, List.map_eq_nil_iff] at hpos
  obtain ⟨u0, r0, hv, h0, u1, r1, rfl, h1, u2, r2, rfl, h2, u3, r3, rfl, h3, u4, r4, rfl, h4,
    u5, r5, rfl, h5, u6, r6, rfl, h6, u7, r7, rfl, h7, rfl⟩ := hpos
  let T : Vertex F → Vertex F := transform_vertex (Renderer.init 800 600) M
    ((((Camera.init ⟨0, 0, 5⟩ ⟨0, 0, 0⟩ ⟨0, 1, 0⟩ 60 aspect).get_projection_matrix M).mul
      ((Camera.init ⟨0, 0, 5⟩ ⟨0, 0, 0⟩ ⟨0, 1, 0⟩ 60 aspect).get_view_matrix M)).mul
      Mat4.identity) Mat4.identity
  refine ⟨cube, hc, hidx, T u0, T u1, T u2, T u3, T u4, T u5, T u6, T u7, ?_, ?_⟩
  · simp only [transformed_vertices, hv, htr, List.map_cons, List.map_nil, T]
  · have hqf : (-(1 / 2) : F) - 5 ≠ 0 := by norm_num
    have hzf : -(100 + 0.1) / (100 - 0.1) * ((-(1 / 2) : F) - 5) +
        -(2 * 100 * 0.1) / (100 - 0.1) ≠ 0 := by norm_num
    have hqn : ((1 / 2) : F) - 5 ≠ 0 := by norm_num
    have hzn : -(100 + 0.1) / (100 - 0.1) * (((1 / 2) : F) - 5) +
        -(2 * 100 * 0.1) / (100 - 0.1) ≠ 0 := by norm_num
    have z0 : u0.position.z = -(1 / 2) := by rw [h0]
    have z1 : u1.position.z = -(1 / 2) := by rw [h1]
    have z2 : u2.position.z = -(1 / 2) := by rw [h2]
    have z3 : u3.position.z = -(1 / 2) := by rw [h3]
    have z4 : u4.position.z = 1 / 2 := by rw [h4]
    have z5 : u5.position.z = 1 / 2 := by rw [h5]
    have z6 : u6.position.z = 1 / 2 := by rw [h6]
    have z7 : u7.position.z = 1 / 2 := by rw [h7]
    obtain ⟨ka, hka, ea⟩ := screen_normal_front M hs25 hs1 aspect ha ht u0 u1 u2 _ z0 z1 z2 hqf hzf
    obtain ⟨kb, hkb, eb⟩ := screen_normal_front M hs25 hs1 aspect ha ht u0 u2 u3 _ z0 z2 z3 hqf hzf
    obtain ⟨kc, hkc, ec⟩ := screen_normal_front M hs25 hs1 aspect ha ht u5 u4 u7 _ z5 z4 z7 hqn hzn
    obtain ⟨kd, hkd, ed⟩ := screen_normal_front M hs25 hs1 aspect ha ht u5 u7 u6 _ z5 z7 z6 hqn hzn
    rw [ea, eb, ec, ed, h0, h1, h2, h3, h4, h5, h6, h7]
    norm_num
    exact ⟨hka, hkb, hkc, hkd⟩

theorem cube_front_camera_culling_witness :
    ∃ cube : Mesh ℚ, Mesh.create_cube ratLibm 1 Material.init = some cube ∧
      cube.triangles.map Mesh.indices = Mesh.cube_faces ∧
      ∃ v0 v1 v2 v3 v4 v5 v6 v7 : Vertex ℚ,
        transformed_vertices (Renderer.init 800 600) ratLibm cube
          (Camera.init ⟨0, 0, 5⟩ ⟨0, 0, 0⟩ ⟨0, 1, 0⟩ 60 (4 / 3)) =
          [v0, v1, v2, v3, v4, v5, v6, v7] ∧
        (screen_normal v0 v1 v2).z < 0 ∧ (screen_normal v0 v2 v3).z < 0 ∧
        (screen_normal v5 v4 v7).z > 0 ∧ (screen_normal v5 v7 v6).z > 0 :=
  cube_front_camera_culling ratLibm Material.init (4 / 3) (by norm_num) (by decide!)
    (by decide!) (by decide!)

end Renderer

/-! ## Filled triangles -/

namespace Renderer

theorem truncInt_natCast (n : Nat) : truncInt (n : F) = n := by
  simp [truncInt]

/-- C10 (the code at a failing input): for the screen triangle `(0,0,0)`, `(0,1,0)`,
`(1,2,1)`, not collinear in `(x, y)`, `draw_triangle_flat` submits exactly the pixels
`(0,0)`, `(0,1)`, `(1,1)`: it submits `(1,1)`, which is outside the closed 2D triangle, and
it does not submit `(1,2)`, the triangle's own third vertex. The dot products of the
barycentric solve include the `z` components, so the coverage depends on the depths. -/
theorem flat_coverage_depends_on_depth (R : Renderer F) (M : Libm F) (n c : Vec3 F)
    (face_normal : Vec3 F) (material : Material F) (lights : List (Light F))
    (view_dir : Vec3 F) :
    (draw_triangle_flat_frags R M ⟨⟨0, 0, 0⟩, n, c⟩ ⟨⟨0, 1, 0⟩, n, c⟩ ⟨⟨1, 2, 1⟩, n, c⟩
      face_normal material lights view_dir).map (fun fr => (fr.x, fr.y)) =
        [(0, 0), (0, 1), (1, 1)] ∧
    sortByY (⟨0, 0, 0⟩ : Vec3 F) ⟨0, 1, 0⟩ ⟨1, 2, 1⟩ = (⟨0, 0, 0⟩, ⟨0, 1, 0⟩, ⟨1, 2, 1⟩) ∧
    InTriangle2D (⟨0, 0, 0⟩ : Vec3 F) ⟨0, 1, 0⟩ ⟨1, 2, 1⟩ 1 2 ∧
    ¬ InTriangle2D (⟨0, 0, 0⟩ : Vec3 F) ⟨0, 1, 0⟩ ⟨1, 2, 1⟩ 1 1 := by
  have hs : sortByY (⟨0, 0, 0⟩ : Vec3 F) ⟨0, 1, 0⟩ ⟨1, 2, 1⟩ =
      (⟨0, 0, 0⟩, ⟨0, 1, 0⟩, ⟨1, 2, 1⟩) := by
    norm_num [sortByY]
  have t0 : truncInt (0 : F) = 0 := by simpa using truncInt_natCast (F := F) 0
  have t1 : truncInt (1 : F) = 1 := by simpa using truncInt_natCast (F := F) 1
  have t2 : truncInt (2 : F) = 2 := by simpa using truncInt_natCast (F := F) 2
  have hmin : stdMin3 (0 : F) 0 1 = 0 := by norm_num [stdMin3, stdMin]
  have hmax : stdMax3 (0 : F) 0 1 = 1 := by norm_num [stdMax3, stdMax]
  have r02 : intRange 0 2 = [0, 1, 2] := by decide
  have r01 : intRange 0 1 = [0, 1] := by decide
  refine ⟨?_, hs, ⟨1, 0, by norm_num, le_rfl, by norm_num, by norm_num, by norm_num⟩, ?_⟩
  · have f00 : ∀ col : Vec3 F, flat_pixel ⟨0, 0, 0⟩ ⟨0, 1, 0⟩ ⟨1, 2, 1⟩ col 0 0 =
        some ⟨0, 0, col, 0⟩ := by
      intro col; norm_num [flat_pixel, Vec3.sub, Vec3.dot]
    have f01 : ∀ col : Vec3 F, flat_pixel ⟨0, 0, 0⟩ ⟨0, 1, 0⟩ ⟨1, 2, 1⟩ col 0 1 = none := by
      intro col; norm_num [flat_pixel, Vec3.sub, Vec3.dot]
    have f10 : ∀ col : Vec3 F, flat_pixel ⟨0, 0, 0⟩ ⟨0, 1, 0⟩ ⟨1, 2, 1⟩ col 1 0 =
        some ⟨0, 1, col, 0⟩ := by
      intro col; norm_num [flat_pixel, Vec3.sub, Vec3.dot]
    have f11 : ∀ col : Vec3 F, flat_pixel ⟨0, 0, 0⟩ ⟨0, 1, 0⟩ ⟨1, 2, 1⟩ col 1 1 =
        some ⟨1, 1, col, 1 / 2⟩ := by
      intro col; norm_num [flat_pixel, Vec3.sub, Vec3.dot]
    have f20 : ∀ col : Vec3 F, flat_pixel ⟨0, 0, 0⟩ ⟨0, 1, 0⟩ ⟨1, 2, 1⟩ col 2 0 = none := by
      intro col; norm_num [flat_pixel, Vec3.sub, Vec3.dot]
    have f21 : ∀ col : Vec3 F, flat_pixel ⟨0, 0, 0⟩ ⟨0, 1, 0⟩ ⟨1, 2, 1⟩ col 2 1 = none := by
      intro col; norm_num [flat_pixel, Vec3.sub, Vec3.dot]
    simp only [draw_triangle_flat_frags, hs, t0, t2, hmin, hmax, t1, r02, r01, List.flatMap_cons,
      List.flatMap_nil, List.filterMap_cons, List.filterMap_nil, f00, f01, f10, f11, f20, f21]
    rfl
  · rintro ⟨u, v, hu, hv, huv, hx, hy⟩
    norm_num at hx hy
    linarith

end Renderer

/-! ## Vertex projection -/

namespace Renderer

theorem transform_vertex_divide (R : Renderer F) (M : Libm F) (mvp transform : Mat4 F)
    (vertex : Vertex F) (hz : (mvp.transform_point vertex.position).z ≠ 0) :
    (transform_vertex R M mvp transform vertex).position =
      ⟨((mvp.transform_point vertex.position).x / (mvp.transform_point vertex.position).z + 1) *
          ((R.framebuffer.width : F) / 2),
        (1 - (mvp.transform_point vertex.position).y / (mvp.transform_point vertex.position).z) *
          ((R.framebuffer.height : F) / 2),
        (mvp.transform_point vertex.position).z⟩ := by
  simp only [transform_vertex, if_pos hz]
  norm_num
  constructor <;> ring

theorem transform_vertex_skip (R : Renderer F) (M : Libm F) (mvp transform : Mat4 F)
    (vertex : Vertex F) (hz : (mvp.transform_point vertex.position).z = 0) :
    (transform_vertex R M mvp transform vertex).position = vertex.position := by
  simp only [transform_vertex, hz, ne_eq, not_true_eq_false, if_false]

/-- C11: the vertex loop of `render_mesh` maps every vertex through `transform_vertex` with
`mvp = projection * view * model`; with `clip = mvp.transform_point(position)`, when
`clip.z ≠ 0` the screen position is `((clip.x/clip.z + 1) * width/2,
(1 - clip.y/clip.z) * height/2, clip.z)`, so that `clip.x/clip.z = -1, +1` give the columns
`0, width` and `clip.y/clip.z = +1, -1` give the rows `0, height`; when `clip.z = 0` the
vertex keeps its untransformed position in all three components. -/
theorem vertex_projection (R : Renderer F) (M : Libm F) (mesh : Mesh F) (camera : Camera F)
    (mvp : Mat4 F)
    (hmvp : mvp = ((camera.get_projection_matrix M).mul (camera.get_view_matrix M)).mul
      mesh.transform) :
    transformed_vertices R M mesh camera =
      mesh.vertices.map (transform_vertex R M mvp mesh.transform) ∧
    ∀ vertex : Vertex F,
      ((mvp.transform_point vertex.position).z ≠ 0 →
        (transform_vertex R M mvp mesh.transform vertex).position =
          ⟨((mvp.transform_point vertex.position).x / (mvp.transform_point vertex.position).z +
              1) * ((R.framebuffer.width : F) / 2),
            (1 - (mvp.transform_point vertex.position).y /
              (mvp.transform_point vertex.position).z) * ((R.framebuffer.height : F) / 2),
            (mvp.transform_point vertex.position).z⟩ ∧
        ((mvp.transform_point vertex.position).x / (mvp.transform_point vertex.position).z = -1 →
          (transform_vertex R M mvp mesh.transform vertex).position.x = 0) ∧
        ((mvp.transform_point vertex.position).x / (mvp.transform_point vertex.position).z = 1 →
          (transform_vertex R M mvp mesh.transform vertex).position.x = R.framebuffer.width) ∧
        ((mvp.transform_point vertex.position).y / (mvp.transform_point vertex.position).z = 1 →
          (transform_vertex R M mvp mesh.transform vertex).position.y = 0) ∧
        ((mvp.transform_point vertex.position).y / (mvp.transform_point vertex.position).z = -1 →
          (transform_vertex R M mvp mesh.transform vertex).position.y = R.framebuffer.height)) ∧
      ((mvp.transform_point vertex.position).z = 0 →
        (transform_vertex R M mvp mesh.transform vertex).position = vertex.position) := by
  refine ⟨by rw [hmvp]; rfl, fun vertex => ⟨fun hz => ?_, transform_vertex_skip R M mvp _ vertex⟩⟩
  have hpos := transform_vertex_divide R M mvp mesh.transform vertex hz
  refine ⟨hpos, ?_, ?_, ?_, ?_⟩ <;> intro h <;> rw [hpos] <;> simp only [h] <;> ring

theorem vertex_projection_witness :
    (transformed_vertices (Renderer.init 800 600) ratLibm nearFaceMesh frontCamera).map
        (fun v => v.position.z) = [8609 / 8991, 8609 / 8991, 8609 / 8991] ∧
      (transform_vertex (Renderer.init 800 600) ratLibm
        (((frontCamera.get_projection_matrix ratLibm).mul
          (frontCamera.get_view_matrix ratLibm)).mul nearFaceMesh.transform)
        nearFaceMesh.transform (Vertex.ofPosition ⟨1, 2, 4805 / 1001⟩)).position = ⟨1, 2, 4805 / 1001⟩ :=
  have h := vertex_projection (Renderer.init 800 600) ratLibm nearFaceMesh frontCamera _ rfl
  ⟨by rw [h.1]; decide!, (h.2 (Vertex.ofPosition ⟨1, 2, 4805 / 1001⟩)).2 (by decide!)⟩

end Renderer

/-! ## Vectors -/

namespace Vec3

theorem eq_of_components {a b : Vec3 F} (hx : a.x = b.x) (hy : a.y = b.y) (hz : a.z = b.z) :
    a = b := by
  cases a; cases b; simp only [mk.injEq]; exact ⟨hx, hy, hz⟩

theorem sqrtAt_one (M : Libm F) (h : M.SqrtAt 1) : M.sqrt 1 = 1 := by
  obtain ⟨h0, h1⟩ := h
  have : (M.sqrt 1 - 1) * (M.sqrt 1 + 1) = 0 := by ring_nf; rw [sq, h1]; ring
  rcases mul_eq_zero.mp this with h | h
  · linarith
  · linarith

theorem sqrtAt_pos (M : Libm F) {x : F} (h : M.SqrtAt x) (hx : x ≠ 0) : 0 < M.sqrt x := by
  obtain ⟨h0, h1⟩ := h
  rcases h0.lt_or_eq with hlt | heq
  · exact hlt
  · exfalso; apply hx; rw [← h1, ← heq]; ring

theorem normalize_of_pos (M : Libm F) (v : Vec3 F) (h : 0 < v.length M) :
    v.normalize M = v.sdiv (v.length M) := by
  simp only [normalize, gt_iff_lt, if_pos h]

theorem normalize_of_not_pos (M : Libm F) (v : Vec3 F) (h : ¬ 0 < v.length M) :
    v.normalize M = ⟨0, 0, 0⟩ := by
  simp only [normalize, gt_iff_lt, if_neg h]

theorem normalize_zero (M : Libm F) : (⟨0, 0, 0⟩ : Vec3 F).normalize M = ⟨0, 0, 0⟩ := by
  by_cases h : 0 < (⟨0, 0, 0⟩ : Vec3 F).length M
  · rw [normalize_of_pos M _ h]; simp [sdiv]
  · exact normalize_of_not_pos M _ h

theorem dot_self_sdiv (v : Vec3 F) (len : F) (hlen : len * len = v.x * v.x + v.y * v.y + v.z * v.z)
    (h0 : len ≠ 0) :
    (v.sdiv len).x * (v.sdiv len).x + (v.sdiv len).y * (v.sdiv len).y +
      (v.sdiv len).z * (v.sdiv len).z = 1 := by
  simp only [sdiv]
  field_simp
  rw [← hlen]

theorem length_normalize (M : Libm F) (v : Vec3 F)
    (hs : M.SqrtAt (v.x * v.x + v.y * v.y + v.z * v.z)) (h1 : M.SqrtAt 1)
    (hne : v.length M ≠ 0) : (v.normalize M).length M = 1 := by
  have hpos : 0 < v.length M := lt_of_le_of_ne hs.1 (Ne.symm hne)
  rw [normalize_of_pos M v hpos]
  have := dot_self_sdiv v (v.length M) hs.2 hne
  unfold length at this ⊢
  rw [this]
  exact sqrtAt_one M h1

/-- C20: for a vector of non-zero length (the square root being exact at its squared
length and at `1`), `normalize` returns `v / |v|`, a positive multiple of `v`, of length
`1`; for a vector of length `0` it returns the zero vector; in both cases normalising
twice is the same as normalising once. -/
theorem normalize_spec (M : Libm F) (v : Vec3 F) :
    (v.length M ≠ 0 → M.SqrtAt (v.x * v.x + v.y * v.y + v.z * v.z) → M.SqrtAt 1 →
      (v.normalize M).length M = 1 ∧ v.normalize M = v.sdiv (v.length M) ∧
      0 < 1 / v.length M ∧ v.normalize M = v.smul (1 / v.length M) ∧
      (v.normalize M).normalize M = v.normalize M) ∧
    (v.length M = 0 → v.normalize M = ⟨0, 0, 0⟩ ∧
      (v.normalize M).normalize M = v.normalize M) := by
  constructor
  · intro hne hs h1
    have hpos : 0 < v.length M := lt_of_le_of_ne hs.1 (Ne.symm hne)
    have hlen := length_normalize M v hs h1 hne
    refine ⟨hlen, normalize_of_pos M v hpos, by positivity, ?_, ?_⟩
    · rw [normalize_of_pos M v hpos]
      simp only [sdiv, smul, div_eq_mul_inv, one_mul]
    · rw [normalize_of_pos M (v.normalize M) (by rw [hlen]; exact one_pos), hlen]
      simp [sdiv]
  · intro h0
    have hz : v.normalize M = ⟨0, 0, 0⟩ := normalize_of_not_pos M v (by rw [h0]; exact lt_irrefl _)
    exact ⟨hz, by rw [hz]; exact normalize_zero M⟩

theorem normalize_spec_witness :
    ((⟨3, 4, 0⟩ : Vec3 ℚ).normalize ratLibm).length ratLibm = 1 ∧
      (⟨3, 4, 0⟩ : Vec3 ℚ).normalize ratLibm = ⟨3 / 5, 4 / 5, 0⟩ ∧
      (⟨0, 0, 0⟩ : Vec3 ℚ).normalize ratLibm = ⟨0, 0, 0⟩ :=
  have h := (normalize_spec ratLibm ⟨3, 4, 0⟩).1 (by decide!) ⟨by decide!, by decide!⟩
    ⟨by decide!, by decide!⟩
  ⟨h.1, h.2.1.trans (by decide!),
    ((normalize_spec ratLibm ⟨0, 0, 0⟩).2 (by decide!)).1⟩

end Vec3

/-! ## Face normals -/

namespace Vec3

theorem cross_dot_left (a b : Vec3 F) : (a.cross b).dot a = 0 := by
  simp only [cross, dot]; ring

theorem cross_dot_right (a b : Vec3 F) : (a.cross b).dot b = 0 := by
  simp only [cross, dot]; ring

theorem normalize_dot_zero (M : Libm F) (v e : Vec3 F) (h : v.dot e = 0) :
    (v.normalize M).dot e = 0 := by
  by_cases hp : 0 < v.length M
  · rw [normalize_of_pos M v hp]
    have : (v.sdiv (v.length M)).dot e = v.dot e / v.length M := by
      simp only [sdiv, dot]; ring
    rw [this, h, zero_div]
  · rw [normalize_of_not_pos M v hp]
    simp [dot]

theorem sq_sum_ne_zero (v : Vec3 F) (h : v ≠ ⟨0, 0, 0⟩) :
    v.x * v.x + v.y * v.y + v.z * v.z ≠ 0 := by
  intro hs
  apply h
  have hx := mul_self_nonneg v.x
  have hy := mul_self_nonneg v.y
  have hz := mul_self_nonneg v.z
  have ex : v.x * v.x = 0 := by linarith
  have ey : v.y * v.y = 0 := by linarith
  have ez : v.z * v.z = 0 := by linarith
  exact eq_of_components (mul_self_eq_zero.mp ex) (mul_self_eq_zero.mp ey)
    (mul_self_eq_zero.mp ez)

theorem length_ne_zero (M : Libm F) (v : Vec3 F) (h : v ≠ ⟨0, 0, 0⟩)
    (hs : M.SqrtAt (v.x * v.x + v.y * v.y + v.z * v.z)) : v.length M ≠ 0 :=
  (sqrtAt_pos M hs (sq_sum_ne_zero v h)).ne'

end Vec3

namespace Mesh

theorem add_triangle_eq (M : Libm F) (mesh : Mesh F) (i0 i1 i2 : Int) (p0 p1 p2 : Vertex F)
    (h0 : vectorAt mesh.vertices i0 = some p0) (h1 : vectorAt mesh.vertices i1 = some p1)
    (h2 : vectorAt mesh.vertices i2 = some p2) :
    mesh.add_triangle M i0 i1 i2 = some { mesh with triangles := mesh.triangles ++
      [⟨i0, i1, i2, ((p1.position.sub p0.position).cross
        (p2.position.sub p0.position)).normalize M⟩] } := by
  simp [add_triangle, Triangle.calculate_normal, h0, h1, h2]

/-- C14: `add_triangle(i0, i1, i2)` with valid indices appends the triangle whose normal is
`normalize((p1 - p0) × (p2 - p0))`; when the three positions are not collinear (the cross
product is non-zero) that normal has length `1` and zero dot product with both edges; when
they are collinear it is the zero vector. -/
theorem face_normal_spec (M : Libm F) (mesh : Mesh F) (i0 i1 i2 : Int)
    (hv : ValidFace mesh.vertices.length (i0, i1, i2)) :
    ∃ p0 p1 p2 : Vertex F, vectorAt mesh.vertices i0 = some p0 ∧
      vectorAt mesh.vertices i1 = some p1 ∧ vectorAt mesh.vertices i2 = some p2 ∧
      mesh.add_triangle M i0 i1 i2 = some { mesh with triangles := mesh.triangles ++
        [⟨i0, i1, i2, ((p1.position.sub p0.position).cross
          (p2.position.sub p0.position)).normalize M⟩] } ∧
      ((p1.position.sub p0.position).cross (p2.position.sub p0.position) ≠ ⟨0, 0, 0⟩ →
        M.SqrtAt
          (((p1.position.sub p0.position).cross (p2.position.sub p0.position)).x *
              ((p1.position.sub p0.position).cross (p2.position.sub p0.position)).x +
            ((p1.position.sub p0.position).cross (p2.position.sub p0.position)).y *
              ((p1.position.sub p0.position).cross (p2.position.sub p0.position)).y +
            ((p1.position.sub p0.position).cross (p2.position.sub p0.position)).z *
              ((p1.position.sub p0.position).cross (p2.position.sub p0.position)).z) →
        M.SqrtAt 1 →
        (((p1.position.sub p0.position).cross (p2.position.sub p0.position)).normalize
            M).length M = 1 ∧
          (((p1.position.sub p0.position).cross (p2.position.sub p0.position)).normalize
            M).dot (p1.position.sub p0.position) = 0 ∧
          (((p1.position.sub p0.position).cross (p2.position.sub p0.position)).normalize
            M).dot (p2.position.sub p0.position) = 0) ∧
      ((p1.position.sub p0.position).cross (p2.position.sub p0.position) = ⟨0, 0, 0⟩ →
        ((p1.position.sub p0.position).cross (p2.position.sub p0.position)).normalize M =
          ⟨0, 0, 0⟩) := by
  obtain ⟨⟨a0, a1⟩, ⟨b0, b1⟩, ⟨c0, c1⟩⟩ := hv
  obtain ⟨p0, h0⟩ := vectorAt_valid mesh.vertices i0 a0 a1
  obtain ⟨p1, h1⟩ := vectorAt_valid mesh.vertices i1 b0 b1
  obtain ⟨p2, h2⟩ := vectorAt_valid mesh.vertices i2 c0 c1
  refine ⟨p0, p1, p2, h0, h1, h2, add_triangle_eq M mesh i0 i1 i2 p0 p1 p2 h0 h1 h2, ?_, ?_⟩
  · intro hne hs hone
    exact ⟨Vec3.length_normalize M _ hs hone (Vec3.length_ne_zero M _ hne hs),
      Vec3.normalize_dot_zero M _ _ (Vec3.cross_dot_left _ _),
      Vec3.normalize_dot_zero M _ _ (Vec3.cross_dot_right _ _)⟩
  · intro hz
    rw [hz]
    exact Vec3.normalize_zero M

theorem face_normal_spec_witness :
    ∃ n : Vec3 ℚ, nearFaceMesh.add_triangle ratLibm 0 1 2 = some { nearFaceMesh with
        triangles := nearFaceMesh.triangles ++ [⟨0, 1, 2, n⟩] } ∧
      n = ⟨0, 0, -1⟩ ∧ n.length ratLibm = 1 := by
  obtain ⟨p0, p1, p2, h0, h1, h2, h, hunit, _⟩ :=
    face_normal_spec ratLibm nearFaceMesh 0 1 2
      ⟨⟨by decide, by decide⟩, ⟨by decide, by decide⟩, ⟨by decide, by decide⟩⟩
  obtain rfl : p0 = Vertex.ofPosition ⟨1 / 2, -1 / 2, 1 / 2⟩ :=
    Option.some.inj (h0.symm.trans (by decide!))
  obtain rfl : p1 = Vertex.ofPosition ⟨-1 / 2, -1 / 2, 1 / 2⟩ :=
    Option.some.inj (h1.symm.trans (by decide!))
  obtain rfl : p2 = Vertex.ofPosition ⟨-1 / 2, 1 / 2, 1 / 2⟩ :=
    Option.some.inj (h2.symm.trans (by decide!))
  exact ⟨_, h, by decide!, (hunit (by decide!) ⟨by decide!, by decide!⟩
    ⟨by decide!, by decide!⟩).1⟩

end Mesh

/-! ## Vertex normals -/

namespace Vec3

theorem add_zero_vec (a : Vec3 F) : a.add ⟨0, 0, 0⟩ = a := by
  cases a; simp [add]

end Vec3

namespace Mesh

theorem accumulate_getElem (vertices : List (Vertex F)) (j : Int) (n : Vec3 F) (h0 : 0 ≤ j)
    (h1 : j < vertices.length) :
    ∃ vs, accumulate vertices j n = some vs ∧ vs.length = vertices.length ∧
      ∀ (i : Nat) (v : Vertex F), vertices[i]? = some v →
        vs[i]? = some { v with normal := v.normal.add (if (i : Int) = j then n else ⟨0, 0, 0⟩) } := by
  obtain ⟨w, hw⟩ := vectorAt_valid vertices j h0 h1
  have hw' : vertices[j.toNat]? = some w := by simpa [vectorAt, h0] using hw
  refine ⟨vertices.set j.toNat { w with normal := w.normal.add n }, by simp [accumulate, hw],
    by simp, ?_⟩
  intro i v hv
  have hi : i < vertices.length := by
    rcases Nat.lt_or_ge i vertices.length with h | h
    · exact h
    · rw [List.getElem?_eq_none h] at hv; cases hv
  rw [List.getElem?_set]
  by_cases hij : (i : Int) = j
  · have : j.toNat = i := by omega
    have hj : j.toNat < vertices.length := by omega
    rw [if_pos this, if_pos hj, if_pos hij]
    rw [this] at hw'
    rw [hv] at hw'
    cases hw'
    rfl
  · have : ¬ j.toNat = i := by omega
    rw [if_neg this, if_neg hij, Vec3.add_zero_vec, hv]

theorem foldlM_accumulate_getElem (triangles : List (Triangle F)) (vertices : List (Vertex F))
    (hf : ∀ t ∈ triangles, ValidFace vertices.length (indices t)) :
    ∃ vs, triangles.foldlM
        (fun vertices tri => do
          let vertices ← accumulate vertices tri.v0 tri.normal
          let vertices ← accumulate vertices tri.v1 tri.normal
          accumulate vertices tri.v2 tri.normal)
        vertices = some vs ∧ vs.length = vertices.length ∧
      ∀ (i : Nat) (v : Vertex F), vertices[i]? = some v →
        vs[i]? = some { v with normal := slotSum v.normal triangles i } := by
  induction triangles generalizing vertices with
  | nil => exact ⟨vertices, rfl, rfl, fun i v hv => by rw [hv]; rfl⟩
  | cons t ts ih =>
    obtain ⟨h0, h1, h2⟩ := hf t (List.mem_cons_self _ _)
    simp only [indices] at h0 h1 h2
    obtain ⟨a, ea, la, ga⟩ := accumulate_getElem vertices t.v0 t.normal h0.1 h0.2
    obtain ⟨b, eb, lb, gb⟩ := accumulate_getElem a t.v1 t.normal h1.1 (by rw [la]; exact h1.2)
    obtain ⟨c, ec, lc, gc⟩ := accumulate_getElem b t.v2 t.normal h2.1
      (by rw [lb, la]; exact h2.2)
    obtain ⟨vs, evs, lvs, gvs⟩ := ih c
      (fun u hu => by rw [lc, lb, la]; exact hf u (List.mem_cons_of_mem _ hu))
    refine ⟨vs, ?_, by rw [lvs, lc, lb, la], ?_⟩
    · rw [List.foldlM_cons]
      simp only [ea, eb, ec, Option.bind_eq_bind, Option.some_bind]
      exact evs
    · intro i v hv
      rw [gvs i _ (gc i _ (gb i _ (ga i v hv)))]
      simp only [slotSum, List.foldl_cons]
      simp only [eq_comm]

/-- On a mesh whose triangle indices are valid, `calculate_vertex_normals` succeeds and
stores at every vertex the normalised sum of the normals of the triangle slots that hold
its index. -/
theorem calculate_vertex_normals_sum (M : Libm F) (mesh : Mesh F)
    (hf : ∀ t ∈ mesh.triangles, ValidFace mesh.vertices.length (indices t)) :
    ∃ mesh', mesh.calculate_vertex_normals M = some mesh' ∧
      mesh'.vertices.length = mesh.vertices.length ∧
      mesh'.triangles = mesh.triangles ∧ mesh'.material = mesh.material ∧
      mesh'.transform = mesh.transform ∧
      ∀ (i : Nat) (v : Vertex F), mesh.vertices[i]? = some v →
        mesh'.vertices[i]? =
            some ⟨v.position, (slotSum ⟨0, 0, 0⟩ mesh.triangles i).normalize M, v.color⟩ := by
  obtain ⟨vs, evs, lvs, gvs⟩ := foldlM_accumulate_getElem mesh.triangles
    (mesh.vertices.map (fun vertex => { vertex with normal := (⟨0, 0, 0⟩ : Vec3 F) }))
    (by simpa using hf)
  refine ⟨{ mesh with
      vertices := vs.map (fun vertex => { vertex with normal := vertex.normal.normalize M }) },
    by unfold calculate_vertex_normals; dsimp only; rw [evs]; rfl,
    by simp [lvs], rfl, rfl, rfl, ?_⟩
  intro i v hv
  have h0 : (mesh.vertices.map
      (fun vertex => { vertex with normal := (⟨0, 0, 0⟩ : Vec3 F) }))[i]? =
      some ⟨v.position, ⟨0, 0, 0⟩, v.color⟩ := by
    rw [List.getElem?_map, hv]; rfl
  show (vs.map (fun vertex => { vertex with normal := vertex.normal.normalize M }))[i]? = _
  rw [List.getElem?_map, gvs i _ h0]
  rfl

/-- C15: on a mesh whose triangle indices are valid, `calculate_vertex_normals` succeeds
and gives every vertex `i` the normal `normalize(sum of tri.normal over the occurrences of
i in the slots v0, v1, v2 of all triangles)`, whatever normal it held before (the zero
vector for a vertex that no triangle references); positions, colours, the vertex count,
the triangle list, the material and the transform are unchanged. -/
theorem calculate_vertex_normals_spec (M : Libm F) (mesh : Mesh F)
    (hf : ∀ t ∈ mesh.triangles, ValidFace mesh.vertices.length (indices t)) :
    ∃ mesh', mesh.calculate_vertex_normals M = some mesh' ∧
      mesh'.vertices.length = mesh.vertices.length ∧
      mesh'.triangles = mesh.triangles ∧ mesh'.material = mesh.material ∧
      mesh'.transform = mesh.transform ∧
      ∀ (i : Nat) (v : Vertex F), mesh.vertices[i]? = some v →
        mesh'.vertices[i]? =
            some ⟨v.position, (slotSum ⟨0, 0, 0⟩ mesh.triangles i).normalize M, v.color⟩ ∧
          ((∀ t ∈ mesh.triangles, t.v0 ≠ i ∧ t.v1 ≠ i ∧ t.v2 ≠ i) →
            mesh'.vertices[i]? = some ⟨v.position, ⟨0, 0, 0⟩, v.color⟩) := by
  obtain ⟨mesh', he, hl, ht, hm, hx, hget⟩ := calculate_vertex_normals_sum M mesh hf
  refine ⟨mesh', he, hl, ht, hm, hx, ?_⟩
  intro i v hv
  refine ⟨hget i v hv, ?_⟩
  intro hno
  have hz : slotSum (⟨0, 0, 0⟩ : Vec3 F) mesh.triangles i = ⟨0, 0, 0⟩ := by
    unfold slotSum
    generalize mesh.triangles = ts at hno
    induction ts with
    | nil => rfl
    | cons t ts ih =>
      obtain ⟨a, b, c⟩ := hno t (List.mem_cons_self _ _)
      rw [List.foldl_cons, if_neg a, if_neg b, if_neg c]
      simp only [Vec3.add_zero_vec]
      exact ih (fun u hu => hno u (List.mem_cons_of_mem _ hu))
  rw [hget i v hv, hz, Vec3.normalize_zero]

theorem calculate_vertex_normals_spec_witness :
    ∃ mesh', nearFaceMesh.calculate_vertex_normals ratLibm = some mesh' ∧
      mesh'.vertices.length = nearFaceMesh.vertices.length ∧
      mesh'.vertices[0]? = some ⟨⟨1 / 2, -1 / 2, 1 / 2⟩, ⟨0, 0, -1⟩, ⟨1, 1, 1⟩⟩ := by
  obtain ⟨mesh', h, hl, _, _, _, hg⟩ := calculate_vertex_normals_spec ratLibm nearFaceMesh
    (by
      intro t ht
      have ht' : t = ⟨0, 1, 2, ⟨0, 0, -1⟩⟩ := by simpa [nearFaceMesh] using ht
      subst ht'
      exact ⟨⟨by decide, by decide⟩, ⟨by decide, by decide⟩, ⟨by decide, by decide⟩⟩)
  exact ⟨mesh', h, hl, ((hg 0 (Vertex.ofPosition ⟨1 / 2, -1 / 2, 1 / 2⟩) (by decide!)).1).trans
    (by decide!)⟩

end Mesh

/-! ## Phong lighting -/

namespace Vec3

theorem add_assoc_vec (a b c : Vec3 F) : (a.add b).add c = a.add (b.add c) := by
  simp only [add, mk.injEq]; exact ⟨add_assoc _ _ _, add_assoc _ _ _, add_assoc _ _ _⟩

theorem add_comm_vec (a b : Vec3 F) : a.add b = b.add a := by
  simp only [add, mk.injEq]; exact ⟨add_comm _ _, add_comm _ _, add_comm _ _⟩

end Vec3

theorem stdMax_zero (x : F) : stdMax 0 x = max 0 x := by
  unfold stdMax
  split_ifs with h
  · rw [max_eq_right h.le]
  · rw [max_eq_left (not_lt.mp h)]

namespace Renderer

theorem add_light_eq (M : Libm F) (position normal : Vec3 F) (material : Material F)
    (view_dir final_color : Vec3 F) (light : Light F) :
    add_light M position normal material view_dir final_color light =
      final_color.add (phong_term M position normal material view_dir light) := by
  unfold add_light phong_term light_dir attenuation
  by_cases h : light.type = LightType.POINT
  · simp only [if_pos h, stdMax_zero]
  · simp only [if_neg h, stdMax_zero]

theorem foldl_add_light (M : Libm F) (position normal : Vec3 F) (material : Material F)
    (view_dir : Vec3 F) (lights : List (Light F)) (start : Vec3 F) :
    lights.foldl (add_light M position normal material view_dir) start =
      start.add (Vec3.sum (lights.map (phong_term M position normal material view_dir))) := by
  induction lights generalizing start with
  | nil => simp [Vec3.sum, Vec3.add_zero_vec]
  | cons l ls ih =>
    rw [List.foldl_cons, ih, add_light_eq, Vec3.add_assoc_vec]
    rfl

/-- C12: for a renderer whose ambient light is the constructor's `(0.2, 0.2, 0.2)`,
`calculate_lighting` equals the Phong reference: the ambient term
`(0.2,0.2,0.2) * diffuse_color * ambient_strength` plus the sum over the lights of
`(diffuse + specular) * intensity * attenuation`; with no light it is exactly the ambient
term; and it is not clamped to `[0, 1]`. -/
theorem calculate_lighting_phong (R : Renderer F) (hR : R.ambient_light = ⟨0.2, 0.2, 0.2⟩)
    (M : Libm F) (position normal : Vec3 F) (material : Material F) (lights : List (Light F))
    (view_dir : Vec3 F) :
    R.calculate_lighting M position normal material lights view_dir =
      phong_reference ⟨0.2, 0.2, 0.2⟩ M position normal material lights view_dir ∧
    R.calculate_lighting M position normal material [] view_dir =
      ((⟨0.2, 0.2, 0.2⟩ : Vec3 F).mul material.diffuse_color).smul material.ambient_strength ∧
    (R.calculate_lighting M position normal ⟨⟨10, 10, 10⟩, ⟨1, 1, 1⟩, 32, 1⟩ [] view_dir).x = 2 ∧
    ∀ width height : Int, (Renderer.init width height : Renderer F).ambient_light =
      ⟨0.2, 0.2, 0.2⟩ := by
  refine ⟨?_, ?_, ?_, fun _ _ => rfl⟩
  · unfold calculate_lighting phong_reference
    rw [hR]
    exact foldl_add_light M position normal material view_dir lights _
  · unfold calculate_lighting
    rw [hR]
    rfl
  · unfold calculate_lighting
    rw [hR]
    norm_num [Vec3.mul, Vec3.smul]

theorem calculate_lighting_phong_witness :
    (Renderer.init 800 600 : Renderer ℚ).calculate_lighting ratLibm ⟨0, 0, 0⟩ ⟨0, 0, 1⟩
        Material.init sampleLights ⟨0, 0, 1⟩ =
      phong_reference ⟨0.2, 0.2, 0.2⟩ ratLibm ⟨0, 0, 0⟩ ⟨0, 0, 1⟩ Material.init sampleLights
        ⟨0, 0, 1⟩ ∧
    phong_reference ⟨0.2, 0.2, 0.2⟩ ratLibm ⟨0, 0, 0⟩ ⟨0, 0, 1⟩ Material.init sampleLights
        ⟨0, 0, 1⟩ = ⟨36262 / 17375, 85973 / 69500, 85973 / 69500⟩ :=
  ⟨(calculate_lighting_phong (Renderer.init 800 600) rfl ratLibm ⟨0, 0, 0⟩ ⟨0, 0, 1⟩
    Material.init sampleLights ⟨0, 0, 1⟩).1, by decide!⟩

end Renderer

/-! ## Light direction and attenuation -/

namespace Renderer

/-- C13 (the code against the claim): for a point light at distance `d > 0` the code's
`light_dir` is `normalize(light.position - position)`, for `d ≥ 0` its attenuation is
`1 / (1 + 0.1 d + 0.01 d²)` and lies in `(0, 1]`, and for a directional light the
direction is the negated stored direction with attenuation `1`; but when the light sits at
the surface position (`d = 0`) the code divides the zero vector by `0`, while
`Vec3::normalize` returns the zero vector through its `len > 0` guard. -/
theorem light_dir_attenuation (M : Libm F) (position : Vec3 F) (light : Light F) :
    (light.type = LightType.POINT → 0 < (light.position.sub position).length M →
      (point_light M position light).1 = some ((light.position.sub position).normalize M) ∧
      light_dir M position light = (light.position.sub position).normalize M) ∧
    (light.type = LightType.POINT → 0 ≤ (light.position.sub position).length M →
      attenuation M position light = (point_light M position light).2 ∧
      attenuation M position light =
        1 / (1 + 0.1 * (light.position.sub position).length M +
          0.01 * (light.position.sub position).length M *
            (light.position.sub position).length M) ∧
      0 < attenuation M position light ∧ attenuation M position light ≤ 1) ∧
    (light.type = LightType.DIRECTIONAL →
      light_dir M position light = light.direction.smul (-1) ∧
      attenuation M position light = 1) ∧
    (light.position = position → M.sqrt 0 = 0 →
      (light.position.sub position).length M = 0 ∧
      (point_light M position light).1 = none ∧
      (light.position.sub position).normalize M = ⟨0, 0, 0⟩ ∧
      (point_light M position light).2 = 1) := by
  refine ⟨?_, ?_, ?_, ?_⟩
  · intro hp hd
    constructor
    · simp only [point_light, Vec3.sdiv_checked, if_neg hd.ne', Vec3.normalize_of_pos M _ hd]
    · simp only [light_dir, if_pos hp, Vec3.normalize_of_pos M _ hd]
  · intro hp hd
    have hatt : attenuation M position light =
        1 / (1 + 0.1 * (light.position.sub position).length M +
          0.01 * (light.position.sub position).length M *
            (light.position.sub position).length M) := by
      simp only [attenuation, if_pos hp]
    have hden : (1 : F) ≤ 1 + 0.1 * (light.position.sub position).length M +
        0.01 * (light.position.sub position).length M *
          (light.position.sub position).length M := by
      have h1 : (0 : F) ≤ 0.1 * (light.position.sub position).length M :=
        mul_nonneg (by norm_num) hd
      have h2 : (0 : F) ≤ 0.01 * (light.position.sub position).length M *
          (light.position.sub position).length M :=
        mul_nonneg (mul_nonneg (by norm_num) hd) hd
      linarith
    refine ⟨by rw [hatt]; rfl, hatt, ?_, ?_⟩
    · rw [hatt]; exact one_div_pos.mpr (lt_of_lt_of_le one_pos hden)
    · rw [hatt, div_le_one (lt_of_lt_of_le one_pos hden)]; exact hden
  · intro hd
    have hne : ¬ light.type = LightType.POINT := by rw [hd]; decide
    exact ⟨by simp only [light_dir, if_neg hne], by simp only [attenuation, if_neg hne]⟩
  · intro hpos h0
    have hsub : light.position.sub position = ⟨0, 0, 0⟩ := by
      rw [hpos]; simp [Vec3.sub]
    have hlen : (light.position.sub position).length M = 0 := by
      rw [hsub]; simp [Vec3.length, h0]
    refine ⟨hlen, ?_, ?_, ?_⟩
    · simp only [point_light, Vec3.sdiv_checked, hlen, if_true]
    · rw [hsub]; exact Vec3.normalize_zero M
    · simp only [point_light, hlen]; norm_num

theorem light_dir_attenuation_witness :
    (point_light ratLibm ⟨1, 2, 3⟩ (Light.init ratLibm LightType.POINT ⟨1, 2, 3⟩ ⟨1, 1, 1⟩ 1)).1 =
        none ∧
      ((Light.init ratLibm LightType.POINT ⟨1, 2, 3⟩ ⟨1, 1, 1⟩ 1).position.sub
        ⟨1, 2, 3⟩).normalize ratLibm = ⟨0, 0, 0⟩ :=
  have h := (light_dir_attenuation ratLibm ⟨1, 2, 3⟩
    (Light.init ratLibm LightType.POINT ⟨1, 2, 3⟩ ⟨1, 1, 1⟩ 1)).2.2.2 (by decide!) (by decide!)
  ⟨h.2.1, h.2.2.1⟩

end Renderer

/-! ## The generated cube -/

namespace Mesh

theorem add_triangle_face (M : Libm F) (mesh : Mesh F) (f : Int × Int × Int)
    (hf : ValidFace mesh.vertices.length f) :
    mesh.add_triangle M f.1 f.2.1 f.2.2 =
      some { mesh with triangles := mesh.triangles ++ [faceTriangle M mesh.vertices f] } := by
  obtain ⟨h0, h1, h2⟩ := hf
  obtain ⟨p0, e0⟩ := vectorAt_valid mesh.vertices f.1 h0.1 h0.2
  obtain ⟨p1, e1⟩ := vectorAt_valid mesh.vertices f.2.1 h1.1 h1.2
  obtain ⟨p2, e2⟩ := vectorAt_valid mesh.vertices f.2.2 h2.1 h2.2
  rw [add_triangle_eq M mesh f.1 f.2.1 f.2.2 p0 p1 p2 e0 e1 e2]
  simp [faceTriangle, positionAt, e0, e1, e2]

theorem foldlM_add_triangle_faces (M : Libm F) (faces : List (Int × Int × Int)) (mesh : Mesh F)
    (hf : ∀ f ∈ faces, ValidFace mesh.vertices.length f) :
    faces.foldlM (fun cube f => cube.add_triangle M f.1 f.2.1 f.2.2) mesh =
      some { mesh with
        triangles := mesh.triangles ++ faces.map (faceTriangle M mesh.vertices) } := by
  induction faces generalizing mesh with
  | nil => simp
  | cons f faces ih =>
    rw [List.foldlM_cons, add_triangle_face M mesh f (hf f (List.mem_cons_self _ _))]
    simp only [Option.bind_eq_bind, Option.some_bind]
    refine (ih { mesh with triangles := mesh.triangles ++ [faceTriangle M mesh.vertices f] }
      (fun g hg => hf g (List.mem_cons_of_mem _ hg))).trans ?_
    simp

theorem cube_faces_valid (n : Nat) (hn : 8 ≤ n) : ∀ f ∈ cube_faces, ValidFace n f := by
  intro f hf
  simp only [cube_faces, List.mem_cons, List.mem_singleton, List.not_mem_nil, or_false] at hf
  rcases hf with h | h | h | h | h | h | h | h | h | h | h | h <;> subst h <;>
    simp only [ValidFace] <;> omega

/-- `create_cube` builds `cube_raw` and then computes its vertex normals. -/
theorem create_cube_eq (M : Libm F) (size : F) (mat : Material F) :
    create_cube M size mat = (cube_raw M size mat).calculate_vertex_normals M := by
  have hv : ((cube_positions (size * 0.5)).foldl
      (fun cube p => cube.add_vertex (Vertex.ofPosition p)) (Mesh.init mat)) =
      ⟨(cube_positions (size * 0.5)).map Vertex.ofPosition, [], mat, Mat4.identity⟩ := by
    simp [cube_positions, add_vertex, Mesh.init]
  have hf := foldlM_add_triangle_faces M cube_faces
    (⟨(cube_positions (size * 0.5)).map Vertex.ofPosition, [], mat, Mat4.identity⟩ : Mesh F)
    (cube_faces_valid _ (by simp [cube_positions]))
  unfold create_cube
  dsimp only
  rw [hv, hf]
  simp only [Option.bind_eq_bind, Option.some_bind, List.nil_append, cube_raw]

theorem cube_raw_valid (M : Libm F) (size : F) (mat : Material F) :
    ∀ t ∈ (cube_raw M size mat).triangles,
      ValidFace (cube_raw M size mat).vertices.length (indices t) := by
  intro t ht
  simp only [cube_raw, List.mem_map] at ht
  obtain ⟨f, hf, rfl⟩ := ht
  exact cube_faces_valid _ (by simp [cube_raw, cube_positions]) f hf

/-- The result of `create_cube`: positions, stored triangles and vertex normals. -/
theorem create_cube_full (M : Libm F) (size : F) (mat : Material F) :
    ∃ cube, create_cube M size mat = some cube ∧
      cube.vertices.length = 8 ∧
      cube.triangles = (cube_raw M size mat).triangles ∧
      cube.material = mat ∧ cube.transform = Mat4.identity ∧
      ∀ (i : Nat) (p : Vec3 F), (cube_positions (size * 0.5))[i]? = some p →
        cube.vertices[i]? =
          some ⟨p, (slotSum ⟨0, 0, 0⟩ (cube_raw M size mat).triangles i).normalize M,
            ⟨1, 1, 1⟩⟩ := by
  obtain ⟨m2, e2, hl, ht, hm, hx, hg⟩ := calculate_vertex_normals_sum M (cube_raw M size mat)
    (cube_raw_valid M size mat)
  refine ⟨m2, by rw [create_cube_eq]; exact e2, by rw [hl]; simp [cube_raw, cube_positions],
    ht, hm, hx, ?_⟩
  intro i p hp
  have hw : (cube_raw M size mat).vertices[i]? = some (Vertex.ofPosition p) := by
    simp only [cube_raw, List.getElem?_map, hp, Option.map_some']
  exact hg i _ hw

theorem cube_face_inward (h : F) (f : Int × Int × Int) (hf : f ∈ cube_faces) :
    (((positionAt ((cube_positions h).map Vertex.ofPosition) f.2.1).sub
        (positionAt ((cube_positions h).map Vertex.ofPosition) f.1)).cross
      ((positionAt ((cube_positions h).map Vertex.ofPosition) f.2.2).sub
        (positionAt ((cube_positions h).map Vertex.ofPosition) f.1))).dot
      ((((positionAt ((cube_positions h).map Vertex.ofPosition) f.1).add
        (positionAt ((cube_positions h).map Vertex.ofPosition) f.2.1)).add
        (positionAt ((cube_positions h).map Vertex.ofPosition) f.2.2)).sdiv 3) = -(4 * h ^ 3) := by
  simp only [cube_faces, List.mem_cons, List.mem_singleton, List.not_mem_nil, or_false] at hf
  rcases hf with e | e | e | e | e | e | e | e | e | e | e | e <;> subst e <;>
    simp [positionAt, vectorAt, cube_positions, Vertex.ofPosition, Vec3.sub, Vec3.add, Vec3.cross,
      Vec3.dot, Vec3.sdiv] <;> ring

theorem positionAt_congr (vs ws : List (Vertex F))
    (h : vs.map (fun v => v.position) = ws.map (fun v => v.position)) (i : Int) :
    positionAt vs i = positionAt ws i := by
  unfold positionAt vectorAt
  split_ifs with hi
  · have := congrArg (fun l => l[i.toNat]?) h
    simp only [List.getElem?_map] at this
    rw [this]
  · rfl

theorem normalize_dot_nonpos (M : Libm F) (v e : Vec3 F) (h : v.dot e ≤ 0) :
    (v.normalize M).dot e ≤ 0 := by
  by_cases hp : 0 < v.length M
  · rw [Vec3.normalize_of_pos M v hp]
    have : (v.sdiv (v.length M)).dot e = v.dot e / v.length M := by
      simp only [Vec3.sdiv, Vec3.dot]; ring
    rw [this]
    exact div_nonpos_of_nonpos_of_nonneg h hp.le
  · rw [Vec3.normalize_of_not_pos M v hp]
    simp [Vec3.dot]

theorem normalize_dot_neg (M : Libm F) (v e : Vec3 F) (h : v.dot e < 0)
    (hp : 0 < v.length M) : (v.normalize M).dot e < 0 := by
  rw [Vec3.normalize_of_pos M v hp]
  have : (v.sdiv (v.length M)).dot e = v.dot e / v.length M := by
    simp only [Vec3.sdiv, Vec3.dot]; ring
  rw [this]
  exact div_neg_of_neg_of_pos h hp

theorem length_pos_of_dot_ne (M : Libm F) (hM : M.ExactSqrt) (v e : Vec3 F)
    (h : v.dot e ≠ 0) : 0 < v.length M := by
  have hne : v ≠ ⟨0, 0, 0⟩ := by
    intro hz; apply h; rw [hz]; simp [Vec3.dot]
  have hnn : 0 ≤ v.x * v.x + v.y * v.y + v.z * v.z := by
    have hx := mul_self_nonneg v.x
    have hy := mul_self_nonneg v.y
    have hz := mul_self_nonneg v.z
    linarith
  exact Vec3.sqrtAt_pos M (hM _ hnn) (Vec3.sq_sum_ne_zero v hne)

/-- C17 (the code against the claim): every one of the twelve triangles that
`create_cube(size)` stores, `size > 0`, has the face normal
`normalize((p1 - p0) × (p2 - p0))` with a dot product `≤ 0` with the triangle's centroid,
and `< 0` when the square root is exact: the normals point toward the centre of the cube,
not away from it. -/
theorem cube_winding_inward (M : Libm F) (size : F) (mat : Material F) (hs : 0 < size) :
    ∃ cube, create_cube M size mat = some cube ∧ cube.triangles.length = 12 ∧
      cube.triangles.map indices = cube_faces ∧
      ∀ t ∈ cube.triangles, t = faceTriangle M cube.vertices (indices t) ∧
        t.normal.dot (centroid cube.vertices t) ≤ 0 ∧
        (M.ExactSqrt → t.normal.dot (centroid cube.vertices t) < 0) := by
  obtain ⟨cube, hc, _, ht, _, _, _⟩ := create_cube_full M size mat
  obtain ⟨c2, hc2, hpos, hidx, _, _⟩ := create_cube_shape M size mat
  obtain rfl : c2 = cube := Option.some.inj (hc2.symm.trans hc)
  have hhalf : 0 < size * 0.5 := by
    have : (0 : F) < 0.5 := by norm_num
    positivity
  have hmap : c2.vertices.map (fun v => v.position) =
      ((cube_positions (size * 0.5)).map Vertex.ofPosition).map (fun v => v.position) := by
    rw [hpos]; simp [cube_positions, Vertex.ofPosition]
  have hP : ∀ i, positionAt c2.vertices i =
      positionAt ((cube_positions (size * 0.5)).map Vertex.ofPosition) i :=
    positionAt_congr _ _ hmap
  refine ⟨c2, hc, by rw [ht]; simp [cube_raw, cube_faces], hidx, ?_⟩
  intro t htm
  rw [ht] at htm
  simp only [cube_raw, List.mem_map] at htm
  obtain ⟨f, hf, rfl⟩ := htm
  have hdot := cube_face_inward (size * 0.5) f hf
  have hneg : -(4 * (size * 0.5) ^ 3) < 0 := by
    have : 0 < (size * 0.5) ^ 3 := by positivity
    linarith
  have hfi : indices (faceTriangle M ((cube_positions (size * 0.5)).map Vertex.ofPosition) f) =
      f := rfl
  refine ⟨?_, ?_, ?_⟩
  · rw [hfi]
    simp only [faceTriangle, hP]
  · simp only [centroid, faceTriangle, hP]
    exact normalize_dot_nonpos M _ _ (by rw [hdot]; exact hneg.le)
  · intro hM
    simp only [centroid, faceTriangle, hP]
    exact normalize_dot_neg M _ _ (by rw [hdot]; exact hneg)
      (length_pos_of_dot_ne M hM _ _ (by rw [hdot]; exact hneg.ne))

theorem cube_winding_inward_witness :
    ∃ cube : Mesh ℚ, create_cube ratLibm 1 Material.init = some cube ∧
      cube.triangles.length = 12 ∧
      ∀ t ∈ cube.triangles, t.normal.dot (centroid cube.vertices t) ≤ 0 := by
  obtain ⟨cube, h, hl, _, ht⟩ := cube_winding_inward ratLibm 1 Material.init (by norm_num)
  exact ⟨cube, h, hl, fun t htm => (ht t htm).2.1⟩

theorem sqrt_mul_self (M : Libm F) (hM : M.ExactSqrt) (k : F) (hk : 0 < k) :
    M.sqrt (k * k) = k := by
  obtain ⟨h0, h1⟩ := hM (k * k) (by positivity)
  have : (M.sqrt (k * k) - k) * (M.sqrt (k * k) + k) = 0 := by
    have e : (M.sqrt (k * k) - k) * (M.sqrt (k * k) + k) =
        M.sqrt (k * k) * M.sqrt (k * k) - k * k := by ring
    rw [e, h1]; ring
  rcases mul_eq_zero.mp this with h | h
  · linarith
  · linarith

theorem normalize_sdiv_of_sq (M : Libm F) (hM : M.ExactSqrt) (v : Vec3 F) (k : F) (hk : 0 < k)
    (hsq : v.x * v.x + v.y * v.y + v.z * v.z = k * k) : v.normalize M = v.sdiv k := by
  have hl : v.length M = k := by
    unfold Vec3.length; rw [hsq]; exact sqrt_mul_self M hM k hk
  rw [Vec3.normalize_of_pos M v (by rw [hl]; exact hk), hl]

theorem normalize_unit (M : Libm F) (hM : M.ExactSqrt) (v : Vec3 F) (hv : v ≠ ⟨0, 0, 0⟩) :
    (v.normalize M).length M = 1 ∧ v.normalize M ≠ ⟨0, 0, 0⟩ ∧
      ∃ k : F, 0 < k ∧ v.normalize M = v.smul k := by
  have hnn : 0 ≤ v.x * v.x + v.y * v.y + v.z * v.z := by
    have hx := mul_self_nonneg v.x
    have hy := mul_self_nonneg v.y
    have hz := mul_self_nonneg v.z
    linarith
  have hs := hM _ hnn
  have h1 := hM 1 zero_le_one
  have hne := Vec3.length_ne_zero M v hv hs
  have hpos : 0 < v.length M := lt_of_le_of_ne hs.1 (Ne.symm hne)
  have hlen := Vec3.length_normalize M v hs h1 hne
  have hsm : v.normalize M = v.smul (1 / v.length M) := by
    rw [Vec3.normalize_of_pos M v hpos]
    simp only [Vec3.sdiv, Vec3.smul, div_eq_mul_inv, one_mul]
  refine ⟨hlen, ?_, _, by positivity, hsm⟩
  intro hz
  rw [hz] at hlen
  have h0 : (⟨0, 0, 0⟩ : Vec3 F).length M = 0 := by
    have := (hM 0 le_rfl).2
    simp only [Vec3.length, mul_zero, add_zero]
    exact mul_self_eq_zero.mp this
  rw [h0] at hlen
  exact zero_ne_one hlen

theorem cube_face_cross_sq (h : F) (f : Int × Int × Int) (hf : f ∈ cube_faces) :
    (((positionAt ((cube_positions h).map Vertex.ofPosition) f.2.1).sub
        (positionAt ((cube_positions h).map Vertex.ofPosition) f.1)).cross
      ((positionAt ((cube_positions h).map Vertex.ofPosition) f.2.2).sub
        (positionAt ((cube_positions h).map Vertex.ofPosition) f.1))).x *
    (((positionAt ((cube_positions h).map Vertex.ofPosition) f.2.1).sub
        (positionAt ((cube_positions h).map Vertex.ofPosition) f.1)).cross
      ((positionAt ((cube_positions h).map Vertex.ofPosition) f.2.2).sub
        (positionAt ((cube_positions h).map Vertex.ofPosition) f.1))).x +
    (((positionAt ((cube_positions h).map Vertex.ofPosition) f.2.1).sub
        (positionAt ((cube_positions h).map Vertex.ofPosition) f.1)).cross
      ((positionAt ((cube_positions h).map Vertex.ofPosition) f.2.2).sub
        (positionAt ((cube_positions h).map Vertex.ofPosition) f.1))).y *
    (((positionAt ((cube_positions h).map Vertex.ofPosition) f.2.1).sub
        (positionAt ((cube_positions h).map Vertex.ofPosition) f.1)).cross
      ((positionAt ((cube_positions h).map Vertex.ofPosition) f.2.2).sub
        (positionAt ((cube_positions h).map Vertex.ofPosition) f.1))).y +
    (((positionAt ((cube_positions h).map Vertex.ofPosition) f.2.1).sub
        (positionAt ((cube_positions h).map Vertex.ofPosition) f.1)).cross
      ((positionAt ((cube_positions h).map Vertex.ofPosition) f.2.2).sub
        (positionAt ((cube_positions h).map Vertex.ofPosition) f.1))).z *
    (((positionAt ((cube_positions h).map Vertex.ofPosition) f.2.1).sub
        (positionAt ((cube_positions h).map Vertex.ofPosition) f.1)).cross
      ((positionAt ((cube_positions h).map Vertex.ofPosition) f.2.2).sub
        (positionAt ((cube_positions h).map Vertex.ofPosition) f.1))).z =
    (4 * h ^ 2) * (4 * h ^ 2) := by
  simp only [cube_faces, List.mem_cons, List.mem_singleton, List.not_mem_nil, or_false] at hf
  rcases hf with e | e | e | e | e | e | e | e | e | e | e | e <;> subst e <;>
    simp [positionAt, vectorAt, cube_positions, Vertex.ofPosition, Vec3.sub, Vec3.cross] <;> ring

/-- The twelve stored triangles of the cube when the square root is exact: the face normals
are the unit axis vectors that point into the cube. -/
theorem cube_raw_triangles (M : Libm F) (hM : M.ExactSqrt) (size : F) (hs : 0 < size)
    (mat : Material F) :
    (cube_raw M size mat).triangles =
      [⟨0, 1, 2, ⟨0, 0, 1⟩⟩, ⟨0, 2, 3, ⟨0, 0, 1⟩⟩, ⟨5, 4, 7, ⟨0, 0, -1⟩⟩, ⟨5, 7, 6, ⟨0, 0, -1⟩⟩,
       ⟨4, 0, 3, ⟨1, 0, 0⟩⟩, ⟨4, 3, 7, ⟨1, 0, 0⟩⟩, ⟨1, 5, 6, ⟨-1, 0, 0⟩⟩, ⟨1, 6, 2, ⟨-1, 0, 0⟩⟩,
       ⟨3, 2, 6, ⟨0, -1, 0⟩⟩, ⟨3, 6, 7, ⟨0, -1, 0⟩⟩, ⟨4, 5, 1, ⟨0, 1, 0⟩⟩, ⟨4, 1, 0, ⟨0, 1, 0⟩⟩] := by
  have hh : 0 < size * 0.5 := by
    have : (0 : F) < 0.5 := by norm_num
    positivity
  have hk : 0 < 4 * (size * 0.5) ^ 2 := by positivity
  have hn : ∀ f ∈ cube_faces,
      faceTriangle M ((cube_positions (size * 0.5)).map Vertex.ofPosition) f =
        ⟨f.1, f.2.1, f.2.2,
          (((positionAt ((cube_positions (size * 0.5)).map Vertex.ofPosition) f.2.1).sub
            (positionAt ((cube_positions (size * 0.5)).map Vertex.ofPosition) f.1)).cross
          ((positionAt ((cube_positions (size * 0.5)).map Vertex.ofPosition) f.2.2).sub
            (positionAt ((cube_positions (size * 0.5)).map Vertex.ofPosition) f.1))).sdiv
            (4 * (size * 0.5) ^ 2)⟩ := by
    intro f hf
    simp only [faceTriangle]
    rw [normalize_sdiv_of_sq M hM _ _ hk (cube_face_cross_sq (size * 0.5) f hf)]
  simp only [cube_raw]
  rw [List.map_congr_left hn]
  have hne : size * 0.5 ≠ 0 := hh.ne'
  simp [cube_faces, positionAt, vectorAt, cube_positions, Vertex.ofPosition, Vec3.sub,
    Vec3.cross, Vec3.sdiv]
  refine ⟨?_, ?_, ?_, ?_, ?_⟩ <;> field_simp <;> ring

/-- C16: for `size > 0` and an exact square root, each of the eight vertices of
`create_cube(size)` carries the normal `normalize(S)`, where `S` is the sum of the face
normals of the triangles at that vertex; `S` is non-zero, and the normal is non-zero, of
length `1`, and a positive multiple of `S`. -/
theorem cube_vertex_normals (M : Libm F) (hM : M.ExactSqrt) (size : F) (hs : 0 < size)
    (mat : Material F) :
    ∃ cube, create_cube M size mat = some cube ∧ cube.vertices.length = 8 ∧
      ∀ i : Nat, i < 8 → ∃ v : Vertex F, cube.vertices[i]? = some v ∧
        v.normal = (slotSum ⟨0, 0, 0⟩ cube.triangles i).normalize M ∧
        slotSum ⟨0, 0, 0⟩ cube.triangles i ≠ ⟨0, 0, 0⟩ ∧
        v.normal ≠ ⟨0, 0, 0⟩ ∧ v.normal.length M = 1 ∧
        ∃ k : F, 0 < k ∧ v.normal = (slotSum ⟨0, 0, 0⟩ cube.triangles i).smul k := by
  obtain ⟨cube, hc, hl, ht, _, _, hg⟩ := create_cube_full M size mat
  refine ⟨cube, hc, hl, ?_⟩
  intro i hi
  obtain ⟨p, hp⟩ : ∃ p, (cube_positions (size * 0.5))[i]? = some p :=
    ⟨_, List.getElem?_eq_getElem (by simpa [cube_positions] using hi)⟩
  have hS : slotSum (⟨0, 0, 0⟩ : Vec3 F) cube.triangles i ≠ ⟨0, 0, 0⟩ := by
    rw [ht, cube_raw_triangles M hM size hs mat]
    interval_cases i <;> norm_num [slotSum, Vec3.add]
  obtain ⟨h1, h2, h3⟩ := normalize_unit M hM _ hS
  refine ⟨_, hg i p hp, ?_, hS, ?_, ?_, ?_⟩
  · rw [ht]
  · rw [← ht]; exact h2
  · rw [← ht]; exact h1
  · rw [← ht]; exact h3

theorem cube_vertex_normals_witness :
    ∃ cube : Mesh ℝ,
      create_cube ⟨Real.sqrt, Real.sin, Real.cos, Real.tan, fun x y => x ^ y⟩ 1 Material.init =
        some cube ∧
      cube.vertices.length = 8 ∧
      ∀ i : Nat, i < 8 → ∃ v : Vertex ℝ, cube.vertices[i]? = some v ∧
        v.normal ≠ ⟨0, 0, 0⟩ ∧
        v.normal.length ⟨Real.sqrt, Real.sin, Real.cos, Real.tan, fun x y => x ^ y⟩ = 1 := by
  obtain ⟨cube, h, hl, hv⟩ := cube_vertex_normals
    (⟨Real.sqrt, Real.sin, Real.cos, Real.tan, fun x y => x ^ y⟩ : Libm ℝ)
    (fun x hx => ⟨Real.sqrt_nonneg x, Real.mul_self_sqrt hx⟩) 1 one_pos Material.init
  refine ⟨cube, h, hl, fun i hi => ?_⟩
  obtain ⟨v, h1, _, _, h4, h5, _⟩ := hv i hi
  exact ⟨v, h1, h4, h5⟩

end Mesh

/-! ## The factory meshes -/

theorem mem_intRange (lo hi x : Int) : x ∈ intRange lo hi ↔ lo ≤ x ∧ x ≤ hi := by
  unfold intRange
  simp only [List.mem_map, List.mem_range]
  constructor
  · rintro ⟨i, hi', rfl⟩
    omega
  · intro h
    exact ⟨(x - lo).toNat, by omega, by omega⟩

theorem length_intRange (lo hi : Int) : (intRange lo hi).length = (hi + 1 - lo).toNat := by
  simp [intRange]

namespace Mesh

/-- A loop of `add_vertex` calls appends the vertices in order and touches nothing else. -/
theorem foldl_add_vertex {α : Type} (g : α → Vertex F) (items : List α) (mesh : Mesh F) :
    items.foldl (fun m a => m.add_vertex (g a)) mesh =
      { mesh with vertices := mesh.vertices ++ items.map g } := by
  induction items generalizing mesh with
  | nil => simp
  | cons a items ih =>
    rw [List.foldl_cons, ih]
    simp [add_vertex]

/-- Nested vertex loops. -/
theorem foldl_foldl_add_vertex {α β : Type} (g : α → β → Vertex F) (outer : List α)
    (inner : List β) (mesh : Mesh F) :
    outer.foldl (fun m a => inner.foldl (fun m b => m.add_vertex (g a b)) m) mesh =
      { mesh with
        vertices := mesh.vertices ++ outer.flatMap (fun a => inner.map (g a)) } := by
  induction outer generalizing mesh with
  | nil => simp
  | cons a outer ih =>
    rw [List.foldl_cons, foldl_add_vertex, ih]
    simp

/-- A loop whose body keeps the vertices and appends triangles with the index triples
`out a` does so for the whole list. -/
theorem foldlM_triangles {α : Type} (n : Nat) (step : Mesh F → α → Option (Mesh F))
    (out : α → List (Int × Int × Int)) (items : List α)
    (hstep : ∀ a ∈ items, ∀ m : Mesh F, m.vertices.length = n →
      ∃ m', step m a = some m' ∧ m'.vertices = m.vertices ∧
        m'.triangles.map indices = m.triangles.map indices ++ out a ∧
        m'.material = m.material ∧ m'.transform = m.transform)
    (mesh : Mesh F) (hn : mesh.vertices.length = n) :
    ∃ m', items.foldlM step mesh = some m' ∧ m'.vertices = mesh.vertices ∧
      m'.triangles.map indices = mesh.triangles.map indices ++ items.flatMap out ∧
      m'.material = mesh.material ∧ m'.transform = mesh.transform := by
  induction items generalizing mesh with
  | nil => exact ⟨mesh, rfl, rfl, by simp, rfl, rfl⟩
  | cons a items ih =>
    obtain ⟨m1, e1, v1, t1, a1, x1⟩ := hstep a (List.mem_cons_self _ _) mesh hn
    obtain ⟨m2, e2, v2, t2, a2, x2⟩ := ih
      (fun b hb => hstep b (List.mem_cons_of_mem _ hb)) m1 (by rw [v1]; exact hn)
    refine ⟨m2, ?_, v2.trans v1, ?_, a2.trans a1, x2.trans x1⟩
    · rw [List.foldlM_cons, e1]; exact e2
    · rw [t2, t1]; simp

/-- The index triples of the two triangles of a grid square of the sphere. -/
theorem sphere_square_valid (M : Libm F) (segments lat lon : Int) (m : Mesh F)
    (h1 : ValidFace m.vertices.length
      (lat * (segments + 1) + lon, lat * (segments + 1) + lon + segments + 1,
        lat * (segments + 1) + lon + 1))
    (h2 : ValidFace m.vertices.length
      (lat * (segments + 1) + lon + 1, lat * (segments + 1) + lon + segments + 1,
        lat * (segments + 1) + lon + segments + 1 + 1)) :
    ∃ m', sphere_square M segments lat m lon = some m' ∧ m'.vertices = m.vertices ∧
      m'.triangles.map indices = m.triangles.map indices ++
        [(lat * (segments + 1) + lon, lat * (segments + 1) + lon + segments + 1,
            lat * (segments + 1) + lon + 1),
          (lat * (segments + 1) + lon + 1, lat * (segments + 1) + lon + segments + 1,
            lat * (segments + 1) + lon + segments + 1 + 1)] ∧
      m'.material = m.material ∧ m'.transform = m.transform := by
  obtain ⟨m1, e1, v1, t1, a1, x1⟩ := add_triangle_valid M m _ h1
  obtain ⟨m2, e2, v2, t2, a2, x2⟩ := add_triangle_valid M m1 _ (by rw [v1]; exact h2)
  refine ⟨m2, ?_, v2.trans v1, ?_, a2.trans a1, x2.trans x1⟩
  · unfold sphere_square
    dsimp only at e1 e2 ⊢
    rw [e1]
    exact e2
  · rw [t2, t1]; simp

theorem length_flatMap_const {α β : Type} (l : List α) (f : α → List β) (c : Nat)
    (h : ∀ a ∈ l, (f a).length = c) : (l.flatMap f).length = l.length * c := by
  induction l with
  | nil => simp
  | cons a l ih =>
    rw [List.flatMap_cons, List.length_append, h a (List.mem_cons_self _ _),
      ih (fun b hb => h b (List.mem_cons_of_mem _ hb)), List.length_cons]
    ring

/-- The index triples of the grid square at `lat`, `lon` address vertices of the
`(segments + 1)²` grid. -/
theorem sphere_faces_valid (segments lat lon : Int) (n : Nat)
    (hn : (n : Int) = (segments + 1) * (segments + 1))
    (hlat : 0 ≤ lat ∧ lat ≤ segments - 1) (hlon : 0 ≤ lon ∧ lon ≤ segments - 1) :
    ValidFace n
      (lat * (segments + 1) + lon, lat * (segments + 1) + lon + segments + 1,
        lat * (segments + 1) + lon + 1) ∧
    ValidFace n
      (lat * (segments + 1) + lon + 1, lat * (segments + 1) + lon + segments + 1,
        lat * (segments + 1) + lon + segments + 1 + 1) := by
  have h1 : 0 ≤ lat * (segments + 1) := mul_nonneg hlat.1 (by omega)
  have h2 : lat * (segments + 1) ≤ (segments - 1) * (segments + 1) :=
    mul_le_mul_of_nonneg_right hlat.2 (by omega)
  have h3 : (segments - 1) * (segments + 1) + 2 * segments + 1 =
      (segments + 1) * (segments + 1) - 1 := by ring
  simp only [ValidFace, hn]
  refine ⟨⟨⟨?_, ?_⟩, ⟨?_, ?_⟩, ⟨?_, ?_⟩⟩, ⟨⟨?_, ?_⟩, ⟨?_, ?_⟩, ⟨?_, ?_⟩⟩⟩ <;> omega

/-- On a mesh of four vertices and no triangle, the two calls
`add_triangle(0, 1, 2)` and `add_triangle(0, 2, 3)` succeed. -/
theorem two_triangles_valid (M : Libm F) (mesh : Mesh F) (hl : mesh.vertices.length = 4)
    (ht : mesh.triangles = []) :
    ∃ m2, (mesh.add_triangle M 0 1 2 >>= fun plane => plane.add_triangle M 0 2 3) = some m2 ∧
      m2.vertices.length = 4 ∧ m2.triangles.map indices = [(0, 1, 2), (0, 2, 3)] := by
  have hv : ValidFace mesh.vertices.length (0, 1, 2) := by rw [hl]; simp [ValidFace]
  obtain ⟨m1, e1, v1, t1, _, _⟩ := add_triangle_valid M mesh _ hv
  have hv2 : ValidFace m1.vertices.length (0, 2, 3) := by rw [v1, hl]; simp [ValidFace]
  obtain ⟨m2, e2, v2, t2, _, _⟩ := add_triangle_valid M m1 _ hv2
  refine ⟨m2, ?_, by rw [v2, v1, hl], ?_⟩
  · dsimp only at e1 e2
    rw [e1]
    exact e2
  · rw [t2, t1, ht]; rfl

/-- C18: the factory meshes have only valid indices: `create_cube` returns 8 vertices and
12 triangles, `create_plane` 4 vertices and 2 triangles, and for `segments ≥ 1`
`create_sphere` returns `(segments + 1)²` vertices and `2 * segments²` triangles; each
factory succeeds (no vertex lookup of a face-normal computation is out of range) and every
triangle index is in `[0, vertex count)`. -/
theorem factory_indices_valid (M : Libm F) (mat : Material F) :
    (∀ size : F, ∃ cube, create_cube M size mat = some cube ∧ cube.vertices.length = 8 ∧
      cube.triangles.length = 12 ∧
      ∀ t ∈ cube.triangles, ValidFace cube.vertices.length (indices t)) ∧
    (∀ size : F, ∃ plane, create_plane M size mat = some plane ∧ plane.vertices.length = 4 ∧
      plane.triangles.length = 2 ∧
      ∀ t ∈ plane.triangles, ValidFace plane.vertices.length (indices t)) ∧
    (∀ (radius : F) (segments : Int), 1 ≤ segments →
      ∃ sphere, create_sphere M radius segments mat = some sphere ∧
        (sphere.vertices.length : Int) = (segments + 1) ^ 2 ∧
        (sphere.triangles.length : Int) = 2 * segments ^ 2 ∧
        ∀ t ∈ sphere.triangles, ValidFace sphere.vertices.length (indices t)) := by
  refine ⟨?_, ?_, ?_⟩
  · intro size
    obtain ⟨cube, hc, hl, ht, _, _, _⟩ := create_cube_full M size mat
    refine ⟨cube, hc, hl, by rw [ht]; simp [cube_raw, cube_faces], ?_⟩
    intro t htm
    rw [ht] at htm
    rw [hl]
    have := cube_raw_valid M size mat t htm
    simpa [cube_raw, cube_positions] using this
  · intro size
    obtain ⟨m2, e, hlen, hidx⟩ := two_triangles_valid M
      (((((Mesh.init mat).add_vertex
        ⟨⟨-(size * 0.5), 0, -(size * 0.5)⟩, ⟨0, 1, 0⟩, ⟨1, 1, 1⟩⟩).add_vertex
        ⟨⟨size * 0.5, 0, -(size * 0.5)⟩, ⟨0, 1, 0⟩, ⟨1, 1, 1⟩⟩).add_vertex
        ⟨⟨size * 0.5, 0, size * 0.5⟩, ⟨0, 1, 0⟩, ⟨1, 1, 1⟩⟩).add_vertex
        ⟨⟨-(size * 0.5), 0, size * 0.5⟩, ⟨0, 1, 0⟩, ⟨1, 1, 1⟩⟩)
      (by simp [add_vertex, Mesh.init]) (by simp [add_vertex, Mesh.init])
    refine ⟨m2, ?_, hlen, ?_, ?_⟩
    · unfold create_plane
      exact e
    · have := congrArg List.length hidx
      simpa using this
    · intro t htm
      have hmem : indices t ∈ m2.triangles.map indices := List.mem_map_of_mem _ htm
      rw [hidx] at hmem
      rw [hlen]
      simp only [List.mem_cons, List.mem_singleton, List.not_mem_nil, or_false] at hmem
      rcases hmem with h | h <;> rw [h] <;> simp [ValidFace]
  · intro radius segments hseg
    set sphere0 : Mesh F := (intRange 0 segments).foldl
      (fun sphere lat =>
        (intRange 0 segments).foldl
          (fun sphere lon => sphere.add_vertex (sphere_vertex M radius segments lat lon)) sphere)
      (Mesh.init mat) with hs0
    have hs0' : sphere0 = { (Mesh.init mat : Mesh F) with
        vertices := (Mesh.init mat : Mesh F).vertices ++ (intRange 0 segments).flatMap
          (fun lat => (intRange 0 segments).map (sphere_vertex M radius segments lat)) } := by
      rw [hs0]
      exact foldl_foldl_add_vertex (sphere_vertex M radius segments) _ _ _
    have hlen0 : sphere0.vertices.length = (segments + 1).toNat * (segments + 1).toNat := by
      rw [hs0']
      simp only [Mesh.init, List.nil_append]
      rw [length_flatMap_const _ _ (segments + 1).toNat
        (fun a _ => by rw [List.length_map, length_intRange]; simp)]
      rw [length_intRange]
      simp
    have hnat : ((sphere0.vertices.length : Nat) : Int) = (segments + 1) * (segments + 1) := by
      rw [hlen0]
      push_cast
      rw [Int.toNat_of_nonneg (by omega)]
    have htri0 : sphere0.triangles = [] := by rw [hs0']; rfl
    obtain ⟨m, em, vm, tm, _, _⟩ := foldlM_triangles sphere0.vertices.length
      (fun sphere lat =>
        (intRange 0 (segments - 1)).foldlM (sphere_square M segments lat) sphere)
      (fun lat => (intRange 0 (segments - 1)).flatMap (fun lon =>
        [(lat * (segments + 1) + lon, lat * (segments + 1) + lon + segments + 1,
            lat * (segments + 1) + lon + 1),
          (lat * (segments + 1) + lon + 1, lat * (segments + 1) + lon + segments + 1,
            lat * (segments + 1) + lon + segments + 1 + 1)]))
      (intRange 0 (segments - 1))
      (by
        intro lat hlat m hm
        refine foldlM_triangles sphere0.vertices.length (sphere_square M segments lat) _
          (intRange 0 (segments - 1)) ?_ m hm
        intro lon hlon m' hm'
        have hv := sphere_faces_valid segments lat lon sphere0.vertices.length hnat
          ((mem_intRange _ _ _).mp hlat) ((mem_intRange _ _ _).mp hlon)
        rw [← hm'] at hv
        exact sphere_square_valid M segments lat lon m' hv.1 hv.2)
      sphere0 rfl
    rw [htri0, List.map_nil, List.nil_append] at tm
    refine ⟨m, em, ?_, ?_, ?_⟩
    · rw [vm, hnat]; ring
    · have hl := congrArg List.length tm
      rw [List.length_map] at hl
      rw [hl, length_flatMap_const _ _ ((segments - 1 + 1 - 0).toNat * 2)
        (fun a _ => by
          rw [length_flatMap_const (intRange 0 (segments - 1)) _ 2 (fun _ _ => by simp),
            length_intRange]),
        length_intRange]
      push_cast
      rw [Int.toNat_of_nonneg (by omega)]
      ring
    · intro t htm
      have hmem : indices t ∈ m.triangles.map indices := List.mem_map_of_mem _ htm
      rw [tm] at hmem
      simp only [List.mem_flatMap] at hmem
      obtain ⟨lat, hlat, lon, hlon, hf⟩ := hmem
      have hv := sphere_faces_valid segments lat lon sphere0.vertices.length hnat
        ((mem_intRange _ _ _).mp hlat) ((mem_intRange _ _ _).mp hlon)
      rw [vm]
      simp only [List.mem_cons, List.mem_singleton, List.not_mem_nil, or_false] at hf
      rcases hf with h | h <;> rw [h]
      · exact hv.1
      · exact hv.2

theorem factory_indices_valid_witness :
    ∃ sphere : Mesh ℚ, create_sphere ratLibm 1 2 Material.init = some sphere ∧
      (sphere.vertices.length : Int) = (2 + 1) ^ 2 ∧
      (sphere.triangles.length : Int) = 2 * 2 ^ 2 ∧
      ∀ t ∈ sphere.triangles, ValidFace sphere.vertices.length (indices t) :=
  (factory_indices_valid ratLibm Material.init).2.2 1 2 (by decide)

end Mesh

/-! ## The index-validity invariant of meshes -/

namespace Mesh

/-- The triangle indices of a built mesh address its vertices. -/
theorem built_valid (M : Libm F) (mesh : Mesh F) (hb : Built M mesh) :
    ∀ t ∈ mesh.triangles, ValidFace mesh.vertices.length (indices t) := by
  induction hb with
  | empty mat => intro t ht; simp [Mesh.init] at ht
  | vertex mesh v _ ih =>
    intro t ht
    obtain ⟨h0, h1, h2⟩ := ih t ht
    simp only [add_vertex, List.length_append, List.length_singleton, ValidFace]
    push_cast
    exact ⟨⟨h0.1, by omega⟩, ⟨h1.1, by omega⟩, ⟨h2.1, by omega⟩⟩
  | triangle mesh mesh' v0 v1 v2 _ hv he ih =>
    obtain ⟨m2, e2, vm, tm, _, _⟩ := add_triangle_valid M mesh (v0, v1, v2) hv
    obtain rfl : m2 = mesh' := Option.some.inj (e2.symm.trans he)
    intro t ht
    have hmem : indices t ∈ m2.triangles.map indices := List.mem_map_of_mem _ ht
    rw [tm, List.mem_append, List.mem_singleton] at hmem
    rw [vm]
    rcases hmem with h | h
    · obtain ⟨t', ht', e⟩ := List.mem_map.mp h
      rw [← e]
      exact ih t' ht'
    · rw [h]; exact hv
  | normals mesh mesh' _ he ih =>
    obtain ⟨m2, e2, pm, _, tm, _, _⟩ := calculate_vertex_normals_valid M mesh ih
    obtain rfl : m2 = mesh' := Option.some.inj (e2.symm.trans he)
    have hl : m2.vertices.length = mesh.vertices.length := by
      have := congrArg List.length pm
      simpa using this
    rw [hl, tm]
    exact ih

/-- C19: mesh index-validity invariant. `add_vertex` puts the vertex at the index equal to
the previous vertex count and keeps the earlier vertices and the triangles; `add_triangle`
with three in-range indices appends one triangle with these indices and keeps the vertices
and the earlier triangles; so in every mesh built from an empty mesh by `add_vertex`,
in-range `add_triangle` and `calculate_vertex_normals`, every triangle index is in
`[0, vertex count)`, `calculate_vertex_normals` completes, and each per-triangle vertex
lookup of `render_mesh` is in range. -/
theorem index_validity_invariant (M : Libm F) :
    (∀ (mesh : Mesh F) (v : Vertex F),
      vectorAt (mesh.add_vertex v).vertices mesh.vertices.length = some v ∧
      (mesh.add_vertex v).vertices.length = mesh.vertices.length + 1 ∧
      (∀ i : Int, i < mesh.vertices.length →
        vectorAt (mesh.add_vertex v).vertices i = vectorAt mesh.vertices i) ∧
      (mesh.add_vertex v).triangles = mesh.triangles) ∧
    (∀ (mesh : Mesh F) (v0 v1 v2 : Int), ValidFace mesh.vertices.length (v0, v1, v2) →
      ∃ mesh' t, mesh.add_triangle M v0 v1 v2 = some mesh' ∧
        mesh'.vertices = mesh.vertices ∧ mesh'.triangles = mesh.triangles ++ [t] ∧
        indices t = (v0, v1, v2)) ∧
    (∀ mesh : Mesh F, Built M mesh →
      (∀ t ∈ mesh.triangles, ValidFace mesh.vertices.length (indices t)) ∧
      (∃ mesh', mesh.calculate_vertex_normals M = some mesh') ∧
      ∀ (R : Renderer F) (camera : Camera F), ∀ t ∈ mesh.triangles,
        ∃ v1 v2 v3,
          vectorAt (Renderer.transformed_vertices R M mesh camera) t.v0 = some v1 ∧
          vectorAt (Renderer.transformed_vertices R M mesh camera) t.v1 = some v2 ∧
          vectorAt (Renderer.transformed_vertices R M mesh camera) t.v2 = some v3) := by
  refine ⟨?_, ?_, ?_⟩
  · intro mesh v
    refine ⟨?_, by simp [add_vertex], ?_, rfl⟩
    · simp [vectorAt, add_vertex]
    · intro i hi
      unfold vectorAt
      by_cases h0 : 0 ≤ i
      · have hlt : i.toNat < mesh.vertices.length := by omega
        simp only [h0, if_true, add_vertex]
        rw [List.getElem?_append_left hlt]
      · simp [h0]
  · intro mesh v0 v1 v2 hv
    obtain ⟨h0, h1, h2⟩ := hv
    obtain ⟨p0, e0⟩ := vectorAt_valid mesh.vertices v0 h0.1 h0.2
    obtain ⟨p1, e1⟩ := vectorAt_valid mesh.vertices v1 h1.1 h1.2
    obtain ⟨p2, e2⟩ := vectorAt_valid mesh.vertices v2 h2.1 h2.2
    simp [add_triangle, Triangle.calculate_normal, e0, e1, e2, indices]
  · intro mesh hb
    have hv := built_valid M mesh hb
    refine ⟨hv, ?_, ?_⟩
    · obtain ⟨m2, e2, _⟩ := calculate_vertex_normals_valid M mesh hv
      exact ⟨m2, e2⟩
    · intro R camera t ht
      obtain ⟨h0, h1, h2⟩ := hv t ht
      have hl : (Renderer.transformed_vertices R M mesh camera).length =
          mesh.vertices.length := by
        simp [Renderer.transformed_vertices]
      rw [← hl] at h0 h1 h2
      obtain ⟨a, ea⟩ := vectorAt_valid _ _ h0.1 h0.2
      obtain ⟨b, eb⟩ := vectorAt_valid _ _ h1.1 h1.2
      obtain ⟨c, ec⟩ := vectorAt_valid _ _ h2.1 h2.2
      exact ⟨a, b, c, ea, eb, ec⟩

theorem index_validity_invariant_witness :
    ∃ mesh : Mesh ℚ, create_plane ratLibm 2 Material.init = some mesh ∧ Built ratLibm mesh ∧
      (∀ t ∈ mesh.triangles, ValidFace mesh.vertices.length (indices t)) ∧
      (∃ mesh', mesh.calculate_vertex_normals ratLibm = some mesh') := by
  obtain ⟨m1, e1, v1, _⟩ := add_triangle_valid ratLibm
    (((((Mesh.init Material.init).add_vertex
        ⟨⟨-(2 * 0.5), 0, -(2 * 0.5)⟩, ⟨0, 1, 0⟩, ⟨1, 1, 1⟩⟩).add_vertex
        ⟨⟨2 * 0.5, 0, -(2 * 0.5)⟩, ⟨0, 1, 0⟩, ⟨1, 1, 1⟩⟩).add_vertex
        ⟨⟨2 * 0.5, 0, 2 * 0.5⟩, ⟨0, 1, 0⟩, ⟨1, 1, 1⟩⟩).add_vertex
        ⟨⟨-(2 * 0.5), 0, 2 * 0.5⟩, ⟨0, 1, 0⟩, ⟨1, 1, 1⟩⟩ : Mesh ℚ) (0, 1, 2)
    ⟨⟨by decide, by decide⟩, ⟨by decide, by decide⟩, ⟨by decide, by decide⟩⟩
  have hv2 : ValidFace m1.vertices.length (0, 2, 3) := by
    rw [v1]
    exact ⟨⟨by decide, by decide⟩, ⟨by decide, by decide⟩, ⟨by decide, by decide⟩⟩
  obtain ⟨m2, e2, _⟩ := add_triangle_valid ratLibm m1 (0, 2, 3) hv2
  have hb : Built ratLibm m2 :=
    Built.triangle m1 m2 0 2 3
      (Built.triangle _ m1 0 1 2
        (Built.vertex _ _ (Built.vertex _ _ (Built.vertex _ _ (Built.vertex _ _
          (Built.empty Material.init)))))
        ⟨⟨by decide, by decide⟩, ⟨by decide, by decide⟩, ⟨by decide, by decide⟩⟩ e1)
      hv2 e2
  have h := (index_validity_invariant ratLibm).2.2 m2 hb
  refine ⟨m2, ?_, hb, h.1, h.2.1⟩
  unfold create_plane
  dsimp only at e1 e2 ⊢
  rw [e1]
  exact e2

end Mesh

/-! ## Camera movement -/

namespace Vec3

theorem sub_add_smul (t p f : Vec3 F) (d : F) :
    (t.add (f.smul d)).sub (p.add (f.smul d)) = t.sub p := by
  simp only [add, sub, smul]
  exact eq_of_components (by simp) (by simp) (by simp)

theorem add_smul_neg (p f : Vec3 F) (d : F) : (p.add (f.smul d)).add (f.smul (-d)) = p := by
  simp only [add, smul]
  exact eq_of_components (by simp) (by simp) (by simp)

end Vec3

namespace Camera

theorem move_forward_view (M : Libm F) (camera : Camera F) (d : F) :
    (camera.move_forward M d).target.sub (camera.move_forward M d).position =
      camera.target.sub camera.position := by
  simp only [move_forward]
  exact Vec3.sub_add_smul _ _ _ _

/-- C21: `move_forward(d)` followed by `move_forward(-d)` gives back the camera it started
from: position and target are restored and `up`, `fov`, `aspect_ratio`, `near_plane` and
`far_plane` are never written; this includes the case `target = position`, where the
camera does not move at all. Arithmetic is exact here. -/
theorem move_forward_round_trip (M : Libm F) (camera : Camera F) (d : F) :
    (camera.move_forward M d).move_forward M (-d) = camera ∧
    ((camera.move_forward M d).up = camera.up ∧ (camera.move_forward M d).fov = camera.fov ∧
      (camera.move_forward M d).aspect_ratio = camera.aspect_ratio ∧
      (camera.move_forward M d).near_plane = camera.near_plane ∧
      (camera.move_forward M d).far_plane = camera.far_plane) ∧
    (camera.target = camera.position → camera.move_forward M d = camera) := by
  refine ⟨?_, ⟨rfl, rfl, rfl, rfl, rfl⟩, ?_⟩
  · have hv := move_forward_view M camera d
    generalize hc : camera.move_forward M d = c2 at hv
    have hp : c2.position = camera.position.add
        (((camera.target.sub camera.position).normalize M).smul d) := by rw [← hc]; rfl
    have ht : c2.target = camera.target.add
        (((camera.target.sub camera.position).normalize M).smul d) := by rw [← hc]; rfl
    have hu : c2.up = camera.up := by rw [← hc]; rfl
    have h1 : c2.fov = camera.fov := by rw [← hc]; rfl
    have h2 : c2.aspect_ratio = camera.aspect_ratio := by rw [← hc]; rfl
    have h3 : c2.near_plane = camera.near_plane := by rw [← hc]; rfl
    have h4 : c2.far_plane = camera.far_plane := by rw [← hc]; rfl
    unfold move_forward
    simp only [hv]
    rw [hp, ht, Vec3.add_smul_neg, Vec3.add_smul_neg, hu, h1, h2, h3, h4]
  · intro h
    have hz : camera.target.sub camera.position = ⟨0, 0, 0⟩ := by
      rw [h]; simp [Vec3.sub]
    unfold move_forward
    simp only [hz, Vec3.normalize_zero]
    have e : ∀ p : Vec3 F, p.add ((⟨0, 0, 0⟩ : Vec3 F).smul d) = p := by
      intro p; simp [Vec3.add, Vec3.smul]
    rw [e, e]

theorem move_forward_round_trip_witness :
    (frontCamera.move_forward ratLibm 2).move_forward ratLibm (-2) = frontCamera ∧
      Camera.move_forward ratLibm (⟨⟨1, 2, 3⟩, ⟨1, 2, 3⟩, ⟨0, 1, 0⟩, 1, 1, 1, 2⟩ : Camera ℚ) 5 =
        ⟨⟨1, 2, 3⟩, ⟨1, 2, 3⟩, ⟨0, 1, 0⟩, 1, 1, 1, 2⟩ :=
  ⟨(move_forward_round_trip ratLibm frontCamera 2).1,
    (move_forward_round_trip ratLibm ⟨⟨1, 2, 3⟩, ⟨1, 2, 3⟩, ⟨0, 1, 0⟩, 1, 1, 1, 2⟩ 5).2.2 rfl⟩

/-- C22: `move_forward(d)` and `move_right(d)` each add one displacement vector to both
`position` and `target`, so `target - position` is unchanged; the displacement is
`normalize(target - position) * d` for `move_forward` and
`normalize(normalize(target - position) × up) * d` for `move_right`, and the latter is
perpendicular to the view direction, normalised or not. -/
theorem move_preserves_view_direction (M : Libm F) (camera : Camera F) (d : F) :
    ((camera.move_forward M d).position =
        camera.position.add (((camera.target.sub camera.position).normalize M).smul d) ∧
      (camera.move_forward M d).target =
        camera.target.add (((camera.target.sub camera.position).normalize M).smul d) ∧
      (camera.move_forward M d).target.sub (camera.move_forward M d).position =
        camera.target.sub camera.position) ∧
    ((camera.move_right M d).position =
        camera.position.add
          (((((camera.target.sub camera.position).normalize M).cross camera.up).normalize M).smul
            d) ∧
      (camera.move_right M d).target =
        camera.target.add
          (((((camera.target.sub camera.position).normalize M).cross camera.up).normalize M).smul
            d) ∧
      (camera.move_right M d).target.sub (camera.move_right M d).position =
        camera.target.sub camera.position) ∧
    Vec3.dot
      (((((camera.target.sub camera.position).normalize M).cross camera.up).normalize M).smul d)
      ((camera.target.sub camera.position).normalize M) = 0 ∧
    Vec3.dot
      (((((camera.target.sub camera.position).normalize M).cross camera.up).normalize M).smul d)
      (camera.target.sub camera.position) = 0 := by
  have hsm : ∀ (a b : Vec3 F), a.dot b = 0 → (a.smul d).dot b = 0 := by
    intro a b h
    have : (a.smul d).dot b = a.dot b * d := by simp only [Vec3.smul, Vec3.dot]; ring
    rw [this, h, zero_mul]
  have hperp : ((((camera.target.sub camera.position).normalize M).cross camera.up).normalize
      M).dot ((camera.target.sub camera.position).normalize M) = 0 :=
    Vec3.normalize_dot_zero M _ _ (Vec3.cross_dot_left _ _)
  refine ⟨⟨rfl, rfl, move_forward_view M camera d⟩, ⟨rfl, rfl, ?_⟩, hsm _ _ hperp, hsm _ _ ?_⟩
  · simp only [move_right]
    exact Vec3.sub_add_smul _ _ _ _
  · by_cases hp : 0 < (camera.target.sub camera.position).length M
    · have hn := Vec3.normalize_of_pos M _ hp
      have hscale : ∀ a : Vec3 F,
          a.dot (camera.target.sub camera.position) =
            a.dot ((camera.target.sub camera.position).sdiv
              ((camera.target.sub camera.position).length M)) *
              (camera.target.sub camera.position).length M := by
        intro a
        simp only [Vec3.sdiv, Vec3.dot]
        field_simp
      rw [hscale, ← hn, hperp, zero_mul]
    · rw [Vec3.normalize_of_not_pos M _ hp]
      have hc : (⟨0, 0, 0⟩ : Vec3 F).cross camera.up = ⟨0, 0, 0⟩ := by simp [Vec3.cross]
      rw [hc, Vec3.normalize_zero]
      simp [Vec3.dot]

end Camera

/-! ## Composition of transforms and the projection matrix -/

namespace Mat4

theorem transform_direction_mul (A B : Mat4 F) (hB : B.Affine) (d : Vec3 F) :
    (A.mul B).transform_direction d = A.transform_direction (B.transform_direction d) := by
  obtain ⟨h12, h13, h14, _⟩ := hB
  have e00 : (A.mul B).m 0 =
      A.m 0 * B.m 0 + A.m 1 * B.m 4 + A.m 2 * B.m 8 + A.m 3 * B.m 12 := mul_entry A B 0 0
  have e01 : (A.mul B).m 1 =
      A.m 0 * B.m 1 + A.m 1 * B.m 5 + A.m 2 * B.m 9 + A.m 3 * B.m 13 := mul_entry A B 0 1
  have e02 : (A.mul B).m 2 =
      A.m 0 * B.m 2 + A.m 1 * B.m 6 + A.m 2 * B.m 10 + A.m 3 * B.m 14 := mul_entry A B 0 2
  have e10 : (A.mul B).m 4 =
      A.m 4 * B.m 0 + A.m 5 * B.m 4 + A.m 6 * B.m 8 + A.m 7 * B.m 12 := mul_entry A B 1 0
  have e11 : (A.mul B).m 5 =
      A.m 4 * B.m 1 + A.m 5 * B.m 5 + A.m 6 * B.m 9 + A.m 7 * B.m 13 := mul_entry A B 1 1
  have e12 : (A.mul B).m 6 =
      A.m 4 * B.m 2 + A.m 5 * B.m 6 + A.m 6 * B.m 10 + A.m 7 * B.m 14 := mul_entry A B 1 2
  have e20 : (A.mul B).m 8 =
      A.m 8 * B.m 0 + A.m 9 * B.m 4 + A.m 10 * B.m 8 + A.m 11 * B.m 12 := mul_entry A B 2 0
  have e21 : (A.mul B).m 9 =
      A.m 8 * B.m 1 + A.m 9 * B.m 5 + A.m 10 * B.m 9 + A.m 11 * B.m 13 := mul_entry A B 2 1
  have e22 : (A.mul B).m 10 =
      A.m 8 * B.m 2 + A.m 9 * B.m 6 + A.m 10 * B.m 10 + A.m 11 * B.m 14 := mul_entry A B 2 2
  simp only [transform_direction, e00, e01, e02, e10, e11, e12, e20, e21, e22, h12, h13, h14]
  exact Vec3.eq_of_components (by ring) (by ring) (by ring)

theorem identity_transform_direction (d : Vec3 F) :
    (identity : Mat4 F).transform_direction d = d := by
  simp [transform_direction, identity, set, Function.update]

/-- C30: the matrix product composes transforms from right to left. For every `A` and
every affine `B` (bottom row `0, 0, 0, 1`), `(A * B).transform_point(p)` is
`A.transform_point(B.transform_point(p))` and likewise for `transform_direction`; so for an
affine model matrix the `mvp` of `render_mesh` maps a point as projection after view after
model; and the default-constructed matrix leaves points and directions as they are. -/
theorem mul_composes_right_to_left (M : Libm F) :
    (∀ A B : Mat4 F, B.Affine → ∀ v : Vec3 F,
      (A.mul B).transform_point v = A.transform_point (B.transform_point v) ∧
      (A.mul B).transform_direction v = A.transform_direction (B.transform_direction v)) ∧
    (∀ (camera : Camera F) (model : Mat4 F), model.Affine → ∀ p : Vec3 F,
      (((camera.get_projection_matrix M).mul (camera.get_view_matrix M)).mul
          model).transform_point p =
        (camera.get_projection_matrix M).transform_point
          ((camera.get_view_matrix M).transform_point (model.transform_point p))) ∧
    (∀ v : Vec3 F, (identity : Mat4 F).transform_point v = v ∧
      (identity : Mat4 F).transform_direction v = v) := by
  refine ⟨fun A B hB v => ⟨transform_point_mul A B hB v, transform_direction_mul A B hB v⟩,
    ?_, fun v => ⟨identity_transform_point v, identity_transform_direction v⟩⟩
  intro camera model hm p
  rw [transform_point_mul _ model hm p]
  exact transform_point_mul _ _ (look_at_affine M _ _ _) _

theorem mul_composes_right_to_left_witness :
    ((scale (⟨2, 3, 4⟩ : Vec3 ℚ)).mul (translation ⟨1, 2, 3⟩)).transform_point ⟨1, 1, 1⟩ =
        (scale ⟨2, 3, 4⟩).transform_point ((translation ⟨1, 2, 3⟩).transform_point ⟨1, 1, 1⟩) ∧
      (((frontCamera.get_projection_matrix ratLibm).mul
          (frontCamera.get_view_matrix ratLibm)).mul (translation ⟨1, 2, 3⟩)).transform_point
          ⟨1, 1, 1⟩ =
        (frontCamera.get_projection_matrix ratLibm).transform_point
          ((frontCamera.get_view_matrix ratLibm).transform_point
            ((translation ⟨1, 2, 3⟩).transform_point ⟨1, 1, 1⟩)) :=
  ⟨((mul_composes_right_to_left ratLibm).1 (scale ⟨2, 3, 4⟩) (translation ⟨1, 2, 3⟩)
      ⟨by decide!, by decide!, by decide!, by decide!⟩ ⟨1, 1, 1⟩).1,
    (mul_composes_right_to_left ratLibm).2.1 frontCamera (translation ⟨1, 2, 3⟩)
      ⟨by decide!, by decide!, by decide!, by decide!⟩ ⟨1, 1, 1⟩⟩

/-- C24: the perspective matrix is the standard symmetric frustum. With `tan(fov/2) ≠ 0`,
`aspect ≠ 0` and `0 < near < far`, `transform_point` sends every point with `z = -near` to
depth `-1`, every point with `z = -far` to depth `+1`, every point `(0, 0, z)` with
`z ≠ 0` to `x = y = 0`, and the frustum edge point
`(aspect * tan(fov/2) * d, tan(fov/2) * d, -d)` with `d > 0` to `x = y = 1`. -/
theorem perspective_frustum (M : Libm F) (fov aspect near far : F)
    (ht : M.tan (fov / 2) ≠ 0) (ha : aspect ≠ 0) (hn : 0 < near) (hnf : near < far) :
    (∀ x y : F, ((perspective M fov aspect near far).transform_point ⟨x, y, -near⟩).z = -1) ∧
    (∀ x y : F, ((perspective M fov aspect near far).transform_point ⟨x, y, -far⟩).z = 1) ∧
    (∀ z : F, z ≠ 0 →
      ((perspective M fov aspect near far).transform_point ⟨0, 0, z⟩).x = 0 ∧
      ((perspective M fov aspect near far).transform_point ⟨0, 0, z⟩).y = 0) ∧
    (∀ d : F, 0 < d →
      ((perspective M fov aspect near far).transform_point
        ⟨aspect * M.tan (fov / 2) * d, M.tan (fov / 2) * d, -d⟩).x = 1 ∧
      ((perspective M fov aspect near far).transform_point
        ⟨aspect * M.tan (fov / 2) * d, M.tan (fov / 2) * d, -d⟩).y = 1) := by
  have hfn : far - near ≠ 0 := by linarith [sub_pos.mpr hnf]
  have hf : 0 < far := lt_trans hn hnf
  refine ⟨?_, ?_, ?_, ?_⟩
  · intro x y
    rw [perspective_transform_point M fov aspect near far ⟨x, y, -near⟩
      (by simpa using hn.ne')]
    simp only [neg_neg]
    field_simp
    ring
  · intro x y
    rw [perspective_transform_point M fov aspect near far ⟨x, y, -far⟩
      (by simpa using hf.ne')]
    simp only [neg_neg]
    field_simp
    ring
  · intro z hz
    rw [perspective_transform_point M fov aspect near far ⟨0, 0, z⟩ hz]
    simp
  · intro d hd
    rw [perspective_transform_point M fov aspect near far _ (by simpa using hd.ne')]
    simp only [neg_neg]
    constructor
    · field_simp
    · field_simp

theorem perspective_frustum_witness :
    ((perspective ratLibm 1 (4 / 3) (1 / 10) 100).transform_point ⟨3, 7, -(1 / 10)⟩).z = -1 ∧
      ((perspective ratLibm 1 (4 / 3) (1 / 10) 100).transform_point ⟨3, 7, -100⟩).z = 1 :=
  have h := perspective_frustum ratLibm 1 (4 / 3) (1 / 10) 100 (by decide!) (by decide!)
    (by decide!) (by decide!)
  ⟨h.1 3 7, h.2.1 3 7⟩

end Mat4

/-! ## The view matrix -/

namespace Vec3

theorem sub_ne_zero_vec {a b : Vec3 F} (h : a ≠ b) : a.sub b ≠ ⟨0, 0, 0⟩ := by
  intro hz
  apply h
  have hx : (a.sub b).x = 0 := by rw [hz]
  have hy : (a.sub b).y = 0 := by rw [hz]
  have hzz : (a.sub b).z = 0 := by rw [hz]
  simp only [sub] at hx hy hzz
  exact eq_of_components (sub_eq_zero.mp hx) (sub_eq_zero.mp hy) (sub_eq_zero.mp hzz)

/-- The facts about `normalize` of a non-zero vector at whose squared length the square
root is exact: the result is `v / len` with `len > 0`, `len * len = v · v`, and it is a
unit vector. -/
theorem normalize_exact (M : Libm F) (v : Vec3 F) (hv : v ≠ ⟨0, 0, 0⟩)
    (hs : M.SqrtAt (v.dot v)) :
    0 < v.length M ∧ v.length M * v.length M = v.dot v ∧
      v.normalize M = v.sdiv (v.length M) ∧ (v.normalize M).dot (v.normalize M) = 1 := by
  have hpos : 0 < v.length M := sqrtAt_pos M hs (sq_sum_ne_zero v hv)
  have hsq : v.length M * v.length M = v.dot v := hs.2
  refine ⟨hpos, hsq, normalize_of_pos M v hpos, ?_⟩
  rw [normalize_of_pos M v hpos]
  exact dot_self_sdiv v (v.length M) hsq hpos.ne'

theorem cross_sdiv_left (a b : Vec3 F) (k : F) : (a.sdiv k).cross b = (a.cross b).sdiv k := by
  simp only [sdiv, cross]
  exact eq_of_components (by ring) (by ring) (by ring)

theorem sdiv_ne_zero {a : Vec3 F} {k : F} (ha : a ≠ ⟨0, 0, 0⟩) (hk : k ≠ 0) :
    a.sdiv k ≠ ⟨0, 0, 0⟩ := by
  intro hz
  apply ha
  have hx : (a.sdiv k).x = 0 := by rw [hz]
  have hy : (a.sdiv k).y = 0 := by rw [hz]
  have hzz : (a.sdiv k).z = 0 := by rw [hz]
  simp only [sdiv, div_eq_zero_iff, hk, or_false] at hx hy hzz
  exact eq_of_components hx hy hzz

theorem cross_dot_self (a b : Vec3 F) :
    (a.cross b).dot (a.cross b) = a.dot a * b.dot b - a.dot b * a.dot b := by
  simp only [cross, dot]; ring

theorem dot_comm_vec (a b : Vec3 F) : a.dot b = b.dot a := by
  simp only [dot]; ring

end Vec3

namespace Mat4

theorem look_at_transform_point (M : Libm F) (eye target up p : Vec3 F) :
    (look_at M eye target up).transform_point p =
      ⟨((((target.sub eye).normalize M).cross up).normalize M).dot (p.sub eye),
       (((((target.sub eye).normalize M).cross up).normalize M).cross
          ((target.sub eye).normalize M)).dot (p.sub eye),
       -(((target.sub eye).normalize M).dot (p.sub eye))⟩ := by
  rw [transform_point_affine _ (look_at_affine M _ _ _)]
  simp only [look_at]
  simp [set, Function.update, Vec3.dot, Vec3.sub]
  refine ⟨?_, ?_, ?_⟩ <;> ring

/-- C23: the view matrix is the inverse camera transform. For every `eye`, `target` and
`up`, `look_at(eye, target, up).transform_point(eye)` is the origin. When `target ≠ eye`
and `up` is not parallel to `target - eye` (and the square root is exact at the two
squared lengths that `look_at` normalises by), the vectors `right`, `camera_up`, `forward`
of `look_at` are pairwise orthogonal unit vectors and `transform_point(target)` is
`(0, 0, -|target - eye|)`. -/
theorem look_at_inverse_camera (M : Libm F) (eye target up : Vec3 F) :
    (look_at M eye target up).transform_point eye = ⟨0, 0, 0⟩ ∧
    (target ≠ eye → (target.sub eye).cross up ≠ ⟨0, 0, 0⟩ →
      M.SqrtAt ((target.sub eye).dot (target.sub eye)) →
      M.SqrtAt ((((target.sub eye).normalize M).cross up).dot
        (((target.sub eye).normalize M).cross up)) →
      ∀ forward right camera_up : Vec3 F, forward = (target.sub eye).normalize M →
        right = (forward.cross up).normalize M → camera_up = right.cross forward →
        (right.dot right = 1 ∧ camera_up.dot camera_up = 1 ∧ forward.dot forward = 1) ∧
        (right.dot camera_up = 0 ∧ right.dot forward = 0 ∧ camera_up.dot forward = 0) ∧
        (look_at M eye target up).transform_point target =
          ⟨0, 0, -(target.sub eye).length M⟩) := by
  constructor
  · rw [look_at_transform_point]
    have hz : eye.sub eye = ⟨0, 0, 0⟩ := by simp [Vec3.sub]
    rw [hz]
    simp [Vec3.dot]
  · intro hne hpar hs1 hs2 forward right camera_up hf hr hc
    obtain ⟨hlen, hsq, hfn, hff⟩ :=
      Vec3.normalize_exact M (target.sub eye) (Vec3.sub_ne_zero_vec hne) hs1
    rw [← hf] at hff hs2
    have hcne : forward.cross up ≠ ⟨0, 0, 0⟩ := by
      rw [hf, hfn, Vec3.cross_sdiv_left]
      exact Vec3.sdiv_ne_zero hpar hlen.ne'
    obtain ⟨_, _, _, hrr⟩ := Vec3.normalize_exact M (forward.cross up) hcne hs2
    rw [← hr] at hrr
    have hrf : right.dot forward = 0 := by
      rw [hr]
      exact Vec3.normalize_dot_zero M _ _ (Vec3.cross_dot_left _ _)
    have hcc : camera_up.dot camera_up = 1 := by
      rw [hc, Vec3.cross_dot_self, hrr, hff, hrf]; ring
    have hcf : camera_up.dot forward = 0 := by rw [hc]; exact Vec3.cross_dot_right _ _
    have hrc : right.dot camera_up = 0 := by
      rw [Vec3.dot_comm_vec, hc]; exact Vec3.cross_dot_left _ _
    have hd : ∀ a : Vec3 F, a.dot (target.sub eye) =
        a.dot forward * (target.sub eye).length M := by
      intro a
      rw [hf, hfn]
      simp only [Vec3.sdiv, Vec3.dot]
      field_simp
    refine ⟨⟨hrr, hcc, hff⟩, ⟨hrc, hrf, hcf⟩, ?_⟩
    rw [look_at_transform_point, ← hf, ← hr, ← hc, hd right, hd camera_up, hd forward, hrf, hcf,
      hff]
    simp

theorem look_at_inverse_camera_witness :
    (look_at ratLibm (⟨0, 0, 5⟩ : Vec3 ℚ) ⟨0, 0, 0⟩ ⟨0, 1, 0⟩).transform_point ⟨0, 0, 5⟩ =
        ⟨0, 0, 0⟩ ∧
      (look_at ratLibm (⟨0, 0, 5⟩ : Vec3 ℚ) ⟨0, 0, 0⟩ ⟨0, 1, 0⟩).transform_point ⟨0, 0, 0⟩ =
        ⟨0, 0, -5⟩ :=
  have h := look_at_inverse_camera ratLibm (⟨0, 0, 5⟩ : Vec3 ℚ) ⟨0, 0, 0⟩ ⟨0, 1, 0⟩
  ⟨h.1, ((h.2 (by decide) (by decide!) ⟨by decide!, by decide!⟩ ⟨by decide!, by decide!⟩
    _ _ _ rfl rfl rfl).2.2).trans (by decide!)⟩

end Mat4

/-! ## Depth interpolation -/

namespace Renderer

/-- C27 (the code at a failing input): for the screen triangle `(0,0,0)`, `(1,0,0)`,
`(0,1,1)`, not collinear in `(x, y)` and with integer vertices, `draw_triangle_flat`
submits the pixels `(0,0)`, `(1,0)`, `(0,1)` with the depths `0`, `0`, `1/2`: at the
vertex `(0,1)`, whose depth is `1`, it submits `1/2`, whereas the affine function of
`(x, y)` through the three vertex depths is `z = y`. The dot products of the barycentric
solve include the `z` components. -/
theorem flat_depth_misses_vertex_depth (R : Renderer F) (M : Libm F) (n c : Vec3 F)
    (face_normal : Vec3 F) (material : Material F) (lights : List (Light F))
    (view_dir : Vec3 F) :
    (draw_triangle_flat_frags R M ⟨⟨0, 0, 0⟩, n, c⟩ ⟨⟨1, 0, 0⟩, n, c⟩ ⟨⟨0, 1, 1⟩, n, c⟩
      face_normal material lights view_dir).map (fun fr => (fr.x, fr.y, fr.depth)) =
        [(0, 0, 0), (1, 0, 0), (0, 1, 1 / 2)] ∧
    (1 / 2 : F) ≠ 1 ∧
    (((⟨1, 0, 0⟩ : Vec3 F).sub ⟨0, 0, 0⟩).cross ((⟨0, 1, 1⟩ : Vec3 F).sub ⟨0, 0, 0⟩)).z ≠ 0 := by
  have hs : sortByY (⟨0, 0, 0⟩ : Vec3 F) ⟨1, 0, 0⟩ ⟨0, 1, 1⟩ =
      (⟨0, 0, 0⟩, ⟨1, 0, 0⟩, ⟨0, 1, 1⟩) := by
    norm_num [sortByY]
  have t0 : truncInt (0 : F) = 0 := by simpa using truncInt_natCast (F := F) 0
  have t1 : truncInt (1 : F) = 1 := by simpa using truncInt_natCast (F := F) 1
  have hmin : stdMin3 (0 : F) 1 0 = 0 := by norm_num [stdMin3, stdMin]
  have hmax : stdMax3 (0 : F) 1 0 = 1 := by norm_num [stdMax3, stdMax]
  have r01 : intRange 0 1 = [0, 1] := by decide
  refine ⟨?_, by norm_num, by norm_num [Vec3.sub, Vec3.cross]⟩
  · have f00 : ∀ col : Vec3 F, flat_pixel ⟨0, 0, 0⟩ ⟨1, 0, 0⟩ ⟨0, 1, 1⟩ col 0 0 =
        some ⟨0, 0, col, 0⟩ := by
      intro col; norm_num [flat_pixel, Vec3.sub, Vec3.dot]
    have f01 : ∀ col : Vec3 F, flat_pixel ⟨0, 0, 0⟩ ⟨1, 0, 0⟩ ⟨0, 1, 1⟩ col 0 1 =
        some ⟨1, 0, col, 0⟩ := by
      intro col; norm_num [flat_pixel, Vec3.sub, Vec3.dot]
    have f10 : ∀ col : Vec3 F, flat_pixel ⟨0, 0, 0⟩ ⟨1, 0, 0⟩ ⟨0, 1, 1⟩ col 1 0 =
        some ⟨0, 1, col, 1 / 2⟩ := by
      intro col; norm_num [flat_pixel, Vec3.sub, Vec3.dot]
    have f11 : ∀ col : Vec3 F, flat_pixel ⟨0, 0, 0⟩ ⟨1, 0, 0⟩ ⟨0, 1, 1⟩ col 1 1 = none := by
      intro col; norm_num [flat_pixel, Vec3.sub, Vec3.dot]
    simp only [draw_triangle_flat_frags, hs, t0, t1, hmin, hmax, r01, List.flatMap_cons,
      List.flatMap_nil, List.filterMap_cons, List.filterMap_nil, f00, f01, f10, f11]
    rfl

end Renderer

/-! ## Vertex order of a filled triangle -/

namespace Renderer

/-- The result of the loop body in terms of the two solved coordinates. -/
theorem flat_pixel_eq (p0 p1 p2 color : Vec3 F) (y x : Int) :
    flat_pixel p0 p1 p2 color y x =
      if flat_u p0 p1 p2 y x ≥ 0 ∧ flat_v p0 p1 p2 y x ≥ 0 ∧
          flat_u p0 p1 p2 y x + flat_v p0 p1 p2 y x ≤ 1 then
        some ⟨x, y, color,
          p0.z + flat_u p0 p1 p2 y x * (p2.z - p0.z) + flat_v p0 p1 p2 y x * (p1.z - p0.z)⟩
      else none := rfl

theorem flat_denom_swap12 (p0 p1 p2 : Vec3 F) : flat_denom p0 p2 p1 = flat_denom p0 p1 p2 := by
  simp only [flat_denom, Vec3.sub, Vec3.dot]; ring

theorem flat_denom_swap02 (p0 p1 p2 : Vec3 F) : flat_denom p2 p1 p0 = flat_denom p0 p1 p2 := by
  simp only [flat_denom, Vec3.sub, Vec3.dot]; ring

theorem flat_u_swap12 (p0 p1 p2 : Vec3 F) (y x : Int) :
    flat_u p0 p2 p1 y x = flat_v p0 p1 p2 y x := by
  simp only [flat_u, flat_v, flat_denom_swap12 p0 p1 p2]
  simp only [Vec3.sub, Vec3.dot]; ring

theorem flat_v_swap12 (p0 p1 p2 : Vec3 F) (y x : Int) :
    flat_v p0 p2 p1 y x = flat_u p0 p1 p2 y x := by
  simp only [flat_u, flat_v, flat_denom_swap12 p0 p1 p2]
  simp only [Vec3.sub, Vec3.dot]; ring

theorem flat_v_swap02 (p0 p1 p2 : Vec3 F) (y x : Int) :
    flat_v p2 p1 p0 y x = flat_v p0 p1 p2 y x := by
  simp only [flat_v, flat_denom_swap02 p0 p1 p2]
  simp only [Vec3.sub, Vec3.dot]; ring

theorem flat_u_swap02 (p0 p1 p2 : Vec3 F) (y x : Int) (hd : flat_denom p0 p1 p2 ≠ 0) :
    flat_u p2 p1 p0 y x = 1 - flat_u p0 p1 p2 y x - flat_v p0 p1 p2 y x := by
  simp only [flat_u, flat_v, flat_denom_swap02 p0 p1 p2]
  field_simp
  simp only [flat_denom, Vec3.sub, Vec3.dot]; ring

theorem flat_pixel_swap12 (p0 p1 p2 color : Vec3 F) (y x : Int) :
    flat_pixel p0 p2 p1 color y x = flat_pixel p0 p1 p2 color y x := by
  rw [flat_pixel_eq p0 p2 p1, flat_pixel_eq p0 p1 p2, flat_u_swap12 p0 p1 p2,
    flat_v_swap12 p0 p1 p2]
  have hc : (flat_v p0 p1 p2 y x ≥ 0 ∧ flat_u p0 p1 p2 y x ≥ 0 ∧
      flat_v p0 p1 p2 y x + flat_u p0 p1 p2 y x ≤ 1) ↔
      (flat_u p0 p1 p2 y x ≥ 0 ∧ flat_v p0 p1 p2 y x ≥ 0 ∧
      flat_u p0 p1 p2 y x + flat_v p0 p1 p2 y x ≤ 1) := by
    constructor <;> rintro ⟨a, b, c⟩ <;> exact ⟨b, a, by linarith⟩
  have hz : p0.z + flat_v p0 p1 p2 y x * (p1.z - p0.z) + flat_u p0 p1 p2 y x * (p2.z - p0.z) =
      p0.z + flat_u p0 p1 p2 y x * (p2.z - p0.z) + flat_v p0 p1 p2 y x * (p1.z - p0.z) := by
    ring
  rw [hz]
  exact if_congr hc rfl rfl

theorem flat_pixel_swap02 (p0 p1 p2 color : Vec3 F) (y x : Int)
    (hd : flat_denom p0 p1 p2 ≠ 0) :
    flat_pixel p2 p1 p0 color y x = flat_pixel p0 p1 p2 color y x := by
  rw [flat_pixel_eq p2 p1 p0, flat_pixel_eq p0 p1 p2, flat_u_swap02 p0 p1 p2 y x hd,
    flat_v_swap02 p0 p1 p2]
  have hc : (1 - flat_u p0 p1 p2 y x - flat_v p0 p1 p2 y x ≥ 0 ∧ flat_v p0 p1 p2 y x ≥ 0 ∧
      1 - flat_u p0 p1 p2 y x - flat_v p0 p1 p2 y x + flat_v p0 p1 p2 y x ≤ 1) ↔
      (flat_u p0 p1 p2 y x ≥ 0 ∧ flat_v p0 p1 p2 y x ≥ 0 ∧
      flat_u p0 p1 p2 y x + flat_v p0 p1 p2 y x ≤ 1) := by
    constructor <;> rintro ⟨a, b, c⟩ <;> exact ⟨by linarith, b, by linarith⟩
  have hz : p2.z + (1 - flat_u p0 p1 p2 y x - flat_v p0 p1 p2 y x) * (p0.z - p2.z) +
      flat_v p0 p1 p2 y x * (p1.z - p2.z) =
      p0.z + flat_u p0 p1 p2 y x * (p2.z - p0.z) + flat_v p0 p1 p2 y x * (p1.z - p0.z) := by
    ring
  rw [hz]
  exact if_congr hc rfl rfl

theorem mem_orders {α : Type} {a b c : α} {q : α × α × α} (h : q ∈ orders a b c) :
    q = (a, b, c) ∨ q = (a, c, b) ∨ q = (b, a, c) ∨ q = (b, c, a) ∨ q = (c, a, b) ∨
      q = (c, b, a) := by
  simpa [orders] using h

theorem flat_denom_order (a b c : Vec3 F) (q : Vec3 F × Vec3 F × Vec3 F)
    (hq : q ∈ orders a b c) : flat_denom q.1 q.2.1 q.2.2 = flat_denom a b c := by
  rcases mem_orders hq with h | h | h | h | h | h <;> subst h <;>
    simp only [flat_denom, Vec3.sub, Vec3.dot] <;> ring

theorem flat_pixel_order (a b c color : Vec3 F) (hd : flat_denom a b c ≠ 0)
    (q : Vec3 F × Vec3 F × Vec3 F) (hq : q ∈ orders a b c) (y x : Int) :
    flat_pixel q.1 q.2.1 q.2.2 color y x = flat_pixel a b c color y x := by
  have h02 : flat_denom c b a ≠ 0 := by rw [flat_denom_swap02]; exact hd
  have h12 : flat_denom a c b ≠ 0 := by rw [flat_denom_swap12]; exact hd
  have hcab : flat_denom c a b ≠ 0 := by rw [flat_denom_swap12]; exact h02
  rcases mem_orders hq with h | h | h | h | h | h <;> subst h
  · rfl
  · exact flat_pixel_swap12 a b c color y x
  · show flat_pixel b a c color y x = flat_pixel a b c color y x
    rw [flat_pixel_swap02 c a b color y x hcab, flat_pixel_swap12 c b a color y x,
      flat_pixel_swap02 a b c color y x hd]
  · show flat_pixel b c a color y x = flat_pixel a b c color y x
    rw [flat_pixel_swap02 a c b color y x h12, flat_pixel_swap12 a b c color y x]
  · show flat_pixel c a b color y x = flat_pixel a b c color y x
    rw [flat_pixel_swap12 c b a color y x, flat_pixel_swap02 a b c color y x hd]
  · exact flat_pixel_swap02 a b c color y x hd

theorem min3_order {α : Type} (f : α → F) (a b c : α) (q : α × α × α)
    (hq : q ∈ orders a b c) :
    min (min (f q.1) (f q.2.1)) (f q.2.2) = min (min (f a) (f b)) (f c) ∧
      max (max (f q.1) (f q.2.1)) (f q.2.2) = max (max (f a) (f b)) (f c) := by
  rcases mem_orders hq with h | h | h | h | h | h <;> subst h <;> constructor <;>
    simp only [min_comm, min_left_comm, min_assoc, max_comm, max_left_comm, max_assoc]

theorem flat_box_order (a b c color : Vec3 F) (hd : flat_denom a b c ≠ 0)
    (q : Vec3 F × Vec3 F × Vec3 F) (hq : q ∈ orders a b c) :
    flat_box color q.1 q.2.1 q.2.2 = flat_box color a b c := by
  unfold flat_box
  rw [(min3_order (fun p : Vec3 F => p.y) a b c q hq).1,
    (min3_order (fun p : Vec3 F => p.y) a b c q hq).2,
    (min3_order (fun p : Vec3 F => p.x) a b c q hq).1,
    (min3_order (fun p : Vec3 F => p.x) a b c q hq).2]
  simp only [flat_pixel_order a b c color hd q hq]

theorem stdMin3_eq (a b c : F) : stdMin3 a b c = min (min a b) c := by
  have e : ∀ u v : F, stdMin u v = min u v := by
    intro u v
    unfold stdMin
    split_ifs with h
    · exact (min_eq_right h.le).symm
    · exact (min_eq_left (not_lt.mp h)).symm
  simp only [stdMin3, e]

theorem stdMax3_eq (a b c : F) : stdMax3 a b c = max (max a b) c := by
  have e : ∀ u v : F, stdMax u v = max u v := by
    intro u v
    unfold stdMax
    split_ifs with h
    · exact (max_eq_right h.le).symm
    · exact (max_eq_left (not_lt.mp h)).symm
  simp only [stdMax3, e]

theorem flat_scan_sorted (color p0 p1 p2 : Vec3 F) (h01 : p0.y ≤ p1.y) (h12 : p1.y ≤ p2.y) :
    flat_scan color p0 p1 p2 = flat_box color p0 p1 p2 := by
  unfold flat_scan flat_box
  rw [stdMin3_eq, stdMax3_eq, min_eq_left h01, min_eq_left (h01.trans h12), max_eq_right h01,
    max_eq_right h12]

theorem sortByY_order (a b c : Vec3 F) :
    sortByY a b c ∈ orders a b c ∧ (sortByY a b c).1.y ≤ (sortByY a b c).2.1.y ∧
      (sortByY a b c).2.1.y ≤ (sortByY a b c).2.2.y := by
  unfold sortByY
  by_cases h1 : b.y < a.y
  · simp only [h1, if_true]
    by_cases h2 : c.y < b.y
    · simp only [h2, if_true]
      exact ⟨by simp [orders], h2.le, h1.le⟩
    · simp only [h2, if_false]
      by_cases h3 : c.y < a.y
      · simp only [h3, if_true]
        exact ⟨by simp [orders], not_lt.mp h2, h3.le⟩
      · simp only [h3, if_false]
        exact ⟨by simp [orders], h1.le, not_lt.mp h3⟩
  · simp only [h1, if_false]
    by_cases h2 : c.y < a.y
    · simp only [h2, if_true]
      exact ⟨by simp [orders], h2.le, not_lt.mp h1⟩
    · simp only [h2, if_false]
      by_cases h3 : c.y < b.y
      · simp only [h3, if_true]
        exact ⟨by simp [orders], not_lt.mp h2, h3.le⟩
      · simp only [h3, if_false]
        exact ⟨by simp [orders], not_lt.mp h1, not_lt.mp h3⟩

/-- The calls of `draw_triangle_flat` are the loops over the bounding box of the three
positions, in whatever order the vertices are passed and the sort leaves them. -/
theorem draw_triangle_flat_frags_box (R : Renderer F) (M : Libm F) (v1 v2 v3 : Vertex F)
    (face_normal : Vec3 F) (material : Material F) (lights : List (Light F))
    (view_dir : Vec3 F)
    (hd : flat_denom v1.position v2.position v3.position ≠ 0) :
    draw_triangle_flat_frags R M v1 v2 v3 face_normal material lights view_dir =
      flat_box
        (R.calculate_lighting M
          (((v1.position.add v2.position).add v3.position).sdiv 3) face_normal material lights
          view_dir)
        v1.position v2.position v3.position := by
  obtain ⟨hmem, h01, h12⟩ := sortByY_order v1.position v2.position v3.position
  have e : draw_triangle_flat_frags R M v1 v2 v3 face_normal material lights view_dir =
      flat_scan
        (R.calculate_lighting M
          (((v1.position.add v2.position).add v3.position).sdiv 3) face_normal material lights
          view_dir)
        (sortByY v1.position v2.position v3.position).1
        (sortByY v1.position v2.position v3.position).2.1
        (sortByY v1.position v2.position v3.position).2.2 := rfl
  rw [e, flat_scan_sorted _ _ _ _ h01 h12, flat_box_order _ _ _ _ hd _ hmem]

theorem flat_denom_eq_cross (a b c : Vec3 F) :
    flat_denom a b c =
      ((b.sub a).cross (c.sub a)).x * ((b.sub a).cross (c.sub a)).x +
        ((b.sub a).cross (c.sub a)).y * ((b.sub a).cross (c.sub a)).y +
        ((b.sub a).cross (c.sub a)).z * ((b.sub a).cross (c.sub a)).z := by
  simp only [flat_denom, Vec3.sub, Vec3.dot, Vec3.cross]; ring

/-- C28: the output of `draw_triangle_flat` does not depend on the order of the vertices
nor on how the sort breaks ties. For a triangle that is not degenerate (the cross product
of two of its edges is not the zero vector), passing the three vertices in any of their
six orders gives the same sequence of `set_pixel` calls (same pixels, colour and depth) and
so the same renderer; and running the loops on any arrangement of the three positions that
is ascending in `y` gives that sequence too. -/
theorem flat_order_independent (R : Renderer F) (M : Libm F) (v1 v2 v3 : Vertex F)
    (face_normal : Vec3 F) (material : Material F) (lights : List (Light F))
    (view_dir : Vec3 F)
    (hnd : (v2.position.sub v1.position).cross (v3.position.sub v1.position) ≠ ⟨0, 0, 0⟩) :
    (∀ w ∈ orders v1 v2 v3,
      draw_triangle_flat_frags R M w.1 w.2.1 w.2.2 face_normal material lights view_dir =
        draw_triangle_flat_frags R M v1 v2 v3 face_normal material lights view_dir ∧
      draw_triangle_flat R M w.1 w.2.1 w.2.2 face_normal material lights view_dir =
        draw_triangle_flat R M v1 v2 v3 face_normal material lights view_dir) ∧
    (∀ q ∈ orders v1.position v2.position v3.position, q.1.y ≤ q.2.1.y → q.2.1.y ≤ q.2.2.y →
      flat_scan
          (R.calculate_lighting M
            (((v1.position.add v2.position).add v3.position).sdiv 3) face_normal material
            lights view_dir)
          q.1 q.2.1 q.2.2 =
        draw_triangle_flat_frags R M v1 v2 v3 face_normal material lights view_dir) := by
  have hd : flat_denom v1.position v2.position v3.position ≠ 0 := by
    rw [flat_denom_eq_cross]
    exact Vec3.sq_sum_ne_zero _ hnd
  have hfr : ∀ w ∈ orders v1 v2 v3,
      draw_triangle_flat_frags R M w.1 w.2.1 w.2.2 face_normal material lights view_dir =
        draw_triangle_flat_frags R M v1 v2 v3 face_normal material lights view_dir := by
    intro w hw
    have hpos : (w.1.position, w.2.1.position, w.2.2.position) ∈
        orders v1.position v2.position v3.position := by
      rcases mem_orders hw with h | h | h | h | h | h <;> subst h <;> simp [orders]
    have hdw : flat_denom w.1.position w.2.1.position w.2.2.position ≠ 0 := by
      have := flat_denom_order v1.position v2.position v3.position
        (w.1.position, w.2.1.position, w.2.2.position) hpos
      rw [this]; exact hd
    have hc : ((w.1.position.add w.2.1.position).add w.2.2.position).sdiv 3 =
        ((v1.position.add v2.position).add v3.position).sdiv 3 := by
      rcases mem_orders hw with h | h | h | h | h | h <;> subst h <;>
        simp only [Vec3.add, Vec3.sdiv] <;>
        exact Vec3.eq_of_components (by ring) (by ring) (by ring)
    rw [draw_triangle_flat_frags_box R M w.1 w.2.1 w.2.2 _ _ _ _ hdw,
      draw_triangle_flat_frags_box R M v1 v2 v3 _ _ _ _ hd, hc]
    exact flat_box_order v1.position v2.position v3.position _ hd
      (w.1.position, w.2.1.position, w.2.2.position) hpos
  refine ⟨fun w hw => ⟨hfr w hw, ?_⟩, ?_⟩
  · unfold draw_triangle_flat
    simp only [hfr w hw]
  · intro q hq h01 h12
    rw [flat_scan_sorted _ _ _ _ h01 h12, draw_triangle_flat_frags_box R M v1 v2 v3 _ _ _ _ hd]
    exact flat_box_order v1.position v2.position v3.position _ hd q hq

theorem flat_order_independent_witness :
    draw_triangle_flat_frags (Renderer.init 4 4) ratLibm
        ⟨⟨0, 0, 0⟩, ⟨0, 0, 1⟩, ⟨1, 1, 1⟩⟩ ⟨⟨2, 0, 1⟩, ⟨0, 0, 1⟩, ⟨1, 1, 1⟩⟩
        ⟨⟨0, 2, 0⟩, ⟨0, 0, 1⟩, ⟨1, 1, 1⟩⟩ ⟨0, 0, 1⟩ Material.init sampleLights ⟨0, 0, -1⟩ =
      draw_triangle_flat_frags (Renderer.init 4 4) ratLibm
        ⟨⟨2, 0, 1⟩, ⟨0, 0, 1⟩, ⟨1, 1, 1⟩⟩ ⟨⟨0, 0, 0⟩, ⟨0, 0, 1⟩, ⟨1, 1, 1⟩⟩
        ⟨⟨0, 2, 0⟩, ⟨0, 0, 1⟩, ⟨1, 1, 1⟩⟩ ⟨0, 0, 1⟩ Material.init sampleLights ⟨0, 0, -1⟩ :=
  ((flat_order_independent (Renderer.init 4 4) ratLibm
      ⟨⟨2, 0, 1⟩, ⟨0, 0, 1⟩, ⟨1, 1, 1⟩⟩ ⟨⟨0, 0, 0⟩, ⟨0, 0, 1⟩, ⟨1, 1, 1⟩⟩
      ⟨⟨0, 2, 0⟩, ⟨0, 0, 1⟩, ⟨1, 1, 1⟩⟩ ⟨0, 0, 1⟩ Material.init sampleLights ⟨0, 0, -1⟩
      (by decide!)).1
    (⟨⟨0, 0, 0⟩, ⟨0, 0, 1⟩, ⟨1, 1, 1⟩⟩, ⟨⟨2, 0, 1⟩, ⟨0, 0, 1⟩, ⟨1, 1, 1⟩⟩,
      ⟨⟨0, 2, 0⟩, ⟨0, 0, 1⟩, ⟨1, 1, 1⟩⟩)
    (by simp [orders])).1

end Renderer

/-! ## Line drawing -/

namespace Renderer

theorem wrapInt_of_range {n : Int} (h1 : -2147483648 ≤ n) (h2 : n < 2147483648) :
    wrapInt n = n := by
  unfold wrapInt
  omega

/-- One iteration of the `while (true)` loop of `draw_line`. -/
theorem draw_line_loop_succ (color : Vec3 F) (depth : F) (x2 y2 dx dy sx sy : Int) (fuel : Nat)
    (x1 y1 err : Int) :
    draw_line_loop color depth x2 y2 dx dy sx sy (fuel + 1) x1 y1 err =
      if x1 = x2 ∧ y1 = y2 then some [⟨x1, y1, color, depth⟩]
      else
        (draw_line_loop color depth x2 y2 dx dy sx sy fuel
          (draw_line_step dx dy sx sy x1 y1 err).1 (draw_line_step dx dy sx sy x1 y1 err).2.1
          (draw_line_step dx dy sx sy x1 y1 err).2.2).map
          (fun l => ⟨x1, y1, color, depth⟩ :: l) := by
  rw [draw_line_loop]

/-- While `dx`, `dy` are at most `2^29` and the state is within `2^30`, no operation of
the loop body leaves the 32-bit range: the step is the step over the integers. -/
theorem draw_line_step_exact (dx dy sx sy x1 y1 err : Int)
    (hdx : 0 ≤ dx ∧ dx ≤ 536870912) (hdy : 0 ≤ dy ∧ dy ≤ 536870912)
    (hsx : sx = 1 ∨ sx = -1) (hsy : sy = 1 ∨ sy = -1)
    (hx : -1073741824 ≤ x1 ∧ x1 ≤ 1073741824) (hy : -1073741824 ≤ y1 ∧ y1 ≤ 1073741824)
    (he : -1073741824 < err ∧ err < 1073741824) :
    draw_line_step dx dy sx sy x1 y1 err =
      (if 2 * err > -dy then x1 + sx else x1, if 2 * err < dx then y1 + sy else y1,
        (if 2 * err > -dy then err - dy else err) + (if 2 * err < dx then dx else 0)) := by
  have w1 : wrapInt (2 * err) = 2 * err := wrapInt_of_range (by omega) (by omega)
  have w2 : wrapInt (-dy) = -dy := wrapInt_of_range (by omega) (by omega)
  have w3 : wrapInt (err - dy) = err - dy := wrapInt_of_range (by omega) (by omega)
  have w4 : wrapInt (x1 + sx) = x1 + sx := by
    rcases hsx with rfl | rfl <;> exact wrapInt_of_range (by omega) (by omega)
  have w5 : wrapInt (y1 + sy) = y1 + sy := by
    rcases hsy with rfl | rfl <;> exact wrapInt_of_range (by omega) (by omega)
  have w6 : wrapInt (err + dx) = err + dx := wrapInt_of_range (by omega) (by omega)
  have w7 : wrapInt (err - dy + dx) = err - dy + dx := wrapInt_of_range (by omega) (by omega)
  unfold draw_line_step
  simp only [w1, w2]
  by_cases ha : 2 * err > -dy <;> by_cases hb : 2 * err < dx <;>
    simp only [ha, hb, if_true, if_false, w3, w4, w5, w6, w7, add_zero]

/-- One iteration of the loop in the range where the 32-bit arithmetic is exact. -/
theorem draw_line_loop_exact (color : Vec3 F) (depth : F) (x2 y2 dx dy sx sy : Int)
    (fuel : Nat) (x1 y1 err : Int)
    (hdx : 0 ≤ dx ∧ dx ≤ 536870912) (hdy : 0 ≤ dy ∧ dy ≤ 536870912)
    (hsx : sx = 1 ∨ sx = -1) (hsy : sy = 1 ∨ sy = -1)
    (hx : -1073741824 ≤ x1 ∧ x1 ≤ 1073741824) (hy : -1073741824 ≤ y1 ∧ y1 ≤ 1073741824)
    (he : -1073741824 < err ∧ err < 1073741824) :
    draw_line_loop color depth x2 y2 dx dy sx sy (fuel + 1) x1 y1 err =
      if x1 = x2 ∧ y1 = y2 then some [⟨x1, y1, color, depth⟩]
      else
        (draw_line_loop color depth x2 y2 dx dy sx sy fuel
          (if 2 * err > -dy then x1 + sx else x1) (if 2 * err < dx then y1 + sy else y1)
          ((if 2 * err > -dy then err - dy else err) + (if 2 * err < dx then dx else 0))).map
          (fun l => ⟨x1, y1, color, depth⟩ :: l) := by
  rw [draw_line_loop_succ, draw_line_step_exact dx dy sx sy x1 y1 err hdx hdy hsx hsy hx hy he]

/-- The calls of the first `n` iterations are the beginning of the calls of a run that
reaches the `break`. -/
theorem draw_line_calls_prefix (color : Vec3 F) (depth : F) (x2 y2 dx dy sx sy : Int) :
    ∀ (fuel : Nat) (x1 y1 err : Int) (l : List (Fragment F)),
      draw_line_loop color depth x2 y2 dx dy sx sy fuel x1 y1 err = some l →
      ∀ n, draw_line_calls color depth x2 y2 dx dy sx sy n x1 y1 err <+: l := by
  intro fuel
  induction fuel with
  | zero => intro x1 y1 err l h; simp [draw_line_loop] at h
  | succ fuel ih =>
    intro x1 y1 err l h n
    rw [draw_line_loop_succ] at h
    cases n with
    | zero => exact List.nil_prefix
    | succ n =>
      rw [draw_line_calls]
      by_cases hend : x1 = x2 ∧ y1 = y2
      · rw [if_pos hend] at h ⊢
        obtain rfl := Option.some.inj h
        exact List.prefix_refl _
      · rw [if_neg hend] at h ⊢
        rw [Option.map_eq_some'] at h
        obtain ⟨l', hl', rfl⟩ := h
        exact (List.prefix_cons_inj _).mpr (ih _ _ _ l' hl' n)

theorem lineRun_single (color : Vec3 F) (depth : F) (x2 y2 sx sy : Int) :
    LineRun color depth x2 y2 sx sy 0 0 0 [⟨x2, y2, color, depth⟩] := by
  refine ⟨rfl, by simp, rfl, ?_, List.chain'_singleton _, List.pairwise_singleton _ _⟩
  intro fr hfr
  rw [List.mem_singleton] at hfr
  subst hfr
  exact ⟨rfl, rfl, 0, 0, le_rfl, le_rfl, le_rfl, le_rfl, by simp, by simp⟩

/-- Putting the current pixel in front of the calls made from the next state. -/
theorem lineRun_cons (color : Vec3 F) (depth : F) (x2 y2 sx sy : Int)
    (hsx : sx = 1 ∨ sx = -1) (hsy : sy = 1 ∨ sy = -1) (rx ry rx' ry' : Int)
    (hx : rx' = rx ∨ rx' = rx - 1) (hy : ry' = ry ∨ ry' = ry - 1) (hne : rx' ≠ rx ∨ ry' ≠ ry)
    (steps : Nat) (l : List (Fragment F))
    (h : LineRun color depth x2 y2 sx sy rx' ry' steps l) :
    LineRun color depth x2 y2 sx sy rx ry (steps + 1)
      (⟨x2 - sx * rx, y2 - sy * ry, color, depth⟩ :: l) := by
  obtain ⟨hlen, hhead, hlast, hmem, hchain, hpair⟩ := h
  obtain ⟨b, t, rfl⟩ : ∃ b t, l = b :: t := by
    cases l with
    | nil => simp at hlen
    | cons b t => exact ⟨b, t, rfl⟩
  have hb : b = ⟨x2 - sx * rx', y2 - sy * ry', color, depth⟩ := by
    simpa using hhead
  obtain ⟨_, _, a0, b0, ha0, ha0', hb0, hb0', _, _⟩ := hmem b (List.mem_cons_self _ _)
  have hrx' : 0 ≤ rx' := ha0.trans ha0'
  have hry' : 0 ≤ ry' := hb0.trans hb0'
  refine ⟨by simp [hlen], rfl, ?_, ?_, ?_, ?_⟩
  · rw [List.getLast?_cons_cons]; exact hlast
  · intro fr hfr
    rcases List.mem_cons.mp hfr with hfr | hfr
    · subst hfr
      exact ⟨rfl, rfl, rx, ry, by omega, le_rfl, by omega, le_rfl, rfl, rfl⟩
    · obtain ⟨hc, hd, a1, b1, h1, h2, h3, h4, h5, h6⟩ := hmem fr hfr
      exact ⟨hc, hd, a1, b1, h1, by omega, h3, by omega, h5, h6⟩
  · rw [List.chain'_cons]
    refine ⟨?_, hchain⟩
    rw [hb]
    constructor
    · show |x2 - sx * rx' - (x2 - sx * rx)| ≤ 1
      rw [abs_le]
      rcases hsx with rfl | rfl <;> rcases hx with rfl | rfl <;> constructor <;> omega
    · show |y2 - sy * ry' - (y2 - sy * ry)| ≤ 1
      rw [abs_le]
      rcases hsy with rfl | rfl <;> rcases hy with rfl | rfl <;> constructor <;> omega
  · rw [List.pairwise_cons]
    refine ⟨?_, hpair⟩
    intro fr hfr hsame
    obtain ⟨_, _, a1, b1, h1, h2, h3, h4, h5, h6⟩ := hmem fr hfr
    obtain ⟨e1, e2⟩ := hsame
    have e1' : x2 - sx * rx = x2 - sx * a1 := e1.trans h5
    have e2' : y2 - sy * ry = y2 - sy * b1 := e2.trans h6
    rcases hsx with rfl | rfl <;> rcases hsy with rfl | rfl <;> omega

/-- The loop from a state of an `x`-major line (`dy ≤ dx`, `dx > 0`) that is `n` steps in
`x` away from the end point, for end points and `dx` within `2^29`. -/
theorem draw_line_loop_xmajor (color : Vec3 F) (depth : F) (x2 y2 dx dy sx sy : Int)
    (hsx : sx = 1 ∨ sx = -1) (hsy : sy = 1 ∨ sy = -1) (hdx : 0 < dx) (hdy : 0 ≤ dy)
    (hle : dy ≤ dx) (hB : dx ≤ 536870912)
    (hx2 : -536870912 ≤ x2 ∧ x2 ≤ 536870912) (hy2 : -536870912 ≤ y2 ∧ y2 ≤ 536870912) :
    ∀ (n : Nat) (ry D : Int), (n : Int) ≤ dx → 0 ≤ ry → ry ≤ dy → D = ry * dx - n * dy →
      -dx < 2 * D → 2 * D ≤ dx → 2 * D < 2 * dx - dy →
      ∃ l, (∀ fuel, n < fuel →
          draw_line_loop color depth x2 y2 dx dy sx sy fuel (x2 - sx * n) (y2 - sy * ry)
            (dx - dy - D) = some l) ∧
        LineRun color depth x2 y2 sx sy n ry n l := by
  intro n
  induction n with
  | zero =>
    intro ry D _ hry _ hD h1 h2 h3
    have hry0 : ry = 0 := by
      by_contra hne
      have h1' : 1 ≤ ry := by omega
      have hm : 0 ≤ (ry - 1) * dx := mul_nonneg (by omega) hdx.le
      simp only [Nat.cast_zero, zero_mul, sub_zero] at hD
      nlinarith
    subst hry0
    refine ⟨[⟨x2, y2, color, depth⟩], ?_, by simpa using lineRun_single color depth x2 y2 sx sy⟩
    intro fuel hf
    obtain ⟨f, rfl⟩ : ∃ f, fuel = f + 1 := ⟨fuel - 1, by omega⟩
    rw [draw_line_loop_succ]
    simp
  | succ n ih =>
    intro ry D hn hry hryd hD h1 h2 h3
    have hn' : ((n : Nat) : Int) + 1 ≤ dx := by push_cast at hn; exact hn
    have hxne : ¬ (x2 - sx * ((n + 1 : Nat) : Int) = x2 ∧ y2 - sy * ry = y2) := by
      rintro ⟨e, _⟩
      rcases hsx with rfl | rfl <;> omega
    have hxstep : 2 * (dx - dy - D) > -dy := by omega
    have ex : x2 - sx * ((n + 1 : Nat) : Int) + sx = x2 - sx * (n : Int) := by
      push_cast; ring
    have hxr : -1073741824 ≤ x2 - sx * ((n + 1 : Nat) : Int) ∧
        x2 - sx * ((n + 1 : Nat) : Int) ≤ 1073741824 := by
      push_cast
      rcases hsx with rfl | rfl <;> constructor <;> omega
    have hyr : -1073741824 ≤ y2 - sy * ry ∧ y2 - sy * ry ≤ 1073741824 := by
      rcases hsy with rfl | rfl <;> constructor <;> omega
    have her : -1073741824 < dx - dy - D ∧ dx - dy - D < 1073741824 := by
      constructor <;> omega
    have hstep := fun f => draw_line_loop_exact color depth x2 y2 dx dy sx sy f
      (x2 - sx * ((n + 1 : Nat) : Int)) (y2 - sy * ry) (dx - dy - D) ⟨hdx.le, hB⟩
      ⟨hdy, by omega⟩ hsx hsy hxr hyr her
    by_cases hy : 2 * (dx - dy - D) < dx
    · have hry1 : 1 ≤ ry := by
        by_contra hcon
        have hry0 : ry = 0 := by omega
        subst hry0
        have hm : 0 ≤ (n : Int) * dy := mul_nonneg (by omega) hdy
        push_cast at hD
        nlinarith
      obtain ⟨l, hl, hrun⟩ := ih (ry - 1) (D + dy - dx) (by omega) (by omega) (by omega)
        (by rw [hD]; push_cast; ring) (by omega) (by omega) (by omega)
      refine ⟨⟨x2 - sx * ((n + 1 : Nat) : Int), y2 - sy * ry, color, depth⟩ :: l, ?_, ?_⟩
      · intro fuel hf
        obtain ⟨f, rfl⟩ : ∃ f, fuel = f + 1 := ⟨fuel - 1, by omega⟩
        have ey : y2 - sy * ry + sy = y2 - sy * (ry - 1) := by ring
        have ee : dx - dy - D - dy + dx = dx - dy - (D + dy - dx) := by ring
        rw [hstep f, if_neg hxne, if_pos hxstep, if_pos hy, if_pos hxstep,
          if_pos hy, ex, ey, ee, hl f (by omega)]
        rfl
      · exact lineRun_cons color depth x2 y2 sx sy hsx hsy _ _ _ _
          (Or.inr (by push_cast; ring)) (Or.inr rfl) (Or.inl (by push_cast; omega)) n l hrun
    · obtain ⟨l, hl, hrun⟩ := ih ry (D + dy) (by omega) hry hryd
        (by rw [hD]; push_cast; ring) (by omega) (by omega) (by omega)
      refine ⟨⟨x2 - sx * ((n + 1 : Nat) : Int), y2 - sy * ry, color, depth⟩ :: l, ?_, ?_⟩
      · intro fuel hf
        obtain ⟨f, rfl⟩ : ∃ f, fuel = f + 1 := ⟨fuel - 1, by omega⟩
        have ee : dx - dy - D - dy + 0 = dx - dy - (D + dy) := by ring
        rw [hstep f, if_neg hxne, if_pos hxstep, if_neg hy, if_pos hxstep,
          if_neg hy, ex, ee, hl f (by omega)]
        rfl
      · exact lineRun_cons color depth x2 y2 sx sy hsx hsy _ _ _ _
          (Or.inr (by push_cast; ring)) (Or.inl rfl) (Or.inl (by push_cast; omega)) n l hrun

/-- The loop from a state of a `y`-major line (`dx < dy`) that is `n` steps in `y` away
from the end point, for end points and `dy` within `2^29`. -/
theorem draw_line_loop_ymajor (color : Vec3 F) (depth : F) (x2 y2 dx dy sx sy : Int)
    (hsx : sx = 1 ∨ sx = -1) (hsy : sy = 1 ∨ sy = -1) (hdx : 0 ≤ dx) (hlt : dx < dy)
    (hB : dy ≤ 536870912)
    (hx2 : -536870912 ≤ x2 ∧ x2 ≤ 536870912) (hy2 : -536870912 ≤ y2 ∧ y2 ≤ 536870912) :
    ∀ (n : Nat) (rx D : Int), (n : Int) ≤ dy → 0 ≤ rx → rx ≤ dx → D = n * dx - rx * dy →
      -dy ≤ 2 * D → 2 * D < dy →
      ∃ l, (∀ fuel, n < fuel →
          draw_line_loop color depth x2 y2 dx dy sx sy fuel (x2 - sx * rx) (y2 - sy * n)
            (dx - dy - D) = some l) ∧
        LineRun color depth x2 y2 sx sy rx n n l := by
  intro n
  induction n with
  | zero =>
    intro rx D _ hrx _ hD h1 h2
    have hrx0 : rx = 0 := by
      by_contra hne
      have hm : 0 ≤ (rx - 1) * dy := mul_nonneg (by omega) (by omega)
      simp only [Nat.cast_zero, zero_mul, zero_sub] at hD
      nlinarith
    subst hrx0
    refine ⟨[⟨x2, y2, color, depth⟩], ?_, by simpa using lineRun_single color depth x2 y2 sx sy⟩
    intro fuel hf
    obtain ⟨f, rfl⟩ : ∃ f, fuel = f + 1 := ⟨fuel - 1, by omega⟩
    rw [draw_line_loop_succ]
    simp
  | succ n ih =>
    intro rx D hn hrx hrxd hD h1 h2
    have hn' : ((n : Nat) : Int) + 1 ≤ dy := by push_cast at hn; exact hn
    have hne : ¬ (x2 - sx * rx = x2 ∧ y2 - sy * ((n + 1 : Nat) : Int) = y2) := by
      rintro ⟨_, e⟩
      rcases hsy with rfl | rfl <;> omega
    have hystep : 2 * (dx - dy - D) < dx := by omega
    have ey : y2 - sy * ((n + 1 : Nat) : Int) + sy = y2 - sy * (n : Int) := by
      push_cast; ring
    have hxr : -1073741824 ≤ x2 - sx * rx ∧ x2 - sx * rx ≤ 1073741824 := by
      rcases hsx with rfl | rfl <;> constructor <;> omega
    have hyr : -1073741824 ≤ y2 - sy * ((n + 1 : Nat) : Int) ∧
        y2 - sy * ((n + 1 : Nat) : Int) ≤ 1073741824 := by
      push_cast
      rcases hsy with rfl | rfl <;> constructor <;> omega
    have her : -1073741824 < dx - dy - D ∧ dx - dy - D < 1073741824 := by
      constructor <;> omega
    have hstep := fun f => draw_line_loop_exact color depth x2 y2 dx dy sx sy f
      (x2 - sx * rx) (y2 - sy * ((n + 1 : Nat) : Int)) (dx - dy - D) ⟨hdx, by omega⟩
      ⟨by omega, hB⟩ hsx hsy hxr hyr her
    by_cases hx : 2 * (dx - dy - D) > -dy
    · have hrx1 : 1 ≤ rx := by
        by_contra hcon
        have hrx0 : rx = 0 := by omega
        subst hrx0
        have hm : 0 ≤ (n : Int) * dx := mul_nonneg (by omega) hdx
        push_cast at hD
        nlinarith
      obtain ⟨l, hl, hrun⟩ := ih (rx - 1) (D + dy - dx) (by omega) (by omega) (by omega)
        (by rw [hD]; push_cast; ring) (by omega) (by omega)
      refine ⟨⟨x2 - sx * rx, y2 - sy * ((n + 1 : Nat) : Int), color, depth⟩ :: l, ?_, ?_⟩
      · intro fuel hf
        obtain ⟨f, rfl⟩ : ∃ f, fuel = f + 1 := ⟨fuel - 1, by omega⟩
        have ex : x2 - sx * rx + sx = x2 - sx * (rx - 1) := by ring
        have ee : dx - dy - D - dy + dx = dx - dy - (D + dy - dx) := by ring
        rw [hstep f, if_neg hne, if_pos hx, if_pos hystep, if_pos hx,
          if_pos hystep, ex, ey, ee, hl f (by omega)]
        rfl
      · exact lineRun_cons color depth x2 y2 sx sy hsx hsy _ _ _ _
          (Or.inr rfl) (Or.inr (by push_cast; ring)) (Or.inl (by omega)) n l hrun
    · obtain ⟨l, hl, hrun⟩ := ih rx (D - dx) (by omega) hrx hrxd
        (by rw [hD]; push_cast; ring) (by omega) (by omega)
      refine ⟨⟨x2 - sx * rx, y2 - sy * ((n + 1 : Nat) : Int), color, depth⟩ :: l, ?_, ?_⟩
      · intro fuel hf
        obtain ⟨f, rfl⟩ : ∃ f, fuel = f + 1 := ⟨fuel - 1, by omega⟩
        have ee : dx - dy - D + dx = dx - dy - (D - dx) := by ring
        rw [hstep f, if_neg hne, if_neg hx, if_pos hystep, if_neg hx,
          if_pos hystep, ey, ee, hl f (by omega)]
        rfl
      · exact lineRun_cons color depth x2 y2 sx sy hsx hsy _ _ _ _
          (Or.inl rfl) (Or.inr (by push_cast; ring)) (Or.inr (by push_cast; omega)) n l hrun

/-- The calls of `draw_line` for two end points whose truncated coordinates `(x1, y1)` and
`(x2, y2)` are within `2^28`: with more than `max |x2 - x1| |y2 - y1|` iterations allowed
the loop reaches its `break`, and the calls form a path from `(x1, y1)` to `(x2, y2)`. -/
theorem draw_line_frags_path (p1 p2 color : Vec3 F) (hp1 : PixelBound p1)
    (hp2 : PixelBound p2) :
    ∃ l, (∀ fuel, (max |truncInt p2.x - truncInt p1.x| |truncInt p2.y - truncInt p1.y|).toNat
          < fuel → draw_line_frags fuel p1 p2 color = some l) ∧
      LineRun color p1.z (truncInt p2.x) (truncInt p2.y)
        (if truncInt p1.x < truncInt p2.x then 1 else -1)
        (if truncInt p1.y < truncInt p2.y then 1 else -1)
        |truncInt p2.x - truncInt p1.x| |truncInt p2.y - truncInt p1.y|
        (max |truncInt p2.x - truncInt p1.x| |truncInt p2.y - truncInt p1.y|).toNat l := by
  obtain ⟨b1x, b1y⟩ := hp1
  obtain ⟨b2x, b2y⟩ := hp2
  rw [abs_le] at b1x b1y b2x b2y
  have hfr : ∀ fuel, draw_line_frags fuel p1 p2 color =
      draw_line_loop color p1.z (truncInt p2.x) (truncInt p2.y)
        |truncInt p2.x - truncInt p1.x| |truncInt p2.y - truncInt p1.y|
        (if truncInt p1.x < truncInt p2.x then 1 else -1)
        (if truncInt p1.y < truncInt p2.y then 1 else -1) fuel (truncInt p1.x) (truncInt p1.y)
        (|truncInt p2.x - truncInt p1.x| - |truncInt p2.y - truncInt p1.y|) := by
    intro fuel
    have c1 : castInt p1.x = truncInt p1.x := wrapInt_of_range (by omega) (by omega)
    have c2 : castInt p1.y = truncInt p1.y := wrapInt_of_range (by omega) (by omega)
    have c3 : castInt p2.x = truncInt p2.x := wrapInt_of_range (by omega) (by omega)
    have c4 : castInt p2.y = truncInt p2.y := wrapInt_of_range (by omega) (by omega)
    have ax := abs_le.mpr (⟨by omega, by omega⟩ :
      -536870912 ≤ truncInt p2.x - truncInt p1.x ∧ truncInt p2.x - truncInt p1.x ≤ 536870912)
    have ay := abs_le.mpr (⟨by omega, by omega⟩ :
      -536870912 ≤ truncInt p2.y - truncInt p1.y ∧ truncInt p2.y - truncInt p1.y ≤ 536870912)
    have ax0 := abs_nonneg (truncInt p2.x - truncInt p1.x)
    have ay0 := abs_nonneg (truncInt p2.y - truncInt p1.y)
    have w1 : wrapInt (truncInt p2.x - truncInt p1.x) = truncInt p2.x - truncInt p1.x :=
      wrapInt_of_range (by omega) (by omega)
    have w2 : wrapInt (truncInt p2.y - truncInt p1.y) = truncInt p2.y - truncInt p1.y :=
      wrapInt_of_range (by omega) (by omega)
    have w3 : wrapInt |truncInt p2.x - truncInt p1.x| = |truncInt p2.x - truncInt p1.x| :=
      wrapInt_of_range (by omega) (by omega)
    have w4 : wrapInt |truncInt p2.y - truncInt p1.y| = |truncInt p2.y - truncInt p1.y| :=
      wrapInt_of_range (by omega) (by omega)
    have w5 : wrapInt (|truncInt p2.x - truncInt p1.x| - |truncInt p2.y - truncInt p1.y|) =
        |truncInt p2.x - truncInt p1.x| - |truncInt p2.y - truncInt p1.y| :=
      wrapInt_of_range (by omega) (by omega)
    simp only [draw_line_frags, c1, c2, c3, c4, w1, w2, w3, w4, w5]
  generalize hx1 : truncInt p1.x = x1 at hfr b1x ⊢
  generalize hy1 : truncInt p1.y = y1 at hfr b1y ⊢
  generalize hx2 : truncInt p2.x = x2 at hfr b2x ⊢
  generalize hy2 : truncInt p2.y = y2 at hfr b2y ⊢
  have ex1 : x1 = x2 - (if x1 < x2 then 1 else -1) * |x2 - x1| := by
    split_ifs with h
    · rw [abs_of_pos (by omega)]; ring
    · rw [abs_of_nonpos (by omega)]; ring
  have ey1 : y1 = y2 - (if y1 < y2 then 1 else -1) * |y2 - y1| := by
    split_ifs with h
    · rw [abs_of_pos (by omega)]; ring
    · rw [abs_of_nonpos (by omega)]; ring
  have hdxB : |x2 - x1| ≤ 536870912 := abs_le.mpr ⟨by omega, by omega⟩
  have hdyB : |y2 - y1| ≤ 536870912 := abs_le.mpr ⟨by omega, by omega⟩
  generalize hsx : (if x1 < x2 then (1 : Int) else -1) = sx at hfr ex1 ⊢
  generalize hsy : (if y1 < y2 then (1 : Int) else -1) = sy at hfr ey1 ⊢
  generalize hdx : |x2 - x1| = dx at hfr ex1 hdxB ⊢
  generalize hdy : |y2 - y1| = dy at hfr ey1 hdyB ⊢
  have hsx' : sx = 1 ∨ sx = -1 := by
    rw [← hsx]; split_ifs <;> simp
  have hsy' : sy = 1 ∨ sy = -1 := by
    rw [← hsy]; split_ifs <;> simp
  have hdx0 : 0 ≤ dx := by rw [← hdx]; exact abs_nonneg _
  have hdy0 : 0 ≤ dy := by rw [← hdy]; exact abs_nonneg _
  by_cases hmaj : dy ≤ dx
  · have hmax : max dx dy = dx := max_eq_left hmaj
    rw [hmax]
    by_cases hz : dx = 0
    · have hdyz : dy = 0 := by omega
      subst hz
      subst hdyz
      have e1 : x1 = x2 := by simpa using ex1
      have e2 : y1 = y2 := by simpa using ey1
      refine ⟨[⟨x2, y2, color, p1.z⟩], ?_, by simpa using lineRun_single color p1.z x2 y2 sx sy⟩
      intro fuel hf
      obtain ⟨f, rfl⟩ : ∃ f, fuel = f + 1 := ⟨fuel - 1, by omega⟩
      rw [hfr, draw_line_loop_succ, e1, e2]
      simp
    · obtain ⟨l, hl, hrun⟩ := draw_line_loop_xmajor color p1.z x2 y2 dx dy sx sy hsx' hsy'
        (by omega) hdy0 hmaj hdxB ⟨by omega, by omega⟩ ⟨by omega, by omega⟩ dx.toNat dy 0
        (by rw [Int.toNat_of_nonneg hdx0]) hdy0 le_rfl
        (by rw [Int.toNat_of_nonneg hdx0]; ring) (by omega) (by omega) (by omega)
      rw [Int.toNat_of_nonneg hdx0] at hl hrun
      refine ⟨l, ?_, hrun⟩
      intro fuel hf
      rw [hfr, ex1, ey1]
      have := hl fuel hf
      simpa using this
  · have hlt : dx < dy := by omega
    have hmax : max dx dy = dy := max_eq_right hlt.le
    rw [hmax]
    obtain ⟨l, hl, hrun⟩ := draw_line_loop_ymajor color p1.z x2 y2 dx dy sx sy hsx' hsy'
      hdx0 hlt hdyB ⟨by omega, by omega⟩ ⟨by omega, by omega⟩ dy.toNat dx 0
      (by rw [Int.toNat_of_nonneg hdy0]) hdx0 le_rfl
      (by rw [Int.toNat_of_nonneg hdy0]; ring) (by omega) (by omega)
    rw [Int.toNat_of_nonneg hdy0] at hl hrun
    refine ⟨l, ?_, hrun⟩
    intro fuel hf
    rw [hfr, ex1, ey1]
    have := hl fuel hf
    simpa using this

theorem line_start (x1 x2 : Int) :
    x2 - (if x1 < x2 then 1 else -1) * |x2 - x1| = x1 := by
  split_ifs with h
  · rw [abs_of_pos (by omega)]; ring
  · rw [abs_of_nonpos (by omega)]; ring

theorem line_box (x1 x2 a v : Int) (h0 : 0 ≤ a) (h1 : a ≤ |x2 - x1|)
    (hv : v = x2 - (if x1 < x2 then 1 else -1) * a) : min x1 x2 ≤ v ∧ v ≤ max x1 x2 := by
  subst hv
  rw [min_le_iff, le_max_iff]
  split_ifs with h
  · rw [abs_of_pos (by omega)] at h1
    constructor
    · left; omega
    · right; omega
  · rw [abs_of_nonpos (by omega)] at h1
    constructor
    · right; omega
    · left; omega

theorem draw_line_first_calls_prefix (fuel n : Nat) (p1 p2 color : Vec3 F)
    (l : List (Fragment F)) (h : draw_line_frags fuel p1 p2 color = some l) :
    draw_line_first_calls n p1 p2 color <+: l :=
  draw_line_calls_prefix _ _ _ _ _ _ _ _ fuel _ _ _ l h n

/-- For the line from `(0, 0)` to `(2^30, 0)` the loop never advances in `x`: `2 * err`
overflows in the first iteration, and `err` then cycles through four values. -/
theorem draw_line_loop_stuck (color : Vec3 F) (depth : F) :
    ∀ (fuel : Nat) (y err : Int),
      err = 1073741824 ∨ err = -2147483648 ∨ err = -1073741824 ∨ err = 0 →
      draw_line_loop color depth 1073741824 0 1073741824 0 1 (-1) fuel 0 y err = none := by
  intro fuel
  induction fuel with
  | zero => intro y err _; rfl
  | succ fuel ih =>
    intro y err herr
    have hne : ¬ ((0 : Int) = 1073741824 ∧ y = 0) := fun h => absurd h.1 (by decide)
    rw [draw_line_loop_succ, if_neg hne]
    rcases herr with rfl | rfl | rfl | rfl
    · have e : draw_line_step 1073741824 0 1 (-1) 0 y 1073741824 =
          (0, wrapInt (y + -1), -2147483648) := by
        simp [draw_line_step, wrapInt]
      rw [e, ih _ _ (Or.inr (Or.inl rfl))]
      rfl
    · have e : draw_line_step 1073741824 0 1 (-1) 0 y (-2147483648) =
          (0, wrapInt (y + -1), -1073741824) := by
        simp [draw_line_step, wrapInt]
      rw [e, ih _ _ (Or.inr (Or.inr (Or.inl rfl)))]
      rfl
    · have e : draw_line_step 1073741824 0 1 (-1) 0 y (-1073741824) =
          (0, wrapInt (y + -1), 0) := by
        simp [draw_line_step, wrapInt]
      rw [e, ih _ _ (Or.inr (Or.inr (Or.inr rfl)))]
      rfl
    · have e : draw_line_step 1073741824 0 1 (-1) 0 y 0 =
          (0, wrapInt (y + -1), 1073741824) := by
        simp [draw_line_step, wrapInt]
      rw [e, ih _ _ (Or.inl rfl)]
      rfl

/-- C25 (counterexample to the claim as worded): for the end points `(0, 0)` and
`(1073741824, 0)`, both valid `int` pixel coordinates, `2 * err` overflows the 32-bit
`int` in the first iteration; the loop then steps in `y` only, `x1` stays `0`, and the
`break` is never reached, however many iterations are allowed. -/
theorem draw_line_overflow_never_returns :
    (∀ fuel : Nat,
      draw_line_frags fuel (⟨0, 0, 0⟩ : Vec3 ℚ) ⟨1073741824, 0, 0⟩ ⟨1, 1, 1⟩ = none) ∧
    (draw_line_first_calls 5 (⟨0, 0, 0⟩ : Vec3 ℚ) ⟨1073741824, 0, 0⟩ ⟨1, 1, 1⟩).map
      (fun fr => (fr.x, fr.y)) = [(0, 0), (0, -1), (0, -2), (0, -3), (0, -4)] := by
  constructor
  · intro fuel
    have e : draw_line_frags fuel (⟨0, 0, 0⟩ : Vec3 ℚ) ⟨1073741824, 0, 0⟩ ⟨1, 1, 1⟩ =
        draw_line_loop (⟨1, 1, 1⟩ : Vec3 ℚ) 0 1073741824 0 1073741824 0 1 (-1) fuel 0 0
          1073741824 := by
      have c0 : castInt (0 : ℚ) = 0 := by decide!
      have c1 : castInt (1073741824 : ℚ) = 1073741824 := by decide!
      simp only [draw_line_frags, c0, c1]
      rfl
    rw [e]
    exact draw_line_loop_stuck _ _ fuel 0 1073741824 (Or.inl rfl)
  · decide!

/-- C25: `draw_line` terminates and ends on the target. For every pair of end points
whose truncated pixel coordinates `(x1, y1)` and `(x2, y2)` are at most `2^28` in absolute
value (in any octant, coincident or not) the loop reaches its `break` within
`max |x2 - x1| |y2 - y1| + 1` iterations; the first `set_pixel` call is at `(x1, y1)`, the
last at `(x2, y2)`, and every call carries the depth `p1.z` of the first end point. -/
theorem draw_line_terminates_on_target (R : Renderer F) (p1 p2 color : Vec3 F)
    (hp1 : PixelBound p1) (hp2 : PixelBound p2) :
    ∃ l : List (Fragment F),
      (∀ fuel, (max |truncInt p2.x - truncInt p1.x| |truncInt p2.y - truncInt p1.y|).toNat
          < fuel →
        draw_line_frags fuel p1 p2 color = some l ∧
        draw_line R fuel p1 p2 color =
          some { R with framebuffer := R.framebuffer.submitAll l }) ∧
      l.head? = some ⟨truncInt p1.x, truncInt p1.y, color, p1.z⟩ ∧
      l.getLast? = some ⟨truncInt p2.x, truncInt p2.y, color, p1.z⟩ ∧
      ∀ fr ∈ l, fr.depth = p1.z := by
  obtain ⟨l, hl, _, hhead, hlast, hmem, _, _⟩ := draw_line_frags_path p1 p2 color hp1 hp2
  refine ⟨l, ?_, ?_, hlast, fun fr hfr => (hmem fr hfr).2.1⟩
  · intro fuel hf
    refine ⟨hl fuel hf, ?_⟩
    unfold draw_line
    rw [hl fuel hf]
    rfl
  · rw [hhead, line_start, line_start]

theorem draw_line_terminates_on_target_witness :
    ∃ l : List (Fragment ℚ),
      draw_line_frags 4 ⟨0, 0, 1 / 2⟩ ⟨3, -1, 0⟩ ⟨1, 1, 1⟩ = some l ∧
      l.head? = some ⟨0, 0, ⟨1, 1, 1⟩, 1 / 2⟩ ∧ l.getLast? = some ⟨3, -1, ⟨1, 1, 1⟩, 1 / 2⟩ := by
  obtain ⟨l, hl, hh, ht, _⟩ := draw_line_terminates_on_target (Renderer.init 4 4)
    (⟨0, 0, 1 / 2⟩ : Vec3 ℚ) ⟨3, -1, 0⟩ ⟨1, 1, 1⟩ ⟨by decide!, by decide!⟩
    ⟨by decide!, by decide!⟩
  exact ⟨l, (hl 4 (by decide!)).1, hh.trans (by decide!), ht.trans (by decide!)⟩

/-- C26 (counterexample to the claim as worded): for the end points `(0, 0)` and
`(1500000000, 0)`, both valid `int` pixel coordinates, `2 * err` overflows the 32-bit
`int` in the first iteration and the second `set_pixel` call is at `(0, -1)`, outside the
bounding box `0 ≤ x ≤ 1500000000`, `y = 0` of the end points; every run that reaches the
`break` contains that call. -/
theorem draw_line_overflow_leaves_box :
    (draw_line_first_calls 2 (⟨0, 0, 0⟩ : Vec3 ℚ) ⟨1500000000, 0, 0⟩ ⟨1, 1, 1⟩).map
      (fun fr => (fr.x, fr.y)) = [(0, 0), (0, -1)] ∧
    (∀ (fuel : Nat) (l : List (Fragment ℚ)),
      draw_line_frags fuel (⟨0, 0, 0⟩ : Vec3 ℚ) ⟨1500000000, 0, 0⟩ ⟨1, 1, 1⟩ = some l →
      ∃ fr ∈ l, fr.x = 0 ∧ fr.y = -1 ∧
        fr.y < min (truncInt (0 : ℚ)) (truncInt (0 : ℚ))) := by
  have hcalls : draw_line_first_calls 2 (⟨0, 0, 0⟩ : Vec3 ℚ) ⟨1500000000, 0, 0⟩ ⟨1, 1, 1⟩ =
      [⟨0, 0, ⟨1, 1, 1⟩, 0⟩, ⟨0, -1, ⟨1, 1, 1⟩, 0⟩] := by decide!
  refine ⟨by rw [hcalls]; rfl, ?_⟩
  intro fuel l hl
  have hp := draw_line_first_calls_prefix fuel 2 _ _ _ l hl
  rw [hcalls] at hp
  refine ⟨⟨0, -1, ⟨1, 1, 1⟩, 0⟩, hp.subset (by simp), rfl, rfl, by decide!⟩

/-- C26: the shape of the path of `draw_line`. For end points whose truncated pixel
coordinates are at most `2^28` in absolute value, with `dx = |x2 - x1|` and
`dy = |y2 - y1|`, `draw_line` makes exactly `max dx dy + 1` `set_pixel` calls; consecutive
calls differ by at most `1` in `x` and at most `1` in `y`, no pixel is addressed twice,
and every call lies in the bounding box of the two end points. -/
theorem draw_line_path_shape (p1 p2 color : Vec3 F) (hp1 : PixelBound p1)
    (hp2 : PixelBound p2) :
    ∃ l : List (Fragment F),
      (∀ fuel, (max |truncInt p2.x - truncInt p1.x| |truncInt p2.y - truncInt p1.y|).toNat
          < fuel → draw_line_frags fuel p1 p2 color = some l) ∧
      (l.length : Int) =
        max |truncInt p2.x - truncInt p1.x| |truncInt p2.y - truncInt p1.y| + 1 ∧
      l.Chain' Adjacent ∧
      l.Pairwise (fun p q => ¬ SamePixel p q) ∧
      ∀ fr ∈ l, (min (truncInt p1.x) (truncInt p2.x) ≤ fr.x ∧
          fr.x ≤ max (truncInt p1.x) (truncInt p2.x)) ∧
        (min (truncInt p1.y) (truncInt p2.y) ≤ fr.y ∧
          fr.y ≤ max (truncInt p1.y) (truncInt p2.y)) := by
  obtain ⟨l, hl, hlen, _, _, hmem, hchain, hpair⟩ := draw_line_frags_path p1 p2 color hp1 hp2
  refine ⟨l, hl, ?_, hchain, hpair, ?_⟩
  · rw [hlen]
    push_cast
    rw [Int.toNat_of_nonneg (le_max_of_le_left (abs_nonneg _))]
  · intro fr hfr
    obtain ⟨_, _, a, b, ha0, ha1, hb0, hb1, hx, hy⟩ := hmem fr hfr
    exact ⟨line_box _ _ a fr.x ha0 ha1 hx, line_box _ _ b fr.y hb0 hb1 hy⟩

theorem draw_line_path_shape_witness :
    ∃ l : List (Fragment ℚ),
      draw_line_frags 8 ⟨1, 5, 0⟩ ⟨3, 0, 1⟩ ⟨1, 1, 1⟩ = some l ∧ (l.length : Int) = 6 ∧
      l.Chain' Adjacent ∧ l.Pairwise (fun p q => ¬ SamePixel p q) := by
  obtain ⟨l, hl, hlen, hc, hp, _⟩ := draw_line_path_shape (⟨1, 5, 0⟩ : Vec3 ℚ) ⟨3, 0, 1⟩
    ⟨1, 1, 1⟩ ⟨by decide!, by decide!⟩ ⟨by decide!, by decide!⟩
  exact ⟨l, hl 8 (by decide!), hlen.trans (by decide!), hc, hp⟩

end Renderer

/-! ## Wireframe rendering -/

theorem vectorAt_map {α β : Type} (f : α → β) (l : List α) (i : Int) :
    vectorAt (l.map f) i = (vectorAt l i).map f := by
  unfold vectorAt
  split_ifs
  · rw [List.getElem?_map]
  · rfl

namespace Renderer

theorem transform_vertex_position (R : Renderer F) (M : Libm F) (mvp transform : Mat4 F)
    (v : Vertex F) :
    (transform_vertex R M mvp transform v).position = screen_position R mvp v.position := rfl

theorem transformed_positions (R : Renderer F) (M : Libm F) (mesh : Mesh F)
    (camera : Camera F) :
    (transformed_vertices R M mesh camera).map (fun v => v.position) =
      (mesh.vertices.map (fun v => v.position)).map
        (screen_position R
          (((camera.get_projection_matrix M).mul (camera.get_view_matrix M)).mul
            mesh.transform)) := by
  simp only [transformed_vertices, List.map_map]
  rfl

theorem render_triangle_wire (R : Renderer F) (M : Libm F) (fuel : Nat)
    (tv : List (Vertex F)) (mesh : Mesh F) (lights : List (Light F)) (view_dir : Vec3 F)
    (triangle : Triangle F) :
    render_triangle_frags R M fuel tv mesh lights view_dir true triangle =
      wire_triangle_frags fuel (tv.map (fun v => v.position)) (Mesh.indices triangle) := by
  unfold render_triangle_frags wire_triangle_frags
  simp only [vectorAt_map, Mesh.indices]
  cases h1 : vectorAt tv triangle.v0 with
  | none => rfl
  | some v1 =>
    cases h2 : vectorAt tv triangle.v1 with
    | none => rfl
    | some v2 =>
      cases h3 : vectorAt tv triangle.v2 with
      | none => rfl
      | some v3 => rfl

theorem render_mesh_frags_wire (R : Renderer F) (M : Libm F) (fuel : Nat) (mesh : Mesh F)
    (camera : Camera F) (lights : List (Light F)) :
    render_mesh_frags R M fuel mesh camera lights true =
      (mesh.triangles.map Mesh.indices).foldlM
        (fun frs f =>
          (wire_triangle_frags fuel
            ((transformed_vertices R M mesh camera).map (fun v => v.position)) f).map
            (fun l => frs ++ l))
        [] := by
  unfold render_mesh_frags
  rw [List.foldlM_map]
  simp only [render_triangle_wire]

theorem draw_line_loop_color (color : Vec3 F) (depth : F) (x2 y2 dx dy sx sy : Int) :
    ∀ (fuel : Nat) (x1 y1 err : Int) (l : List (Fragment F)),
      draw_line_loop color depth x2 y2 dx dy sx sy fuel x1 y1 err = some l →
      ∀ fr ∈ l, fr.color = color := by
  intro fuel
  induction fuel with
  | zero => intro x1 y1 err l h; simp [draw_line_loop] at h
  | succ fuel ih =>
    intro x1 y1 err l h fr hfr
    rw [draw_line_loop_succ] at h
    by_cases hend : x1 = x2 ∧ y1 = y2
    · rw [if_pos hend] at h
      obtain rfl := Option.some.inj h
      rw [List.mem_singleton] at hfr
      rw [hfr]
    · rw [if_neg hend, Option.map_eq_some'] at h
      obtain ⟨l', hl', rfl⟩ := h
      rcases List.mem_cons.mp hfr with hfr | hfr
      · rw [hfr]
      · exact ih _ _ _ l' hl' fr hfr

theorem wire_triangle_color (fuel : Nat) (positions : List (Vec3 F)) (f : Int × Int × Int)
    (l : List (Fragment F)) (h : wire_triangle_frags fuel positions f = some l) :
    ∀ fr ∈ l, fr.color = ⟨1, 1, 1⟩ := by
  unfold wire_triangle_frags at h
  cases h1 : vectorAt positions f.1 with
  | none => simp [h1] at h
  | some p1 =>
    cases h2 : vectorAt positions f.2.1 with
    | none => simp [h1, h2] at h
    | some p2 =>
      cases h3 : vectorAt positions f.2.2 with
      | none => simp [h1, h2, h3] at h
      | some p3 =>
        simp only [h1, h2, h3, Option.bind_eq_bind, Option.some_bind] at h
        split_ifs at h with hc
        · obtain rfl := Option.some.inj h
          intro fr hfr
          simp at hfr
        · cases e1 : draw_line_frags fuel p1 p2 (⟨1, 1, 1⟩ : Vec3 F) with
          | none => simp [e1] at h
          | some l1 =>
            cases e2 : draw_line_frags fuel p2 p3 (⟨1, 1, 1⟩ : Vec3 F) with
            | none => simp [e1, e2] at h
            | some l2 =>
              cases e3 : draw_line_frags fuel p3 p1 (⟨1, 1, 1⟩ : Vec3 F) with
              | none => simp [e1, e2, e3] at h
              | some l3 =>
                simp only [e1, e2, e3, Option.some_bind] at h
                obtain rfl := Option.some.inj h
                intro fr hfr
                simp only [List.mem_append] at hfr
                rcases hfr with (hfr | hfr) | hfr
                · exact draw_line_loop_color _ _ _ _ _ _ _ _ _ _ _ _ l1 e1 fr hfr
                · exact draw_line_loop_color _ _ _ _ _ _ _ _ _ _ _ _ l2 e2 fr hfr
                · exact draw_line_loop_color _ _ _ _ _ _ _ _ _ _ _ _ l3 e3 fr hfr

theorem foldlM_append_color {α : Type} (g : α → Option (List (Fragment F))) (c : Vec3 F)
    (hg : ∀ a l, g a = some l → ∀ fr ∈ l, fr.color = c) :
    ∀ (items : List α) (init out : List (Fragment F)),
      items.foldlM (fun frs a => (g a).map (fun l => frs ++ l)) init = some out →
      (∀ fr ∈ init, fr.color = c) → ∀ fr ∈ out, fr.color = c := by
  intro items
  induction items with
  | nil =>
    intro init out h hi
    obtain rfl := Option.some.inj h
    exact hi
  | cons a items ih =>
    intro init out h hi
    rw [List.foldlM_cons] at h
    cases ha : g a with
    | none => simp [ha] at h
    | some l =>
      simp only [ha, Option.map_some', Option.bind_eq_bind, Option.some_bind] at h
      refine ih _ out h ?_
      intro fr hfr
      rcases List.mem_append.mp hfr with hfr | hfr
      · exact hi fr hfr
      · exact hg a l ha fr hfr

theorem to_bytes_white : Color.to_bytes (⟨1, 1, 1⟩ : Vec3 F) = (255, 255, 255) := by
  have hc : stdClamp (1 : F) 0 1 = 1 := by norm_num [stdClamp]
  have ht : toUChar ((1 : F) * 255) = 255 := by
    have h := truncInt_natCast (F := F) 255
    have e : ((255 : Nat) : F) = 1 * 255 := by norm_num
    rw [e] at h
    simp only [toUChar, h]
    rfl
  simp only [Color.to_bytes, Color.clamp, hc, ht]

end Renderer

namespace Framebuffer

/-- One call with the colour `(1, 1, 1)` leaves a pixel as it was or stores white in it. -/
theorem pixelAt_submit_white (fb : Framebuffer F) (fr : Fragment F)
    (hc : fr.color = ⟨1, 1, 1⟩) (i : Int) :
    (fb.submit fr).pixelAt i = fb.pixelAt i ∨
      ((fb.submit fr).pixelAt i).r = 255 ∧ ((fb.submit fr).pixelAt i).g = 255 ∧
        ((fb.submit fr).pixelAt i).b = 255 := by
  unfold submit
  rw [set_pixel_eq, hc, Renderer.to_bytes_white]
  split_ifs with h1 h2
  · simp only [pixelAt, List.getD_eq_getElem?_getD, List.getElem?_set]
    split_ifs with h3 h4
    · right; exact ⟨rfl, rfl, rfl⟩
    · left
      rw [← h3, List.getElem?_eq_none (not_lt.mp h4)]
    · left; rfl
  · left; rfl
  · left; rfl

theorem pixelAt_submitAll_white (frs : List (Fragment F))
    (hc : ∀ fr ∈ frs, fr.color = ⟨1, 1, 1⟩) (fb : Framebuffer F) (i : Int) :
    (fb.submitAll frs).pixelAt i = fb.pixelAt i ∨
      ((fb.submitAll frs).pixelAt i).r = 255 ∧ ((fb.submitAll frs).pixelAt i).g = 255 ∧
        ((fb.submitAll frs).pixelAt i).b = 255 := by
  induction frs generalizing fb with
  | nil => left; rfl
  | cons fr frs ih =>
    have hstep := pixelAt_submit_white fb fr (hc fr (List.mem_cons_self _ _)) i
    have hrest := ih (fun g hg => hc g (List.mem_cons_of_mem _ hg)) (fb.submit fr)
    have e : fb.submitAll (fr :: frs) = (fb.submit fr).submitAll frs := rfl
    rw [e]
    rcases hrest with h | h
    · rw [h]; exact hstep
    · right; exact h

end Framebuffer

namespace Renderer

theorem vectorAt_mem {α : Type} {v : List α} {i : Int} {a : α} (h : vectorAt v i = some a) :
    a ∈ v := by
  unfold vectorAt at h
  split_ifs at h
  exact List.mem_iff_getElem?.mpr ⟨_, h⟩

theorem wire_triangle_total (positions : List (Vec3 F)) (f : Int × Int × Int)
    (hf : Mesh.ValidFace positions.length f) (hb : ∀ p ∈ positions, PixelBound p) :
    ∃ N : Nat, ∀ fuel, N ≤ fuel → ∃ l, wire_triangle_frags fuel positions f = some l := by
  obtain ⟨h0, h1, h2⟩ := hf
  obtain ⟨p1, e1⟩ := vectorAt_valid positions f.1 h0.1 h0.2
  obtain ⟨p2, e2⟩ := vectorAt_valid positions f.2.1 h1.1 h1.2
  obtain ⟨p3, e3⟩ := vectorAt_valid positions f.2.2 h2.1 h2.2
  have b1 := hb p1 (vectorAt_mem e1)
  have b2 := hb p2 (vectorAt_mem e2)
  have b3 := hb p3 (vectorAt_mem e3)
  obtain ⟨l1, hl1, _⟩ := draw_line_frags_path p1 p2 (⟨1, 1, 1⟩ : Vec3 F) b1 b2
  obtain ⟨l2, hl2, _⟩ := draw_line_frags_path p2 p3 (⟨1, 1, 1⟩ : Vec3 F) b2 b3
  obtain ⟨l3, hl3, _⟩ := draw_line_frags_path p3 p1 (⟨1, 1, 1⟩ : Vec3 F) b3 b1
  refine ⟨(max |truncInt p2.x - truncInt p1.x| |truncInt p2.y - truncInt p1.y|).toNat +
    (max |truncInt p3.x - truncInt p2.x| |truncInt p3.y - truncInt p2.y|).toNat +
    (max |truncInt p1.x - truncInt p3.x| |truncInt p1.y - truncInt p3.y|).toNat + 1, ?_⟩
  intro fuel hfuel
  unfold wire_triangle_frags
  simp only [e1, e2, e3, Option.bind_eq_bind, Option.some_bind]
  split_ifs with hc
  · exact ⟨[], rfl⟩
  · rw [hl1 fuel (by omega), hl2 fuel (by omega), hl3 fuel (by omega)]
    exact ⟨l1 ++ l2 ++ l3, rfl⟩

theorem wire_triangles_total (positions : List (Vec3 F)) (faces : List (Int × Int × Int))
    (hf : ∀ f ∈ faces, Mesh.ValidFace positions.length f)
    (hb : ∀ p ∈ positions, PixelBound p) :
    ∃ N : Nat, ∀ fuel, N ≤ fuel → ∀ f ∈ faces,
      ∃ l, wire_triangle_frags fuel positions f = some l := by
  induction faces with
  | nil => exact ⟨0, fun _ _ f hfm => by simp at hfm⟩
  | cons f faces ih =>
    obtain ⟨N1, h1⟩ := wire_triangle_total positions f (hf f (List.mem_cons_self _ _)) hb
    obtain ⟨N2, h2⟩ := ih (fun g hg => hf g (List.mem_cons_of_mem _ hg))
    refine ⟨N1 + N2, ?_⟩
    intro fuel hfuel g hg
    rcases List.mem_cons.mp hg with hg | hg
    · rw [hg]; exact h1 fuel (by omega)
    · exact h2 fuel (by omega) g hg

theorem foldlM_append_some {α : Type} (g : α → Option (List (Fragment F))) :
    ∀ (items : List α) (init : List (Fragment F)), (∀ a ∈ items, ∃ l, g a = some l) →
      ∃ out, items.foldlM (fun frs a => (g a).map (fun l => frs ++ l)) init = some out := by
  intro items
  induction items with
  | nil => intro init _; exact ⟨init, rfl⟩
  | cons a items ih =>
    intro init h
    obtain ⟨l, hl⟩ := h a (List.mem_cons_self _ _)
    rw [List.foldlM_cons]
    simp only [hl, Option.map_some', Option.bind_eq_bind, Option.some_bind]
    exact ih _ (fun b hb => h b (List.mem_cons_of_mem _ hb))

/-- C29: wireframe output is a fixed colour that does not depend on the shading inputs.
Every pixel that a wireframe `render_mesh` changes ends with the colour bytes
`(255, 255, 255)`; two wireframe runs whose meshes have the same vertex positions, index
triples and transform (they may differ in material, vertex colours, vertex and face
normals) and whose light lists differ give the same result; and on a mesh with valid
indices whose screen positions are at most `2^28` in absolute value after truncation the
run completes once the line loops are allowed enough iterations. -/
theorem wireframe_fixed_colour (R : Renderer F) (M : Libm F) (fuel : Nat) (mesh : Mesh F)
    (camera : Camera F) (lights : List (Light F)) :
    (∀ R', render_mesh R M fuel mesh camera lights true = some R' →
      ∀ i : Int, R'.framebuffer.pixelAt i ≠ R.framebuffer.pixelAt i →
        (R'.framebuffer.pixelAt i).r = 255 ∧ (R'.framebuffer.pixelAt i).g = 255 ∧
          (R'.framebuffer.pixelAt i).b = 255) ∧
    (∀ (mesh' : Mesh F) (lights' : List (Light F)),
      mesh'.vertices.map (fun v => v.position) = mesh.vertices.map (fun v => v.position) →
      mesh'.triangles.map Mesh.indices = mesh.triangles.map Mesh.indices →
      mesh'.transform = mesh.transform →
      render_mesh R M fuel mesh' camera lights' true =
        render_mesh R M fuel mesh camera lights true) ∧
    ((∀ t ∈ mesh.triangles, Mesh.ValidFace mesh.vertices.length (Mesh.indices t)) →
      (∀ v ∈ transformed_vertices R M mesh camera, PixelBound v.position) →
      ∃ N : Nat, ∀ fuel', N ≤ fuel' →
        ∃ R', render_mesh R M fuel' mesh camera lights true = some R') := by
  refine ⟨?_, ?_, ?_⟩
  · intro R' h i hne
    unfold render_mesh at h
    rw [Option.map_eq_some'] at h
    obtain ⟨frs, hfrs, rfl⟩ := h
    rw [render_mesh_frags_wire] at hfrs
    have hwhite : ∀ fr ∈ frs, fr.color = ⟨1, 1, 1⟩ :=
      foldlM_append_color _ _ (fun f l hl => wire_triangle_color fuel _ f l hl) _ [] frs hfrs
        (fun fr hfr => by simp at hfr)
    rcases Framebuffer.pixelAt_submitAll_white frs hwhite R.framebuffer i with h | h
    · exact absurd h hne
    · exact h
  · intro mesh' lights' hp hi ht
    unfold render_mesh
    rw [render_mesh_frags_wire, render_mesh_frags_wire, transformed_positions,
      transformed_positions, hp, hi, ht]
  · intro hv hb
    obtain ⟨N, hN⟩ := wire_triangles_total
      ((transformed_vertices R M mesh camera).map (fun v => v.position))
      (mesh.triangles.map Mesh.indices)
      (by
        intro f hf
        obtain ⟨t, ht, rfl⟩ := List.mem_map.mp hf
        have hl : ((transformed_vertices R M mesh camera).map (fun v => v.position)).length =
            mesh.vertices.length := by
          simp [transformed_vertices]
        rw [hl]
        exact hv t ht)
      (by
        intro p hp
        obtain ⟨v, hv', rfl⟩ := List.mem_map.mp hp
        exact hb v hv')
    refine ⟨N, ?_⟩
    intro fuel' hfuel
    obtain ⟨out, hout⟩ := foldlM_append_some
      (wire_triangle_frags fuel'
        ((transformed_vertices R M mesh camera).map (fun v => v.position)))
      (mesh.triangles.map Mesh.indices) [] (hN fuel' hfuel)
    unfold render_mesh
    rw [render_mesh_frags_wire, hout]
    exact ⟨_, rfl⟩

theorem wireframe_fixed_colour_witness :
    render_mesh (Renderer.init 800 600) ratLibm 2000
        (⟨[⟨⟨1 / 2, -1 / 2, 1 / 2⟩, ⟨0, 1, 0⟩, ⟨1, 0, 0⟩⟩,
            ⟨⟨-1 / 2, -1 / 2, 1 / 2⟩, ⟨0, 1, 0⟩, ⟨0, 1, 0⟩⟩,
            ⟨⟨-1 / 2, 1 / 2, 1 / 2⟩, ⟨0, 1, 0⟩, ⟨0, 0, 1⟩⟩],
          [⟨0, 2, 1, ⟨0, 0, 1⟩⟩], ⟨⟨1, 0, 0⟩, ⟨0, 1, 0⟩, 8, 1 / 2⟩, Mat4.identity⟩ : Mesh ℚ)
        frontCamera sampleLights true =
      render_mesh (Renderer.init 800 600) ratLibm 2000
        (⟨nearFaceMesh.vertices, [⟨0, 2, 1, ⟨0, 0, -1⟩⟩], Material.init, Mat4.identity⟩ : Mesh ℚ)
        frontCamera [] true ∧
    ∃ N : Nat, ∀ fuel', N ≤ fuel' →
      ∃ R', render_mesh (Renderer.init 800 600) ratLibm fuel'
        (⟨nearFaceMesh.vertices, [⟨0, 2, 1, ⟨0, 0, -1⟩⟩], Material.init, Mat4.identity⟩ : Mesh ℚ)
        frontCamera [] true = some R' :=
  have h := wireframe_fixed_colour (Renderer.init 800 600) ratLibm 2000
    (⟨nearFaceMesh.vertices, [⟨0, 2, 1, ⟨0, 0, -1⟩⟩], Material.init, Mat4.identity⟩ : Mesh ℚ)
    frontCamera []
  ⟨h.2.1 _ sampleLights rfl rfl rfl,
    (wireframe_fixed_colour (Renderer.init 800 600) ratLibm 0
      (⟨nearFaceMesh.vertices, [⟨0, 2, 1, ⟨0, 0, -1⟩⟩], Material.init, Mat4.identity⟩ : Mesh ℚ)
      frontCamera []).2.2
      (by
        intro t ht
        rw [List.mem_singleton] at ht
        subst ht
        exact ⟨⟨by decide, by decide⟩, ⟨by decide, by decide⟩, ⟨by decide, by decide⟩⟩)
      (by
        show ∀ v ∈ transformed_vertices (Renderer.init 800 600) ratLibm
            (⟨nearFaceMesh.vertices, [⟨0, 2, 1, ⟨0, 0, -1⟩⟩], Material.init, Mat4.identity⟩ :
              Mesh ℚ) frontCamera,
          |truncInt v.position.x| ≤ 268435456 ∧ |truncInt v.position.y| ≤ 268435456
        decide!)⟩

end Renderer

/-! ## Orbital rotation -/

namespace Camera

theorem add_sub_cancel_vec (t v : Vec3 F) : (t.add v).sub t = v := by
  simp only [Vec3.add, Vec3.sub]
  exact Vec3.eq_of_components (by ring) (by ring) (by ring)

/-- C31: orbital rotation stays on the sphere around the target. With the accumulated
angle as explicit state, `rotate_around_target` leaves `target` (and `up`, `fov`,
`aspect_ratio`, the planes) as they are, returns the accumulated angle increased by
`angle_y`, and places the camera at `target + radius * (cos a cos x, sin x, sin a cos x)`
with `a` the new accumulated angle and `radius = |position - target|`: the position is a
function of the accumulated angle, so two calls with the same arguments from different
accumulated angles differ. When the square root is exact at the squared radius and
`sin² + cos² = 1` holds at the two angles, the distance to the target is the same after the
call as before. -/
theorem rotate_around_target_on_sphere (M : Libm F) (camera : Camera F)
    (current_angle_y angle_x angle_y : F) :
    ((camera.rotate_around_target M current_angle_y angle_x angle_y).1.target = camera.target ∧
      (camera.rotate_around_target M current_angle_y angle_x angle_y).1.up = camera.up ∧
      (camera.rotate_around_target M current_angle_y angle_x angle_y).1.fov = camera.fov) ∧
    (camera.rotate_around_target M current_angle_y angle_x angle_y).2 =
      current_angle_y + angle_y ∧
    (camera.rotate_around_target M current_angle_y angle_x angle_y).1.position =
      camera.target.add
        ⟨(camera.position.sub camera.target).length M * M.cos (current_angle_y + angle_y) *
            M.cos angle_x,
         (camera.position.sub camera.target).length M * M.sin angle_x,
         (camera.position.sub camera.target).length M * M.sin (current_angle_y + angle_y) *
            M.cos angle_x⟩ ∧
    (M.SqrtAt ((camera.position.sub camera.target).dot (camera.position.sub camera.target)) →
      M.TrigAt angle_x → M.TrigAt (current_angle_y + angle_y) →
      (((camera.rotate_around_target M current_angle_y angle_x angle_y).1.position.sub
        (camera.rotate_around_target M current_angle_y angle_x angle_y).1.target).length M =
        (camera.position.sub camera.target).length M)) ∧
    (∀ other_angle_y : F,
      M.cos (other_angle_y + angle_y) ≠ M.cos (current_angle_y + angle_y) →
      (camera.position.sub camera.target).length M * M.cos angle_x ≠ 0 →
      (camera.rotate_around_target M other_angle_y angle_x angle_y).1.position ≠
        (camera.rotate_around_target M current_angle_y angle_x angle_y).1.position) := by
  refine ⟨⟨rfl, rfl, rfl⟩, rfl, rfl, ?_, ?_⟩
  · intro hs hx ha
    have hpos : (camera.rotate_around_target M current_angle_y angle_x angle_y).1.position.sub
        (camera.rotate_around_target M current_angle_y angle_x angle_y).1.target =
        ⟨(camera.position.sub camera.target).length M * M.cos (current_angle_y + angle_y) *
            M.cos angle_x,
         (camera.position.sub camera.target).length M * M.sin angle_x,
         (camera.position.sub camera.target).length M * M.sin (current_angle_y + angle_y) *
            M.cos angle_x⟩ := add_sub_cancel_vec _ _
    rw [hpos]
    have hsq : ∀ r s ca sa cx sx : F, r * r = s → sx * sx + cx * cx = 1 →
        sa * sa + ca * ca = 1 →
        (r * ca * cx) * (r * ca * cx) + (r * sx) * (r * sx) + (r * sa * cx) * (r * sa * cx) =
          s := by
      intro r s ca sa cx sx hr hx ha
      rw [← hr]
      linear_combination (r * r * (cx * cx)) * ha + (r * r) * hx
    have h := hsq _ _ (M.cos (current_angle_y + angle_y)) (M.sin (current_angle_y + angle_y))
      (M.cos angle_x) (M.sin angle_x) hs.2 hx ha
    show M.sqrt _ = M.sqrt _
    exact congrArg M.sqrt h
  · intro other hne hr0 heq
    have hx : ((camera.rotate_around_target M other angle_x angle_y).1.position).x =
        ((camera.rotate_around_target M current_angle_y angle_x angle_y).1.position).x := by
      rw [heq]
    simp only [rotate_around_target, Vec3.add] at hx
    apply hne
    have h2 : (camera.position.sub camera.target).length M * M.cos angle_x *
        (M.cos (other + angle_y) - M.cos (current_angle_y + angle_y)) = 0 := by
      linear_combination hx
    rcases mul_eq_zero.mp h2 with h | h
    · exact absurd h hr0
    · exact sub_eq_zero.mp h

theorem rotate_around_target_on_sphere_witness :
    (((Camera.rotate_around_target
          (⟨Real.sqrt, Real.sin, Real.cos, Real.tan, fun x y => x ^ y⟩ : Libm ℝ)
          ⟨⟨3, 4, 0⟩, ⟨1, 1, 1⟩, ⟨0, 1, 0⟩, 1, 1, 1, 2⟩ 1 2 3).1.position.sub
        (Camera.rotate_around_target
          (⟨Real.sqrt, Real.sin, Real.cos, Real.tan, fun x y => x ^ y⟩ : Libm ℝ)
          ⟨⟨3, 4, 0⟩, ⟨1, 1, 1⟩, ⟨0, 1, 0⟩, 1, 1, 1, 2⟩ 1 2 3).1.target).length
        (⟨Real.sqrt, Real.sin, Real.cos, Real.tan, fun x y => x ^ y⟩ : Libm ℝ) =
      ((⟨3, 4, 0⟩ : Vec3 ℝ).sub ⟨1, 1, 1⟩).length
        (⟨Real.sqrt, Real.sin, Real.cos, Real.tan, fun x y => x ^ y⟩ : Libm ℝ)) ∧
    (Camera.rotate_around_target ratLibm frontCamera 1 0 0).1.position ≠
      (Camera.rotate_around_target ratLibm frontCamera 0 0 0).1.position :=
  ⟨(rotate_around_target_on_sphere
      (⟨Real.sqrt, Real.sin, Real.cos, Real.tan, fun x y => x ^ y⟩ : Libm ℝ)
      ⟨⟨3, 4, 0⟩, ⟨1, 1, 1⟩, ⟨0, 1, 0⟩, 1, 1, 1, 2⟩ 1 2 3).2.2.2.1
      ⟨Real.sqrt_nonneg _, Real.mul_self_sqrt (by norm_num [Vec3.dot, Vec3.sub])⟩
      (by
        show Real.sin 2 * Real.sin 2 + Real.cos 2 * Real.cos 2 = 1
        rw [← sq, ← sq]; exact Real.sin_sq_add_cos_sq 2)
      (by
        show Real.sin (1 + 3) * Real.sin (1 + 3) + Real.cos (1 + 3) * Real.cos (1 + 3) = 1
        rw [← sq, ← sq]; exact Real.sin_sq_add_cos_sq (1 + 3)),
    (rotate_around_target_on_sphere ratLibm frontCamera 0 0 0).2.2.2.2 1 (by decide!)
      (by decide!)⟩

end Camera

/-! ## Additivity of the lighting -/

namespace Vec3

theorem sum_append (a b : List (Vec3 F)) : sum (a ++ b) = (sum a).add (sum b) := by
  induction a with
  | nil =>
    show sum b = (add ⟨0, 0, 0⟩ (sum b))
    rw [add_comm_vec, add_zero_vec]
  | cons v a ih =>
    show v.add (sum (a ++ b)) = (v.add (sum a)).add (sum b)
    rw [ih, add_assoc_vec]

theorem sum_perm {a b : List (Vec3 F)} (h : a.Perm b) : sum a = sum b := by
  induction h with
  | nil => rfl
  | cons v _ ih =>
    show v.add (sum _) = v.add (sum _)
    rw [ih]
  | swap v w l =>
    show w.add (v.add (sum l)) = v.add (w.add (sum l))
    rw [← add_assoc_vec, ← add_assoc_vec, add_comm_vec w v]
  | trans _ _ ih1 ih2 => exact ih1.trans ih2

theorem sum_nonneg (l : List (Vec3 F)) (h : ∀ v ∈ l, 0 ≤ v.x ∧ 0 ≤ v.y ∧ 0 ≤ v.z) :
    0 ≤ (sum l).x ∧ 0 ≤ (sum l).y ∧ 0 ≤ (sum l).z := by
  induction l with
  | nil => exact ⟨le_rfl, le_rfl, le_rfl⟩
  | cons v l ih =>
    obtain ⟨hx, hy, hz⟩ := h v (List.mem_cons_self _ _)
    obtain ⟨ix, iy, iz⟩ := ih (fun w hw => h w (List.mem_cons_of_mem _ hw))
    exact ⟨add_nonneg hx ix, add_nonneg hy iy, add_nonneg hz iz⟩

end Vec3

namespace Renderer

theorem calculate_lighting_sum (R : Renderer F) (M : Libm F) (position normal : Vec3 F)
    (material : Material F) (lights : List (Light F)) (view_dir : Vec3 F) :
    R.calculate_lighting M position normal material lights view_dir =
      (R.calculate_lighting M position normal material [] view_dir).add
        (Vec3.sum (lights.map (phong_term M position normal material view_dir))) := by
  unfold calculate_lighting
  rw [foldl_add_light]
  rfl

theorem attenuation_pos (M : Libm F) (position : Vec3 F) (light : Light F) :
    0 < attenuation M position light := by
  unfold attenuation
  split_ifs
  · apply one_div_pos.mpr
    generalize (light.position.sub position).length M = d
    nlinarith [sq_nonneg (d + 5)]
  · exact one_pos

theorem phong_term_nonneg (M : Libm F) (position normal : Vec3 F) (material : Material F)
    (view_dir : Vec3 F) (light : Light F)
    (hpow : ∀ x : F, 0 ≤ x → 0 ≤ M.pow x material.shininess)
    (hd : 0 ≤ material.diffuse_color.x ∧ 0 ≤ material.diffuse_color.y ∧
      0 ≤ material.diffuse_color.z)
    (hs : 0 ≤ material.specular_color.x ∧ 0 ≤ material.specular_color.y ∧
      0 ≤ material.specular_color.z)
    (hc : 0 ≤ light.color.x ∧ 0 ≤ light.color.y ∧ 0 ≤ light.color.z)
    (hi : 0 ≤ light.intensity) :
    0 ≤ (phong_term M position normal material view_dir light).x ∧
      0 ≤ (phong_term M position normal material view_dir light).y ∧
      0 ≤ (phong_term M position normal material view_dir light).z := by
  have ha := (attenuation_pos M position light).le
  have hm : 0 ≤ max 0 (normal.dot (light_dir M position light)) := le_max_left _ _
  have hp := hpow _ (le_max_left 0
    (view_dir.dot (((light_dir M position light).smul (-1)).reflect normal)))
  simp only [phong_term, Vec3.smul, Vec3.add, Vec3.mul]
  obtain ⟨hd1, hd2, hd3⟩ := hd
  obtain ⟨hs1, hs2, hs3⟩ := hs
  obtain ⟨hc1, hc2, hc3⟩ := hc
  refine ⟨?_, ?_, ?_⟩ <;> positivity

/-- C32: lighting is additive over the light list. For all light lists `L1`, `L2`,
`calculate_lighting(L1 ++ L2) = calculate_lighting(L1) + calculate_lighting(L2) - ambient`
with `ambient = calculate_lighting([])`; the result is the same for every permutation of
the lights; and when the components of the material colours and of the light colours and
the light intensities are non-negative (and the library power of a non-negative base is
non-negative), every component of the result is at least the ambient component. -/
theorem calculate_lighting_additive (R : Renderer F) (M : Libm F) (position normal : Vec3 F)
    (material : Material F) (view_dir : Vec3 F) :
    (∀ L1 L2 : List (Light F),
      R.calculate_lighting M position normal material (L1 ++ L2) view_dir =
        ((R.calculate_lighting M position normal material L1 view_dir).add
          (R.calculate_lighting M position normal material L2 view_dir)).sub
          (R.calculate_lighting M position normal material [] view_dir)) ∧
    (∀ L1 L2 : List (Light F), L1.Perm L2 →
      R.calculate_lighting M position normal material L1 view_dir =
        R.calculate_lighting M position normal material L2 view_dir) ∧
    ((∀ x : F, 0 ≤ x → 0 ≤ M.pow x material.shininess) →
      (0 ≤ material.diffuse_color.x ∧ 0 ≤ material.diffuse_color.y ∧
        0 ≤ material.diffuse_color.z) →
      (0 ≤ material.specular_color.x ∧ 0 ≤ material.specular_color.y ∧
        0 ≤ material.specular_color.z) →
      ∀ lights : List (Light F),
        (∀ light ∈ lights, (0 ≤ light.color.x ∧ 0 ≤ light.color.y ∧ 0 ≤ light.color.z) ∧
          0 ≤ light.intensity) →
        (R.calculate_lighting M position normal material [] view_dir).x ≤
            (R.calculate_lighting M position normal material lights view_dir).x ∧
          (R.calculate_lighting M position normal material [] view_dir).y ≤
            (R.calculate_lighting M position normal material lights view_dir).y ∧
          (R.calculate_lighting M position normal material [] view_dir).z ≤
            (R.calculate_lighting M position normal material lights view_dir).z) := by
  refine ⟨?_, ?_, ?_⟩
  · intro L1 L2
    rw [calculate_lighting_sum R M position normal material (L1 ++ L2),
      calculate_lighting_sum R M position normal material L1,
      calculate_lighting_sum R M position normal material L2, List.map_append,
      Vec3.sum_append]
    simp only [Vec3.add, Vec3.sub]
    exact Vec3.eq_of_components (by ring) (by ring) (by ring)
  · intro L1 L2 hp
    rw [calculate_lighting_sum R M position normal material L1,
      calculate_lighting_sum R M position normal material L2,
      Vec3.sum_perm (hp.map _)]
  · intro hpow hd hs lights hl
    have hsum := Vec3.sum_nonneg
      (lights.map (phong_term M position normal material view_dir))
      (by
        intro v hv
        obtain ⟨light, hlight, rfl⟩ := List.mem_map.mp hv
        exact phong_term_nonneg M position normal material view_dir light hpow hd hs
          (hl light hlight).1 (hl light hlight).2)
    rw [calculate_lighting_sum R M position normal material lights]
    simp only [Vec3.add]
    exact ⟨le_add_of_nonneg_right hsum.1, le_add_of_nonneg_right hsum.2.1,
      le_add_of_nonneg_right hsum.2.2⟩

theorem calculate_lighting_additive_witness :
    (Renderer.init 800 600 : Renderer ℚ).calculate_lighting ratLibm ⟨0, 0, 0⟩ ⟨0, 0, 1⟩
        Material.init sampleLights.reverse ⟨0, 0, 1⟩ =
      (Renderer.init 800 600 : Renderer ℚ).calculate_lighting ratLibm ⟨0, 0, 0⟩ ⟨0, 0, 1⟩
        Material.init sampleLights ⟨0, 0, 1⟩ ∧
    ((Renderer.init 800 600 : Renderer ℚ).calculate_lighting ratLibm ⟨0, 0, 0⟩ ⟨0, 0, 1⟩
        Material.init [] ⟨0, 0, 1⟩).x ≤
      ((Renderer.init 800 600 : Renderer ℚ).calculate_lighting ratLibm ⟨0, 0, 0⟩ ⟨0, 0, 1⟩
        Material.init sampleLights ⟨0, 0, 1⟩).x :=
  have h := calculate_lighting_additive (Renderer.init 800 600 : Renderer ℚ) ratLibm
    ⟨0, 0, 0⟩ ⟨0, 0, 1⟩ Material.init ⟨0, 0, 1⟩
  ⟨h.2.1 _ _ (List.reverse_perm sampleLights),
    (h.2.2 (fun _ hx => hx) (by decide!) (by decide!) sampleLights (by decide!)).1⟩

end Renderer

end Proofs

end Renderer3D
